import Mathlib

/-! # gpiovlc: visible light communication driver via GPIO

A shallow embedding of `src/gpiovlc/gpiovlc.c`.  The file-scope variables of the
driver become the fields of one record, `VlcState`; every function of the driver
becomes a function on that record.  What the driver asks of the kernel (the clock,
the GPIO layer, the copy to the caller, the wait queue) enters the functions as
explicit arguments.

Machine integers are `Int`/`Nat`; the signed 64-bit and 32-bit additions of the
source are wrapped explicitly (`wrap_s64`, `wrap_int`), division is the truncating
division of C (`Int.tdiv`, `Int.tmod`).
-/

namespace Gpiovlc

/-! ## Constants of the source -/

/-- Constant `STATE_SYNC` of the source (line 34). -/
def STATE_SYNC : Int := 1
/-- Constant `STATE_DATA` of the source (line 35). -/
def STATE_DATA : Int := 2
/-- Constant `SYNC_LEN` of the source (line 36): the number of pilot edges. -/
def SYNC_LEN : Int := 2
/-- Constant `RING_SIZE` of the source (line 54). -/
def RING_SIZE : Nat := 64

/-- Linux `EAGAIN`. -/
def EAGAIN : Int := 11
/-- Linux `EFAULT`. -/
def EFAULT : Int := 14
/-- Linux `EBUSY`. -/
def EBUSY : Int := 16
/-- Linux `EINVAL`. -/
def EINVAL : Int := 22
/-- Linux `ERESTARTSYS`. -/
def ERESTARTSYS : Int := 512
/-- Linux `O_NONBLOCK` (octal 04000). -/
def O_NONBLOCK : Nat := 2048

/-! ## Machine arithmetic -/

/-- Two's complement wrap of an integer into the range of `s64`. -/
def wrap_s64 (x : Int) : Int := (x + 2 ^ 63) % 2 ^ 64 - 2 ^ 63

/-- Two's complement wrap of an integer into the range of `int`. -/
def wrap_int (x : Int) : Int := (x + 2 ^ 31) % 2 ^ 32 - 2 ^ 31

/-- The value a `char` slot keeps of an `int`: its low eight bits, as `0..255`. -/
def to_char (x : Int) : Nat := (x % 256).toNat

/-! ## State -/

/-- The file-scope variables of `gpiovlc.c` (lines 38-60).  `ring_data` is the
array `ring_data[RING_SIZE]`, a slot holding the byte value `0..255`. -/
structure VlcState where
  configured : Bool
  gpio_vlc : Nat
  irq_nr : Nat
  ts_diff : Int
  delay : Int
  debounce : Nat
  state : Int
  pilot_count : Int
  pulse_len : Int
  data : Int
  data_bit : Int
  pulse_bit : Int
  stop_bit : Bool
  ring_head : Nat
  ring_tail : Nat
  ring_data : Nat → Nat
  next_head : Nat

/-- Function `reset_state` (lines 62-67). -/
def reset_state (s : VlcState) : VlcState :=
  { s with state := STATE_SYNC, pilot_count := 0, pulse_len := 0 }

/-- The `STATE_SYNC` case of the switch in `vlc_irq_handler` (lines 79-94). -/
def irq_sync (s : VlcState) : VlcState :=
  let s := { s with pulse_len := wrap_s64 (s.pulse_len + s.ts_diff) }
  let s := { s with pilot_count := wrap_int (s.pilot_count + 1) }
  let s :=
    if Int.tmod s.pilot_count 2 = 0 then
      let s := { s with pulse_len := Int.tdiv s.pulse_len SYNC_LEN }
      { s with pulse_len := wrap_s64 (s.pulse_len + Int.tdiv s.pulse_len 2) }
    else s
  if s.pilot_count = SYNC_LEN then
    { s with state := STATE_DATA, data := 0, data_bit := 7, stop_bit := false }
  else s

/-- The `STATE_DATA` case of the switch in `vlc_irq_handler` (lines 96-118).
The shift `pulse_bit << data_bit` is defined in C for `0 <= data_bit < 31` only;
on that range the embedding is the C value. -/
def irq_data (s : VlcState) : VlcState :=
  if !s.stop_bit then
    let s := { s with pulse_bit := if s.ts_diff < s.pulse_len then 0 else 1 }
    let s := { s with data := Int.lor s.data (wrap_int (s.pulse_bit <<< s.data_bit)) }
    if s.data_bit ≠ 0 then
      { s with data_bit := wrap_int (s.data_bit - 1) }
    else
      let s := { s with next_head := (s.ring_head + 1) % RING_SIZE }
      let s :=
        if s.next_head ≠ s.ring_tail then
          { s with ring_data := Function.update s.ring_data s.ring_head (to_char s.data),
                   ring_head := s.next_head }
        else s
      { s with data := 0, data_bit := 7, stop_bit := true }
  else
    { s with stop_bit := false }

/-- Function `vlc_irq_handler` (lines 69-124).  The argument `ts_diff` is the value of
`ktime_us_delta(ts_current, ts_last)` that lines 70-72 compute from the clock; it
is stored in the variable `ts_diff` like the source does. -/
def vlc_irq_handler (s : VlcState) (ts_diff : Int) : VlcState :=
  let s := { s with ts_diff := ts_diff }
  if s.ts_diff > 999999 then
    reset_state s
  else if s.ts_diff > s.delay then
    if s.state = STATE_SYNC then irq_sync s
    else if s.state = STATE_DATA then irq_data s
    else s
  else s

/-- The handler run on a sequence of deltas, one interrupt after the other. -/
def run_irqs (s : VlcState) (ds : List Int) : VlcState :=
  ds.foldl vlc_irq_handler s

/-- The state `gpiovlc_init` leaves (lines 291-328): the initialisers of the
file-scope variables (lines 38-60, the rest zero), then `reset_state`. -/
def boot_state : VlcState :=
  reset_state
    { configured := false, gpio_vlc := 23, irq_nr := 0, ts_diff := 0, delay := 0,
      debounce := 0, state := 0, pilot_count := 0, pulse_len := 0, data := 0,
      data_bit := 0, pulse_bit := 0, stop_bit := false, ring_head := 0, ring_tail := 0,
      ring_data := fun _ => 0, next_head := 0 }

/-- The ring buffer variables of the second state are those of the first. -/
def same_ring (s s' : VlcState) : Prop :=
  s'.ring_head = s.ring_head ∧ s'.ring_tail = s.ring_tail ∧ s'.ring_data = s.ring_data

/-- The decoder variables (`state`, `pilot_count`, `pulse_len`, `data`, `data_bit`,
`stop_bit`) of the second state are those of the first. -/
def same_decoder (s s' : VlcState) : Prop :=
  s'.state = s.state ∧ s'.pilot_count = s.pilot_count ∧ s'.pulse_len = s.pulse_len ∧
  s'.data = s.data ∧ s'.data_bit = s.data_bit ∧ s'.stop_bit = s.stop_bit

/-- Number of unread bytes: the distance from `ring_tail` to `ring_head` modulo 64. -/
def ring_count (s : VlcState) : Nat :=
  (s.ring_head + RING_SIZE - s.ring_tail) % RING_SIZE

/-- The unread bytes, oldest first: the slots `tail, tail+1, ..., head-1` modulo 64. -/
def ring_contents (s : VlcState) : List Nat :=
  (List.range (ring_count s)).map (fun i => s.ring_data ((s.ring_tail + i) % RING_SIZE))

/-! ## The decoded byte, as the specification words it -/

/-- Bit value of a delta against the threshold `T`: 0 when shorter, 1 otherwise. -/
def pulse_bit_of (T x : Int) : Nat := if x < T then 0 else 1

/-- The bits of a sequence of deltas appended below an accumulator, first delta
most significant. -/
def decode_acc (T : Int) (acc : Nat) (xs : List Int) : Nat :=
  xs.foldl (fun a x => 2 * a + pulse_bit_of T x) acc

/-- The byte of a frame of deltas: the sequence read as bit 7 down to bit 0. -/
def decode_frame (T : Int) (xs : List Int) : Nat := decode_acc T 0 xs

/-- The deltas of a run of frames: the frames in order, one gap delta between two
consecutive frames. -/
def frame_deltas : List (List Int) → List Int → List Int
  | [], _ => []
  | [f], _ => f
  | f :: fs, [] => f ++ frame_deltas fs []
  | f :: fs, g :: gs => f ++ g :: frame_deltas fs gs

/-! ## Pin configuration -/

/-- Calls into the GPIO and interrupt layers, in the order they are made. -/
inductive GpioCall where
  | free_irq (irq : Nat)
  | gpio_free (gpio : Nat)
  | gpio_request (gpio : Nat)
  | gpio_direction_input (gpio : Nat)
  | gpio_set_debounce (gpio debounce : Nat)
  | request_irq (irq : Nat)
  deriving DecidableEq, Repr

/-- What the GPIO and interrupt layers answer: the result of `gpio_request`, of
`gpio_to_irq` and of `request_irq`, each by its argument. -/
structure GpioEnv where
  gpio_request : Nat → Int
  gpio_to_irq : Nat → Nat
  request_irq : Nat → Int

/-- Function `unhook_gpio_irq` (lines 126-132): the new state and the calls made. -/
def unhook_gpio_irq (s : VlcState) : VlcState × List GpioCall :=
  if s.configured then
    ({ s with configured := false }, [GpioCall.free_irq s.irq_nr, GpioCall.gpio_free s.gpio_vlc])
  else (s, [])

/-- Function `hook_gpio_irq` (lines 134-161): the returned `result`, the new state and
the calls made. -/
def hook_gpio_irq (env : GpioEnv) (s : VlcState) (new_gpio : Nat) :
    Int × VlcState × List GpioCall :=
  let u := unhook_gpio_irq s
  let s := u.1
  let s := { s with gpio_vlc := new_gpio }
  let result := env.gpio_request s.gpio_vlc
  if result ≠ 0 then
    (result, s, u.2 ++ [GpioCall.gpio_request s.gpio_vlc])
  else
    let s := { s with irq_nr := env.gpio_to_irq s.gpio_vlc }
    let result := env.request_irq s.irq_nr
    let s := reset_state s
    let s := { s with ring_head := 0 }
    let s := { s with ring_tail := 0 }
    let s := { s with configured := true }
    (result, s, u.2 ++ [GpioCall.gpio_request s.gpio_vlc, GpioCall.gpio_direction_input s.gpio_vlc,
      GpioCall.gpio_set_debounce s.gpio_vlc s.debounce, GpioCall.request_irq s.irq_nr])

/-! ## The read endpoint -/

/-- What happens while a reader sleeps in `wait_event_interruptible`: a signal for
the reader, or an interrupt of the pin with its delta (the producer runs). -/
inductive WaitEvent where
  | signal
  | irq (ts_diff : Int)
  deriving DecidableEq, Repr

/-- What a call of `dev_read` leaves: the returned value, the bytes copied to the
caller in order, the new state and the events not consumed. -/
structure ReadOutcome where
  result : Int
  delivered : List Nat
  st : VlcState
  pending : List WaitEvent

/-- The first loop of `dev_read` (lines 253-262).  A sleeping reader consumes the
events of its environment: an interrupt runs `vlc_irq_handler`, after which the
wait condition `ring_head != ring_tail` is tested again; a signal ends the wait
with `-ERESTARTSYS`.  With no event left and the buffer empty the reader is still
asleep: `none`.  The value is the `result` at the end of the loop (0 when the loop
was left normally). -/
def dev_read_wait (f_flags : Nat) : List WaitEvent → VlcState →
    Option (Int × VlcState × List WaitEvent)
  | [], s =>
    if s.ring_head = s.ring_tail then
      if f_flags &&& O_NONBLOCK ≠ 0 then some (-EAGAIN, s, []) else none
    else some (0, s, [])
  | ev :: rest, s =>
    if s.ring_head = s.ring_tail then
      if f_flags &&& O_NONBLOCK ≠ 0 then some (-EAGAIN, s, ev :: rest)
      else
        match ev with
        | WaitEvent.signal => some (-ERESTARTSYS, s, rest)
        | WaitEvent.irq d => dev_read_wait f_flags rest (vlc_irq_handler s d)
    else some (0, s, ev :: rest)

/-- The second loop of `dev_read` (lines 264-273).  `copy_to_user pos` is the value
`copy_to_user` returns for the byte at offset `pos` of the caller's buffer (0 when
the byte was copied); `len` counts down like the source's `len--`. -/
def dev_read_drain (copy_to_user : Nat → Nat) :
    Nat → VlcState → Nat → Int → List Nat → Int × List Nat × VlcState
  | 0, s, _, result, out => (result, out, s)
  | len + 1, s, pos, result, out =>
    if s.ring_head ≠ s.ring_tail then
      let chr := s.ring_data s.ring_tail
      let error_count := copy_to_user pos
      let s := { s with ring_tail := (s.ring_tail + 1) % RING_SIZE }
      let result := result + 1
      if error_count ≠ 0 then (-EFAULT, out, s)
      else dev_read_drain copy_to_user len s (pos + 1) result (out ++ [chr])
    else (result, out, s)

/-- Function `dev_read` (lines 248-277). -/
def dev_read (s : VlcState) (f_flags len : Nat) (copy_to_user : Nat → Nat)
    (events : List WaitEvent) : Option ReadOutcome :=
  match dev_read_wait f_flags events s with
  | none => none
  | some (r, s, rest) =>
    if r ≠ 0 then some { result := r, delivered := [], st := s, pending := rest }
    else
      let d := dev_read_drain copy_to_user len s 0 0 []
      some { result := d.1, delivered := d.2.1, st := d.2.2, pending := rest }

/-- A `copy_to_user` that copies every byte. -/
def copy_ok : Nat → Nat := fun _ => 0

/-- A receiving decoder used as concrete input: threshold 1500, accumulator
cleared, next bit 7, empty ring buffer. -/
def receiving_1500 : VlcState :=
  { boot_state with state := STATE_DATA, pilot_count := 2, pulse_len := 1500,
                    data := 0, data_bit := 7, stop_bit := false }

/-- A receiving decoder with a partly assembled byte and a glitch threshold of two
seconds, an accepted value of the glitch-threshold endpoint. -/
def receiving_slow_glitch : VlcState :=
  { receiving_1500 with delay := 2000000, data := 160, data_bit := 4 }

/-- An attached state with one unread byte, 65, in the ring buffer. -/
def one_unread : VlcState :=
  { boot_state with configured := true, ring_head := 1,
                    ring_data := fun i => if i = 0 then 65 else 0 }

/-- A GPIO layer in which every request succeeds. -/
def gpio_ok : GpioEnv :=
  { gpio_request := fun _ => 0, gpio_to_irq := fun g => g + 100, request_irq := fun _ => 0 }

/-- Detach, then attach `new_gpio`: the result of the attach and the state left. -/
def reattach (env : GpioEnv) (s : VlcState) (new_gpio : Nat) : Int × VlcState :=
  let r := hook_gpio_irq env (unhook_gpio_irq s).1 new_gpio
  (r.1, r.2.1)

/-! ## The ring buffer against a bounded queue -/

/-- The byte a call of `vlc_irq_handler` completes, when it completes one: the
delta qualifies, the decoder is in `STATE_DATA`, no stop gap is awaited and the
bit index is 0 (the `else` branch of lines 103-114).  The byte is the accumulator
with bit 0 set from the delta, as a `char`. -/
def completed_byte (s : VlcState) (d : Int) : Option Nat :=
  if d ≤ 999999 ∧ s.delay < d ∧ s.state = STATE_DATA ∧ s.stop_bit = false ∧ s.data_bit = 0 then
    some (to_char (Int.lor s.data
      (wrap_int ((if d < s.pulse_len then (0 : Int) else 1) <<< (0 : Int)))))
  else none

/-- Operations of the bounded queue of the specification. -/
inductive FifoOp where
  | push (b : Nat)
  | take (n : Nat)
  deriving DecidableEq, Repr

/-- The bounded queue of capacity 63, as the specification words it: a push
appends when fewer than 63 bytes are queued and is dropped otherwise, a take
removes up to `n` bytes from the front.  The value is the final queue and the
bytes taken, in order. -/
def fifo_run : List FifoOp → List Nat → List Nat × List Nat
  | [], q => (q, [])
  | FifoOp.push b :: ops, q => fifo_run ops (if q.length < 63 then q ++ [b] else q)
  | FifoOp.take n :: ops, q =>
    let r := fifo_run ops (q.drop n)
    (r.1, q.take n ++ r.2)

/-- One step of an interleaving of the producer and the consumer: an interrupt
with its delta, or a call of `dev_read` with its flags and length. -/
inductive RingOp where
  | irq (ts_diff : Int)
  | read (f_flags len : Nat)
  deriving DecidableEq, Repr

/-- The driver run on an interleaving: the final state and the bytes delivered to
the consumer, in order.  Every copy to the caller succeeds.  A blocking read of an
empty buffer does not return (`none`): in an interleaving such a read stands after
the interrupt that wakes it. -/
def run_ops : List RingOp → VlcState → Option (VlcState × List Nat)
  | [], s => some (s, [])
  | RingOp.irq d :: ops, s => run_ops ops (vlc_irq_handler s d)
  | RingOp.read f_flags len :: ops, s =>
    match dev_read s f_flags len copy_ok [] with
    | none => none
    | some r =>
      match run_ops ops r.st with
      | none => none
      | some (s', out) => some (s', r.delivered ++ out)

/-- The queue operations an interleaving stands for: an interrupt that completes
a byte is a push of that byte, any other interrupt is no operation, a read of
length `len` that returns is a take of `len`. -/
def fifo_ops : List RingOp → VlcState → List FifoOp
  | [], _ => []
  | RingOp.irq d :: ops, s =>
    match completed_byte s d with
    | some b => FifoOp.push b :: fifo_ops ops (vlc_irq_handler s d)
    | none => fifo_ops ops (vlc_irq_handler s d)
  | RingOp.read f_flags len :: ops, s =>
    match dev_read s f_flags len copy_ok [] with
    | none => []
    | some r => FifoOp.take len :: fifo_ops ops r.st

/-- The bytes pushed by a sequence of queue operations, in order. -/
def fifo_pushed : List FifoOp → List Nat
  | [] => []
  | FifoOp.push b :: ops => b :: fifo_pushed ops
  | FifoOp.take _ :: ops => fifo_pushed ops

/-- A receiving decoder at the last bit of a byte, with a full ring buffer (63
unread bytes). -/
def full_ring : VlcState :=
  { receiving_1500 with data := 160, data_bit := 0, ring_head := 63, ring_tail := 0 }

/-- An interleaving used as concrete input: the preamble, a frame of eight long
intervals, a non-blocking read of up to four bytes. -/
def demo_ops : List RingOp :=
  [RingOp.irq 1000, RingOp.irq 1000, RingOp.irq 2000, RingOp.irq 2000, RingOp.irq 2000,
   RingOp.irq 2000, RingOp.irq 2000, RingOp.irq 2000, RingOp.irq 2000, RingOp.irq 2000,
   RingOp.read O_NONBLOCK 4]

/-- A state with three unread bytes 10, 20, 30 at the end of the array, so that
the indices wrap around. -/
def three_unread : VlcState :=
  { boot_state with ring_head := 1, ring_tail := 62,
                    ring_data := fun i => if i = 62 then 10 else if i = 63 then 20
                                          else if i = 0 then 30 else 0 }

/-! ## The control endpoints -/

/-- The test `!strncmp(buf, "off", (count > 3 ? 3 : count))` of `gpio_vlc_store`
(line 173): the first `min count 3` bytes written are those of `off`. -/
def is_off (buf : List Nat) : Bool :=
  buf.take (min buf.length 3) = ([111, 102, 102] : List Nat).take (min buf.length 3)

/-- Function `gpio_vlc_store` (lines 171-183).  `buf` holds the `count` bytes
written; `scanned` is the value `sscanf(buf, "%du", &new_gpio)` leaves in `new_gpio`
(0 when no number is found).  The value is the returned count or error, the new
state and the calls made. -/
def gpio_vlc_store (env : GpioEnv) (s : VlcState) (buf : List Nat) (scanned : Int) :
    Int × VlcState × List GpioCall :=
  if is_off buf then
    let u := unhook_gpio_irq s
    ((buf.length : Int), u.1, u.2)
  else
    let new_gpio := scanned
    if new_gpio < 0 then (-EINVAL, s, [])
    else
      let h := hook_gpio_irq env s new_gpio.toNat
      if h.1 ≠ 0 then (-EINVAL, h.2.1, h.2.2)
      else ((buf.length : Int), h.2.1, h.2.2)

/-- Function `delay_store` (lines 198-207).  `new_delay` is the value
`sscanf(buf, "%lu", &new_delay)` leaves in the `long` (0 when no number is found),
`count` the number of bytes written. -/
def delay_store (s : VlcState) (new_delay : Int) (count : Nat) : Int × VlcState :=
  if new_delay ≥ 0 ∧ new_delay < 500000000 then
    ((count : Int), { s with delay := new_delay })
  else (-EINVAL, s)

/-! ## The open guard -/

/-- Kernel `mutex_trylock` on a mutex modelled by a boolean (`true` = held): it
returns 1 and takes the mutex when it is free, 0 otherwise. -/
def mutex_trylock (dev_mutex : Bool) : Int × Bool :=
  if dev_mutex then (0, dev_mutex) else (1, true)

/-- Function `dev_open` (lines 240-246): the returned value and `dev_mutex` after. -/
def dev_open (dev_mutex : Bool) : Int × Bool :=
  let t := mutex_trylock dev_mutex
  if t.1 = 0 then (-EBUSY, t.2) else (0, t.2)

/-- Function `dev_release` (lines 279-283): `mutex_unlock`, then 0. -/
def dev_release (_dev_mutex : Bool) : Int × Bool := (0, false)

/-- A call on the read endpoint. -/
inductive FileOp where
  | fopen
  | frelease
  deriving DecidableEq, Repr

/-- The read endpoint under a sequence of calls: `dev_mutex` and the number of
successful opens not yet released.  The kernel calls `release` for an open file
only: a `frelease` with no open outstanding is not a sequence of calls the driver
can see (`none`). -/
def run_file_ops : List FileOp → Bool × Nat → Option (Bool × Nat)
  | [], st => some st
  | FileOp.fopen :: ops, (m, n) =>
    let r := dev_open m
    run_file_ops ops (r.2, if r.1 = 0 then n + 1 else n)
  | FileOp.frelease :: ops, (m, n) =>
    match n with
    | 0 => none
    | k + 1 => run_file_ops ops ((dev_release m).2, k)

/-- A GPIO layer in which every pin is busy. -/
def gpio_busy : GpioEnv :=
  { gpio_request := fun _ => -16, gpio_to_irq := fun g => g + 100, request_irq := fun _ => 0 }

/-! ## Reachable states of the decoder -/

/-- The invariant of the decoder: the state is `STATE_SYNC` or `STATE_DATA`; while
syncing either no pilot edge was seen (sum 0) or one (sum in `0..999999`); while
receiving the threshold is in `0..1499998`, the bits of `data` at positions
`0..data_bit` are clear and an awaited stop gap goes with `data_bit = 7`;
`data_bit` is in `0..7`, `data` in `0..255`, the ring indices are below 64 and the
glitch threshold is not negative. -/
def decoder_inv (s : VlcState) : Prop :=
  (s.state = STATE_SYNC ∨ s.state = STATE_DATA) ∧
  (s.state = STATE_SYNC →
    (s.pilot_count = 0 ∧ s.pulse_len = 0) ∨
    (s.pilot_count = 1 ∧ 0 ≤ s.pulse_len ∧ s.pulse_len ≤ 999999)) ∧
  (s.state = STATE_DATA →
    0 ≤ s.pulse_len ∧ s.pulse_len ≤ 1499998 ∧
    s.data % 2 ^ (s.data_bit.toNat + 1) = 0 ∧
    (s.stop_bit = true → s.data_bit = 7)) ∧
  0 ≤ s.data_bit ∧ s.data_bit ≤ 7 ∧ 0 ≤ s.data ∧ s.data ≤ 255 ∧
  s.ring_head < RING_SIZE ∧ s.ring_tail < RING_SIZE ∧ 0 ≤ s.delay

/-- The bytes the handler completes on a sequence of deltas, in order (whether
the ring buffer has room for them or not). -/
def completed_bytes : VlcState → List Int → List Nat
  | _, [] => []
  | s, d :: ds =>
    match completed_byte s d with
    | some b => b :: completed_bytes (vlc_irq_handler s d) ds
    | none => completed_bytes (vlc_irq_handler s d) ds

/-- Two states that agree on what the decoder reads after a resync: the glitch
threshold, the ring buffer, `state`, `pilot_count`, `pulse_len`, and, while
receiving, `data`, `data_bit` and `stop_bit`. -/
def resync_equiv (s t : VlcState) : Prop :=
  s.delay = t.delay ∧ same_ring s t ∧
  s.state = t.state ∧ s.pilot_count = t.pilot_count ∧ s.pulse_len = t.pulse_len ∧
  (s.state = STATE_DATA →
    s.data = t.data ∧ s.data_bit = t.data_bit ∧ s.stop_bit = t.stop_bit)

/-- The variables the handler reads, the others blanked: `configured`,
`gpio_vlc`, `irq_nr`, `debounce` are never read by it, `ts_diff`, `pulse_bit` and
`next_head` are written before they are read. -/
def decoder_view (s : VlcState) : VlcState :=
  { s with configured := false, gpio_vlc := 0, irq_nr := 0, ts_diff := 0, debounce := 0,
           pulse_bit := 0, next_head := 0 }

/-- The state after `gpiovlc_init` with the glitch threshold set to `g`. -/
def boot_with (g : Int) : VlcState := { boot_state with delay := g }

/-- A receiving decoder in the middle of a byte: bits 7..5 received (`101`), next
bit 4, threshold 1500, empty ring buffer, glitch threshold 0. -/
def mid_byte : VlcState :=
  { receiving_1500 with data := 160, data_bit := 4 }

/-- A receiving decoder that has just completed a byte and awaits the stop gap. -/
def awaiting_gap : VlcState :=
  { receiving_1500 with stop_bit := true }

/-- A receiving decoder at the last bit of a byte, with room in the ring buffer. -/
def last_bit : VlcState :=
  { receiving_1500 with data := 160, data_bit := 0 }

end Gpiovlc

/-! # st7066u: character display driver

A shallow embedding of `src/st7066u/st7066u.c`: the 4x20 shadow buffer, the
cursor, the scrolling of `new_line` and the command bytes of `lcd_write`.  What the
driver sends to the display, every store into `lcd_buffer`, every byte it reads
from the caller's buffer and every command handler it invokes are recorded, in
order, in the field `log` of the state.
-/

namespace St7066u

/-- Constant `LCD_WIDTH` of the source (line 56). -/
def LCD_WIDTH : Int := 20
/-- Constant `LCD_HEIGHT` of the source (line 57). -/
def LCD_HEIGHT : Int := 4
/-- Constant `CMD_CLEAR_DISPLAY` of the source. -/
def CMD_CLEAR_DISPLAY : Nat := 1
/-- Constant `CMD_RETURN_HOME` of the source. -/
def CMD_RETURN_HOME : Nat := 2
/-- Constant `CMD_DISPLAY` of the source. -/
def CMD_DISPLAY : Nat := 8
/-- Constant `CMD_DSP_ON` of the source. -/
def CMD_DSP_ON : Nat := 4
/-- Constant `CMD_DSP_CUR_ON` of the source. -/
def CMD_DSP_CUR_ON : Nat := 2
/-- Constant `CMD_DSP_CUR_BLINK` of the source. -/
def CMD_DSP_CUR_BLINK : Nat := 1
/-- Constant `CMD_SET_CGRAM` of the source. -/
def CMD_SET_CGRAM : Nat := 64
/-- Linux `EFAULT`. -/
def EFAULT : Int := 14
/-- Linux `ERESTARTSYS`. -/
def ERESTARTSYS : Int := 512

/-- The array `lcd_rows` (lines 64-69): the display address of each row.  An index
outside `0..3` is outside the array; the embedding gives 0 there. -/
def lcd_rows (y : Int) : Int :=
  if y = 0 then 128 else if y = 1 then 192 else if y = 2 then 148
  else if y = 3 then 212 else 0

/-- What the driver does, in order. -/
inductive LcdEvent where
  | command (c : Nat)
  | character (c : Nat)
  | store (y x : Int) (c : Nat)
  | read (i : Nat)
  | invoke (entry arg : Nat)
  deriving DecidableEq, Repr

/-- The file-scope variables `lcd_buffer`, `cursor_x`, `cursor_y` and
`draw_mode_reset` (lines 93-96), and the record of what the driver did. -/
structure LcdState where
  lcd_buffer : Int → Int → Nat
  cursor_x : Int
  cursor_y : Int
  draw_mode_reset : Bool
  log : List LcdEvent

/-- Function `send_command` (lines 117-123), as the byte sent with `RS = 0`. -/
def send_command (s : LcdState) (c : Nat) : LcdState :=
  { s with log := s.log ++ [LcdEvent.command (c % 256)] }

/-- Function `send_character` (lines 125-128), as the byte sent with `RS = 1`. -/
def send_character (s : LcdState) (c : Nat) : LcdState :=
  { s with log := s.log ++ [LcdEvent.character (c % 256)] }

/-- The macro `lcd_xy(x, y)` (lines 71-72). -/
def lcd_xy (s : LcdState) (x y : Int) : LcdState :=
  send_command s ((Int.tmod x LCD_WIDTH + lcd_rows (Int.tmod y LCD_HEIGHT)) % 256).toNat

/-- A store `lcd_buffer[y][x] = c`. -/
def buffer_store (s : LcdState) (y x : Int) (c : Nat) : LcdState :=
  { s with lcd_buffer := fun y' x' => if y' = y ∧ x' = x then c else s.lcd_buffer y' x',
           log := s.log ++ [LcdEvent.store y x c] }

/-- Function `clear_buffer` (lines 130-137). -/
def clear_buffer (s : LcdState) : LcdState :=
  (List.range 4).foldl
    (fun s (b_y : Nat) =>
      (List.range 20).foldl (fun s (b_x : Nat) => buffer_store s (b_y : Int) (b_x : Int) 32) s)
    s

/-- Function `print_buffer` (lines 139-147). -/
def print_buffer (s : LcdState) : LcdState :=
  (List.range 4).foldl
    (fun s (b_y : Nat) =>
      (List.range 20).foldl
        (fun s (b_x : Nat) => send_character s (s.lcd_buffer (b_y : Int) (b_x : Int)))
        (lcd_xy s 0 (b_y : Int))) s

/-- The scrolling of `new_line` (lines 156-163): every row takes the row below,
the last row is filled with spaces. -/
def scroll_up (s : LcdState) : LcdState :=
  let s := (List.range 3).foldl
    (fun s (b_y : Nat) =>
      (List.range 20).foldl
        (fun s (b_x : Nat) =>
          buffer_store s (b_y : Int) (b_x : Int) (s.lcd_buffer ((b_y : Int) + 1) (b_x : Int)))
        s) s
  (List.range 20).foldl
    (fun s (b_x : Nat) => buffer_store s (LCD_HEIGHT - 1) (b_x : Int) 32) s

/-- Function `new_line` (lines 149-167). -/
def new_line (s : LcdState) : LcdState :=
  let s := { s with cursor_x := 0 }
  let s := { s with cursor_y := Gpiovlc.wrap_int (s.cursor_y + 1) }
  let s :=
    if s.cursor_y > LCD_HEIGHT - 1 then
      let s := { s with cursor_y := LCD_HEIGHT - 1 }
      print_buffer (scroll_up s)
    else s
  lcd_xy s s.cursor_x s.cursor_y

/-- Function `clear_screen` (lines 169-173). -/
def clear_screen (s : LcdState) : LcdState :=
  let s := clear_buffer s
  let s := send_command s CMD_CLEAR_DISPLAY
  { s with cursor_x := 0, cursor_y := 0 }

/-- A read of byte `i` of the caller's buffer.  Beyond the end of the buffer the
embedding reads 0; the read is recorded with its index. -/
def user_read (s : LcdState) (buf : List Nat) (i : Nat) : Nat × LcdState :=
  (buf.getD i 0, { s with log := s.log ++ [LcdEvent.read i] })

/-- Function `dsp_cmd_cursor` (lines 179-184); `arg` is the index of `buffer[0]`. -/
def dsp_cmd_cursor (s : LcdState) (buf : List Nat) (arg : Nat) : LcdState :=
  let cmd := CMD_DISPLAY ||| CMD_DSP_ON
  let r0 := user_read s buf arg
  let cmd := cmd ||| (if r0.1 ≠ 0 then CMD_DSP_CUR_ON else 0)
  let r1 := user_read r0.2 buf (arg + 1)
  let cmd := cmd ||| (if r1.1 ≠ 0 then CMD_DSP_CUR_BLINK else 0)
  send_command r1.2 cmd

/-- Function `dsp_cmd_setxy` (lines 186-188), with `char` unsigned. -/
def dsp_cmd_setxy (s : LcdState) (buf : List Nat) (arg : Nat) : LcdState :=
  let r0 := user_read s buf arg
  let r1 := user_read r0.2 buf (arg + 1)
  lcd_xy r1.2 (Int.tmod (r0.1 : Int) LCD_WIDTH) (Int.tmod (r1.1 : Int) LCD_HEIGHT)

/-- Function `dsp_cmd_draw_mode` (lines 190-192), with `char` unsigned. -/
def dsp_cmd_draw_mode (s : LcdState) (buf : List Nat) (arg : Nat) : LcdState :=
  let r0 := user_read s buf arg
  { r0.2 with draw_mode_reset := decide (r0.1 > 0) }

/-- Function `dsp_cmd_define_char` (lines 194-202), with `char` unsigned. -/
def dsp_cmd_define_char (s : LcdState) (buf : List Nat) (arg : Nat) : LcdState :=
  let r0 := user_read s buf arg
  let s := send_command r0.2 (CMD_SET_CGRAM ||| ((r0.1 % 8) <<< 3))
  let s := (List.range 8).foldl
    (fun s i =>
      let r := user_read s buf (arg + (i + 1))
      send_character r.2 r.1) s
  send_command s CMD_RETURN_HOME

/-- The table `dsp_commands` (lines 208-219): command byte and number of
parameter bytes of each entry; the handler of entry `i` is `run_handler i`. -/
def dsp_commands : List (Nat × Nat) :=
  [(16, 0), (17, 2), (18, 2), (19, 1), (20, 9), (10, 0)]

/-- The handler of entry `entry` of `dsp_commands`, called with `&buffer[1]`, the
byte of index `arg` of the caller's buffer.  The call is recorded. -/
def run_handler (entry : Nat) (s : LcdState) (buf : List Nat) (arg : Nat) : LcdState :=
  let s := { s with log := s.log ++ [LcdEvent.invoke entry arg] }
  match entry with
  | 0 => clear_screen s
  | 1 => dsp_cmd_cursor s buf arg
  | 2 => dsp_cmd_setxy s buf arg
  | 3 => dsp_cmd_draw_mode s buf arg
  | 4 => dsp_cmd_define_char s buf arg
  | 5 => new_line s
  | _ => s

/-- The search of lines 245-246: the first entry of the table, from index `i` on,
whose command byte is `c`, with its index and its number of parameters. -/
def find_command (c : Nat) : List (Nat × Nat) → Nat → Option (Nat × Nat)
  | [], _ => none
  | (cmd, params) :: rest, i =>
    if cmd = c then some (i, params) else find_command c rest (i + 1)

/-- The loop of `lcd_write` (lines 235-259).  `pos` is the offset of `buffer` in
the caller's buffer, `len` the variable `len`; the first argument bounds the
number of iterations (`none` when it is exhausted before `len` is).  The boolean
tells whether the loop was left by `goto lcd_write_out` with `-EFAULT`. -/
def lcd_write_loop : Nat → List Nat → Nat → Nat → LcdState → Option (Bool × LcdState)
  | 0, _, _, len, s => if len = 0 then some (false, s) else none
  | fuel + 1, buf, pos, len, s =>
    if len = 0 then some (false, s)
    else
      let len := len - 1
      let r := user_read s buf pos
      let c := r.1
      let s := r.2
      let s := if s.cursor_x > LCD_WIDTH - 1 then new_line s else s
      if c > 31 ∨ c < 8 then
        let s := buffer_store s s.cursor_y s.cursor_x c
        let s := send_character s c
        let s := { s with cursor_x := Gpiovlc.wrap_int (s.cursor_x + 1) }
        lcd_write_loop fuel buf (pos + 1) len s
      else
        match find_command c dsp_commands 0 with
        | some (i, params) =>
          if params > len then some (true, s)
          else
            let s := run_handler i s buf (pos + 1)
            lcd_write_loop fuel buf (pos + params + 1) (len - params) s
        | none => lcd_write_loop fuel buf (pos + 1) len s

/-- Function `lcd_write` (lines 222-265) on a buffer of `buf.length` bytes.
`interrupted` tells whether `mutex_lock_interruptible` was interrupted. -/
def lcd_write (s : LcdState) (buf : List Nat) (interrupted : Bool) : Option (Int × LcdState) :=
  if interrupted then some (-ERESTARTSYS, s)
  else
    let s := if s.draw_mode_reset then clear_screen s else s
    match lcd_write_loop buf.length buf 0 buf.length s with
    | none => none
    | some (fault, s) => some (if fault then -EFAULT else (buf.length : Int), s)

/-- A store recorded in the log lies inside the 4x20 buffer. -/
def event_ok : LcdEvent → Prop
  | LcdEvent.store y x _ => 0 ≤ y ∧ y ≤ 3 ∧ 0 ≤ x ∧ x ≤ 19
  | _ => True

/-- Every store recorded in the log lies inside the 4x20 buffer. -/
def stores_ok (s : LcdState) : Prop := ∀ e ∈ s.log, event_ok e

/-- The cursor is inside its range: `0 <= cursor_x <= 20`, `0 <= cursor_y <= 3`. -/
def cursor_ok (s : LcdState) : Prop :=
  0 ≤ s.cursor_x ∧ s.cursor_x ≤ 20 ∧ 0 ≤ s.cursor_y ∧ s.cursor_y ≤ 3

/-- The state `st7066u_init` leaves (lines 367-369), nothing recorded yet. -/
def lcd_boot : LcdState :=
  { lcd_buffer := fun _ _ => 32, cursor_x := 0, cursor_y := 0, draw_mode_reset := false,
    log := [] }

/-- A state with the cursor past the end of the bottom row, rows filled with the
row number plus 65. -/
def bottom_right : LcdState :=
  { lcd_buffer := fun y _ => (y + 65).toNat, cursor_x := 20, cursor_y := 3,
    draw_mode_reset := false, log := [] }

/-- The second state has the cursor of the first, and in-bounds stores if the
first has. -/
def keeps (s s' : LcdState) : Prop :=
  s'.cursor_x = s.cursor_x ∧ s'.cursor_y = s.cursor_y ∧ (stores_ok s → stores_ok s')

/-- A unit of the byte stream given to `lcd_write`, in the words of the
specification: a byte that is printed, a command of the table together with the
parameter bytes that follow it, a control byte that is not in the table, or a
command of the table followed by fewer bytes than its parameter count.  `pos` is
the index of the byte in the caller's buffer, `entry` the index in the table. -/
inductive Token where
  | print (pos c : Nat)
  | call (pos entry : Nat) (params : List Nat)
  | ignored (pos c : Nat)
  | truncated (pos entry : Nat)
  deriving DecidableEq, Repr

/-- The framing of a byte stream in the words of the specification, by recursion
on the bytes that remain: `pos` is the index of the first of them and `skip` the
number of parameter bytes of the last command still to pass over.  A command
with too few bytes behind it ends the framing. -/
def frame_tokens : List Nat → Nat → Nat → List Token
  | [], _, _ => []
  | _ :: rest, pos, skip + 1 => frame_tokens rest (pos + 1) skip
  | c :: rest, pos, 0 =>
    if c > 31 ∨ c < 8 then Token.print pos c :: frame_tokens rest (pos + 1) 0
    else
      match find_command c dsp_commands 0 with
      | some (entry, params) =>
        if rest.length < params then [Token.truncated pos entry]
        else Token.call pos entry (rest.take params) :: frame_tokens rest (pos + 1) params
      | none => Token.ignored pos c :: frame_tokens rest (pos + 1) 0

/-- The token is a command cut short by the end of the buffer. -/
def is_truncated : Token → Bool
  | Token.truncated _ _ => true
  | _ => false

/-- The start of every iteration of the loop of `lcd_write` (lines 236-240): byte
`pos` is read, and a cursor past the last column starts a new line. -/
def fetch (s : LcdState) (pos : Nat) : LcdState :=
  let s := { s with log := s.log ++ [LcdEvent.read pos] }
  if s.cursor_x > LCD_WIDTH - 1 then new_line s else s

/-- What one token does to the display, in the words of the specification: a
printed byte is stored at the cursor, sent, and moves the cursor; the handler of a
command is given its parameter bytes and nothing else of the buffer (a buffer
that holds zeros before them and ends after them); the two other tokens do
nothing beyond the start of the iteration. -/
def exec_token (s : LcdState) : Token → LcdState
  | Token.print pos c =>
    let s := fetch s pos
    let s := buffer_store s s.cursor_y s.cursor_x c
    let s := send_character s c
    { s with cursor_x := Gpiovlc.wrap_int (s.cursor_x + 1) }
  | Token.call pos entry params =>
    run_handler entry (fetch s pos) (List.replicate (pos + 1) 0 ++ params) (pos + 1)
  | Token.ignored pos _ => fetch s pos
  | Token.truncated pos _ => fetch s pos

/-- The event is a read of the caller's buffer or the call of a handler. -/
def is_framing : LcdEvent → Bool
  | LcdEvent.read _ => true
  | LcdEvent.invoke _ _ => true
  | _ => false

/-- The reads of the caller's buffer and the calls of handlers of a log, in
order. -/
def framing_of (log : List LcdEvent) : List LcdEvent := log.filter is_framing

/-- The reads and calls the specification gives to one token: the byte itself,
and for a command that is not cut short the call of its handler on the next byte
followed by one read of each parameter byte. -/
def token_framing : Token → List LcdEvent
  | Token.print pos _ => [LcdEvent.read pos]
  | Token.call pos entry params =>
    LcdEvent.read pos :: LcdEvent.invoke entry (pos + 1) ::
      (List.range params.length).map (fun j => LcdEvent.read (pos + 1 + j))
  | Token.ignored pos _ => [LcdEvent.read pos]
  | Token.truncated pos _ => [LcdEvent.read pos]

/-- The result of `lcd_write` in the words of the specification, when the device
mutex was taken. -/
def framed_result (buf : List Nat) : Int :=
  if (frame_tokens buf 0 0).any is_truncated then -EFAULT else (buf.length : Int)

/-- The index, in the caller's buffer, of the byte a token starts with. -/
def token_pos : Token → Nat
  | Token.print pos _ => pos
  | Token.call pos _ _ => pos
  | Token.ignored pos _ => pos
  | Token.truncated pos _ => pos

/-- What a token says of the buffer, in the words of the specification: a printed
byte is outside `8..31`; a command is a byte of the table at `pos` whose
parameter bytes are the bytes that follow it, all inside the buffer; an ignored
byte is a control byte that is not in the table; a command cut short is a byte of
the table with fewer bytes behind it than its parameter count. -/
def token_sound (buf : List Nat) : Token → Prop
  | Token.print pos c => buf.get? pos = some c ∧ (c > 31 ∨ c < 8)
  | Token.call pos entry params =>
    ∃ c, buf.get? pos = some c ∧ dsp_commands.get? entry = some (c, params.length) ∧
      params = (buf.drop (pos + 1)).take params.length ∧ pos + 1 + params.length ≤ buf.length
  | Token.ignored pos c =>
    buf.get? pos = some c ∧ ¬ (c > 31 ∨ c < 8) ∧ ∀ p, (c, p) ∉ dsp_commands
  | Token.truncated pos entry =>
    ∃ c p, buf.get? pos = some c ∧ dsp_commands.get? entry = some (c, p) ∧
      buf.length - (pos + 1) < p

end St7066u

namespace Gpiovlc

/-! ## Arithmetic helpers -/

theorem wrap_s64_of_range (x : Int) (h1 : -9223372036854775808 ≤ x)
    (h2 : x < 9223372036854775808) : wrap_s64 x = x := by
  unfold wrap_s64
  norm_num
  omega

theorem wrap_int_of_range (x : Int) (h1 : -2147483648 ≤ x)
    (h2 : x < 2147483648) : wrap_int x = x := by
  unfold wrap_int
  norm_num
  omega

theorem int_lor_coe (m n : Nat) : Int.lor (m : Int) (n : Int) = ((m ||| n : Nat) : Int) := rfl

/-- Setting a bit below an accumulator whose low bits are clear is an addition. -/
theorem lor_shift_bit (acc b k : Nat) (hb : b < 2) (hk : k ≤ 7) :
    Int.lor ((acc * 2 ^ (k + 1) : Nat) : Int) (wrap_int ((b : Int) <<< ((k : Nat) : Int)))
      = (((2 * acc + b) * 2 ^ k : Nat) : Int) := by
  have hsh : (b : Int) <<< ((k : Nat) : Int) = ((b * 2 ^ k : Nat) : Int) := by
    rw [Int.shiftLeft_coe_nat, Nat.shiftLeft_eq]
  have hpow : 2 ^ k ≤ 128 := by
    calc 2 ^ k ≤ 2 ^ 7 := Nat.pow_le_pow_right (by norm_num) hk
      _ = 128 := by norm_num
  have hpos : 0 < 2 ^ k := Nat.pow_pos (by norm_num)
  have hle : b * 2 ^ k ≤ 1 * 2 ^ k := Nat.mul_le_mul_right _ (by omega)
  have hlt : b * 2 ^ k < 2 ^ (k + 1) := by
    rw [pow_succ]; omega
  have hw : wrap_int ((b * 2 ^ k : Nat) : Int) = ((b * 2 ^ k : Nat) : Int) := by
    have h128 : b * 2 ^ k ≤ 128 := by omega
    generalize b * 2 ^ k = m at h128
    apply wrap_int_of_range <;> omega
  rw [hsh]
  rw [hw]
  refine (int_lor_coe _ _).trans ?_
  have h : acc * 2 ^ (k + 1) ||| b * 2 ^ k = (2 * acc + b) * 2 ^ k := by
    rw [mul_comm acc, ← Nat.mul_add_lt_is_or hlt acc]
    ring
  exact congrArg Nat.cast h

theorem pulse_bit_of_lt (T x : Int) : pulse_bit_of T x < 2 := by
  unfold pulse_bit_of
  split <;> omega

theorem run_irqs_cons (s : VlcState) (d : Int) (ds : List Int) :
    run_irqs s (d :: ds) = run_irqs (vlc_irq_handler s d) ds := rfl

theorem run_irqs_append (s : VlcState) (ds es : List Int) :
    run_irqs s (ds ++ es) = run_irqs (run_irqs s ds) es := by
  simp [run_irqs, List.foldl_append]

theorem decode_acc_cons (T : Int) (acc : Nat) (x : Int) (xs : List Int) :
    decode_acc T acc (x :: xs) = decode_acc T (2 * acc + pulse_bit_of T x) xs := rfl

theorem decode_acc_append (T : Int) (acc : Nat) (xs ys : List Int) :
    decode_acc T acc (xs ++ ys) = decode_acc T (decode_acc T acc xs) ys := by
  simp [decode_acc, List.foldl_append]

theorem decode_acc_lt (T : Int) : ∀ (xs : List Int) (acc : Nat),
    decode_acc T acc xs < (acc + 1) * 2 ^ xs.length := by
  intro xs
  induction xs with
  | nil => intro acc; simp [decode_acc]
  | cons x xs ih =>
    intro acc
    rw [decode_acc_cons]
    have h := ih (2 * acc + pulse_bit_of T x)
    have hb := pulse_bit_of_lt T x
    have hpos : 0 < 2 ^ xs.length := Nat.pow_pos (by norm_num)
    calc decode_acc T (2 * acc + pulse_bit_of T x) xs
        < (2 * acc + pulse_bit_of T x + 1) * 2 ^ xs.length := h
      _ ≤ (2 * acc + 2) * 2 ^ xs.length := Nat.mul_le_mul_right _ (by omega)
      _ = (acc + 1) * 2 ^ (x :: xs).length := by
        simp only [List.length_cons, pow_succ]; ring

/-- One bit interval above bit 0: the bit is set at `data_bit`, which goes down by
one; nothing else but `ts_diff` and `pulse_bit` changes. -/
theorem irq_data_bit (s : VlcState) (d : Int) (acc k : Nat)
    (hst : s.state = STATE_DATA) (hstop : s.stop_bit = false)
    (hq : s.delay < d) (hq' : d ≤ 999999)
    (hbit : s.data_bit = ((k + 1 : Nat) : Int)) (hk : k + 1 ≤ 7)
    (hdata : s.data = ((acc * 2 ^ (k + 2) : Nat) : Int)) :
    vlc_irq_handler s d =
      { s with ts_diff := d, pulse_bit := ((pulse_bit_of s.pulse_len d : Nat) : Int),
               data := (((2 * acc + pulse_bit_of s.pulse_len d) * 2 ^ (k + 1) : Nat) : Int),
               data_bit := ((k : Nat) : Int) } := by
  have hn : ¬ (d > 999999) := by omega
  have hne : ((k + 1 : Nat) : Int) ≠ 0 := by omega
  have hpb : (if d < s.pulse_len then (0 : Int) else 1) = ((pulse_bit_of s.pulse_len d : Nat) : Int) := by
    unfold pulse_bit_of; split <;> simp
  have hl := lor_shift_bit acc (pulse_bit_of s.pulse_len d) (k + 1) (pulse_bit_of_lt _ _) hk
  have hw : wrap_int (((k + 1 : Nat) : Int) - 1) = ((k : Nat) : Int) := by
    rw [wrap_int_of_range] <;> omega
  simp only [vlc_irq_handler, irq_data, hn, hq, hst, hstop, hbit, hdata, hpb, hl, hw, hne]
  simp [STATE_DATA, STATE_SYNC]
  omega

/-- The value of the accumulator once the last bit interval `d` is classified. -/
theorem irq_data_last (s : VlcState) (d : Int)
    (hst : s.state = STATE_DATA) (hstop : s.stop_bit = false)
    (hq : s.delay < d) (hq' : d ≤ 999999) (hbit : s.data_bit = 0) :
    vlc_irq_handler s d =
      if (s.ring_head + 1) % RING_SIZE ≠ s.ring_tail then
        { s with ts_diff := d, pulse_bit := (if d < s.pulse_len then 0 else 1),
                 next_head := (s.ring_head + 1) % RING_SIZE,
                 ring_data := Function.update s.ring_data s.ring_head
                   (to_char (Int.lor s.data
                     (wrap_int ((if d < s.pulse_len then (0 : Int) else 1) <<< (0 : Int))))),
                 ring_head := (s.ring_head + 1) % RING_SIZE,
                 data := 0, data_bit := 7, stop_bit := true }
      else
        { s with ts_diff := d, pulse_bit := (if d < s.pulse_len then 0 else 1),
                 next_head := (s.ring_head + 1) % RING_SIZE,
                 data := 0, data_bit := 7, stop_bit := true } := by
  have hn : ¬ (d > 999999) := by omega
  simp only [vlc_irq_handler, irq_data, hn, hq, hst, hstop, hbit]
  by_cases hf : (s.ring_head + 1) % RING_SIZE = s.ring_tail <;>
    simp [STATE_DATA, STATE_SYNC, hf]

/-- The stop gap: a qualifying delta with `stop_bit` set only clears it. -/
theorem irq_data_stop (s : VlcState) (d : Int)
    (hst : s.state = STATE_DATA) (hstop : s.stop_bit = true)
    (hq : s.delay < d) (hq' : d ≤ 999999) :
    vlc_irq_handler s d = { s with ts_diff := d, stop_bit := false } := by
  have hn : ¬ (d > 999999) := by omega
  simp [vlc_irq_handler, irq_data, hn, hq, hst, hstop, STATE_DATA, STATE_SYNC]

/-- The byte stored when the accumulator holds `acc` in bits 7..1 and the last
interval is `d`. -/
theorem last_bit_byte (acc : Nat) (T d : Int) (hacc : acc < 128) :
    to_char (Int.lor ((acc * 2 : Nat) : Int)
      (wrap_int ((if d < T then (0 : Int) else 1) <<< (0 : Int))))
      = 2 * acc + pulse_bit_of T d := by
  have hpb : (if d < T then (0 : Int) else 1) = ((pulse_bit_of T d : Nat) : Int) := by
    unfold pulse_bit_of; split <;> simp
  have h := lor_shift_bit acc (pulse_bit_of T d) 0 (pulse_bit_of_lt _ _) (by omega)
  simp only [zero_add, pow_one, pow_zero, mul_one, Nat.cast_zero] at h
  rw [hpb, h]
  have hb := pulse_bit_of_lt T d
  unfold to_char
  omega

/-- Bit intervals that do not complete the byte: after `xs` (no longer than
`data_bit`) the accumulator holds the bits of `xs` above the new `data_bit`, and
the ring buffer, the threshold and the glitch threshold are unchanged. -/
theorem run_bits (T : Int) : ∀ (xs : List Int) (s : VlcState) (acc n : Nat),
    s.state = STATE_DATA → s.stop_bit = false → s.pulse_len = T →
    s.data_bit = ((n : Nat) : Int) → n ≤ 7 → s.data = ((acc * 2 ^ (n + 1) : Nat) : Int) →
    xs.length ≤ n → (∀ x ∈ xs, s.delay < x ∧ x ≤ 999999) →
    (run_irqs s xs).state = STATE_DATA ∧ (run_irqs s xs).stop_bit = false ∧
    (run_irqs s xs).pulse_len = T ∧ (run_irqs s xs).delay = s.delay ∧
    (run_irqs s xs).data_bit = ((n - xs.length : Nat) : Int) ∧
    (run_irqs s xs).data = ((decode_acc T acc xs * 2 ^ (n - xs.length + 1) : Nat) : Int) ∧
    same_ring s (run_irqs s xs) := by
  intro xs
  induction xs with
  | nil =>
    intro s acc n hst hstop hT hbit _ hdata _ _
    exact ⟨hst, hstop, hT, rfl, by simpa using hbit, by simpa [decode_acc] using hdata,
      rfl, rfl, rfl⟩
  | cons x xs ih =>
    intro s acc n hst hstop hT hbit hn hdata hlen hq
    subst hT
    obtain ⟨k, rfl⟩ : ∃ k, n = k + 1 := ⟨n - 1, by simp at hlen; omega⟩
    have hx := hq x (List.mem_cons_self _ _)
    have e := irq_data_bit s x acc k hst hstop hx.1 hx.2 hbit hn hdata
    have hlen' : xs.length ≤ k := by simp at hlen; omega
    have h := ih (vlc_irq_handler s x) (2 * acc + pulse_bit_of s.pulse_len x) k
      (by rw [e]; exact hst) (by rw [e]; exact hstop) (by rw [e]) (by rw [e])
      (by omega) (by rw [e]) hlen'
      (fun y hy => by rw [e]; exact hq y (List.mem_cons_of_mem _ hy))
    have hsub : k + 1 - (x :: xs).length = k - xs.length := by simp
    rw [run_irqs_cons, decode_acc_cons, hsub]
    obtain ⟨h1, h2, h3, h4, h5, h6, h7, h8, h9⟩ := h
    refine ⟨h1, h2, h3, by rw [h4, e], h5, h6, ?_, ?_, ?_⟩
    · rw [h7, e]
    · rw [h8, e]
    · rw [h9, e]

/-- A whole frame: eight qualifying bit intervals from a cleared accumulator
complete one byte, `decode_frame`, which is stored at `ring_head` unless the
buffer is full; the decoder then awaits the stop gap. -/
theorem run_frame (s : VlcState) (xs : List Int) (hlen : xs.length = 8)
    (hst : s.state = STATE_DATA) (hstop : s.stop_bit = false)
    (hdata : s.data = 0) (hbit : s.data_bit = 7)
    (hq : ∀ x ∈ xs, s.delay < x ∧ x ≤ 999999) :
    (run_irqs s xs).state = STATE_DATA ∧ (run_irqs s xs).stop_bit = true ∧
    (run_irqs s xs).data = 0 ∧ (run_irqs s xs).data_bit = 7 ∧
    (run_irqs s xs).pulse_len = s.pulse_len ∧ (run_irqs s xs).delay = s.delay ∧
    (run_irqs s xs).ring_tail = s.ring_tail ∧
    (((s.ring_head + 1) % RING_SIZE ≠ s.ring_tail →
        (run_irqs s xs).ring_head = (s.ring_head + 1) % RING_SIZE ∧
        (run_irqs s xs).ring_data =
          Function.update s.ring_data s.ring_head (decode_frame s.pulse_len xs)) ∧
     ((s.ring_head + 1) % RING_SIZE = s.ring_tail →
        (run_irqs s xs).ring_head = s.ring_head ∧
        (run_irqs s xs).ring_data = s.ring_data)) := by
  have hne : xs ≠ [] := by intro h; simp [h] at hlen
  have hsplit : xs = xs.dropLast ++ [xs.getLast hne] := (List.dropLast_append_getLast hne).symm
  have hl7 : xs.dropLast.length = 7 := by simp [hlen]
  set ys := xs.dropLast with hys
  set z := xs.getLast hne with hz
  have hqy : ∀ x ∈ ys, s.delay < x ∧ x ≤ 999999 :=
    fun x hx => hq x (by rw [hsplit]; exact List.mem_append_left _ hx)
  have hqz : s.delay < z ∧ z ≤ 999999 := hq z (by rw [hsplit]; simp)
  obtain ⟨r1, r2, r3, r4, r5, r6, r7, r8, r9⟩ :=
    run_bits s.pulse_len ys s 0 7 hst hstop rfl (by simpa using hbit) (by omega)
      (by simpa using hdata) (by omega) hqy
  rw [hl7] at r5 r6
  have hacc : decode_acc s.pulse_len 0 ys < 128 := by
    have := decode_acc_lt s.pulse_len ys 0
    rw [hl7] at this
    simpa using this
  have hlast := irq_data_last (run_irqs s ys) z r1 r2 (by rw [r4]; exact hqz.1) hqz.2
    (by simpa using r5)
  have hbyte := last_bit_byte (decode_acc s.pulse_len 0 ys) s.pulse_len z hacc
  have hdec : decode_frame s.pulse_len xs
      = 2 * decode_acc s.pulse_len 0 ys + pulse_bit_of s.pulse_len z := by
    unfold decode_frame
    rw [hsplit, decode_acc_append]
    rfl
  have hrun : run_irqs s xs = vlc_irq_handler (run_irqs s ys) z := by
    rw [hsplit, run_irqs_append]
    rfl
  have r6' : (run_irqs s ys).data = ((decode_acc s.pulse_len 0 ys * 2 : Nat) : Int) := by
    simpa using r6
  rw [hrun, hlast, r7, r8, r9, r3, r6', hbyte, ← hdec]
  by_cases hf : (s.ring_head + 1) % RING_SIZE = s.ring_tail
  · simp [hf, r1, r3, r4]
  · simp [hf, r1, r3, r4]

theorem decode_acc_testBit (T : Int) : ∀ (xs : List Int) (acc j : Nat),
    (decode_acc T acc xs).testBit j =
      if j < xs.length then decide (T ≤ xs.getD (xs.length - 1 - j) 0)
      else acc.testBit (j - xs.length) := by
  intro xs
  induction xs with
  | nil => intro acc j; simp [decode_acc]
  | cons x xs ih =>
    intro acc j
    rw [decode_acc_cons, ih]
    have hb := pulse_bit_of_lt T x
    by_cases h1 : j < xs.length
    · have hidx : (x :: xs).length - 1 - j = (xs.length - 1 - j) + 1 := by
        simp only [List.length_cons]; omega
      have h2 : j < (x :: xs).length := by simp only [List.length_cons]; omega
      rw [if_pos h1, if_pos h2, hidx, List.getD_cons_succ]
    · rw [if_neg h1]
      by_cases h3 : j = xs.length
      · have h2 : j < (x :: xs).length := by simp only [List.length_cons]; omega
        have hidx : (x :: xs).length - 1 - j = 0 := by
          simp only [List.length_cons]; omega
        rw [if_pos h2, hidx, h3, Nat.sub_self, Nat.testBit_zero]
        simp only [List.getD_cons_zero]
        unfold pulse_bit_of
        by_cases hx : x < T
        · simp [hx]
        · simp [hx]; omega
      · have h2 : ¬ j < (x :: xs).length := by simp only [List.length_cons]; omega
        obtain ⟨m, hm⟩ : ∃ m, j - xs.length = m + 1 := ⟨j - xs.length - 1, by omega⟩
        have hm' : j - (x :: xs).length = m := by simp only [List.length_cons]; omega
        rw [if_neg h2, hm, hm', Nat.testBit_succ]
        congr 1
        omega

/-! ## The ring buffer as a queue -/

theorem ring_contents_length (s : VlcState) : (ring_contents s).length = ring_count s := by
  simp [ring_contents]

theorem ring_count_lt (s : VlcState) : ring_count s < 64 := by
  unfold ring_count RING_SIZE
  omega

theorem ring_contents_congr (s s' : VlcState) (h1 : s'.ring_head = s.ring_head)
    (h2 : s'.ring_tail = s.ring_tail) (h3 : s'.ring_data = s.ring_data) :
    ring_contents s' = ring_contents s := by
  simp [ring_contents, ring_count, h1, h2, h3]

theorem ring_contents_empty (s : VlcState)
    (h : s.ring_head = s.ring_tail) : ring_contents s = [] := by
  have : ring_count s = 0 := by
    unfold ring_count; simp only [RING_SIZE] at *; rw [h]; omega
  simp [ring_contents, this]

/-- A stored byte is appended to the unread bytes. -/
theorem ring_contents_push (s s' : VlcState) (b : Nat)
    (hh : s.ring_head < RING_SIZE) (ht : s.ring_tail < RING_SIZE)
    (hroom : (s.ring_head + 1) % RING_SIZE ≠ s.ring_tail)
    (h1 : s'.ring_head = (s.ring_head + 1) % RING_SIZE)
    (h2 : s'.ring_tail = s.ring_tail)
    (h3 : s'.ring_data = Function.update s.ring_data s.ring_head b) :
    ring_contents s' = ring_contents s ++ [b] := by
  simp only [RING_SIZE] at *
  have hc : ring_count s' = ring_count s + 1 := by
    unfold ring_count; simp only [RING_SIZE]; rw [h1, h2]; omega
  unfold ring_contents
  rw [hc, List.range_succ, List.map_append, h2, h3]
  congr 1
  · apply List.map_congr_left
    intro i hi
    rw [List.mem_range] at hi
    have hne : (s.ring_tail + i) % RING_SIZE ≠ s.ring_head := by
      unfold ring_count at hi; simp only [RING_SIZE] at *; omega
    simp [Function.update, hne]
  · have he : (s.ring_tail + ring_count s) % RING_SIZE = s.ring_head := by
      unfold ring_count; simp only [RING_SIZE] at *; omega
    simp only [List.map_cons, List.map_nil]
    rw [he, Function.update_same]

/-- The oldest unread byte is the slot at `ring_tail`; advancing `ring_tail` leaves
the bytes after it. -/
theorem ring_contents_pop (s s' : VlcState)
    (hh : s.ring_head < RING_SIZE) (ht : s.ring_tail < RING_SIZE)
    (hne : s.ring_head ≠ s.ring_tail)
    (h1 : s'.ring_head = s.ring_head)
    (h2 : s'.ring_tail = (s.ring_tail + 1) % RING_SIZE)
    (h3 : s'.ring_data = s.ring_data) :
    ring_contents s = s.ring_data s.ring_tail :: ring_contents s' := by
  simp only [RING_SIZE] at *
  have hc : ring_count s = ring_count s' + 1 := by
    unfold ring_count; simp only [RING_SIZE]; rw [h1, h2]; omega
  unfold ring_contents
  rw [hc, List.range_succ_eq_map, List.map_cons, List.map_map, h2, h3]
  congr 1
  · simp only [RING_SIZE, add_zero]
    rw [Nat.mod_eq_of_lt ht]
  · apply List.map_congr_left
    intro i _
    simp only [Function.comp, RING_SIZE]
    congr 1
    omega

/-- The two pilot edges: the state after the first and after the second. -/
theorem run_preamble (s0 : VlcState) (d1 d2 : Int)
    (hn1 : 0 ≤ d1) (hn2 : 0 ≤ d2)
    (h1 : s0.delay < d1) (h1' : d1 ≤ 999999)
    (h2 : s0.delay < d2) (h2' : d2 ≤ 999999) :
    vlc_irq_handler (reset_state s0) d1 =
      { s0 with ts_diff := d1, state := STATE_SYNC, pilot_count := 1, pulse_len := d1 } ∧
    run_irqs (reset_state s0) [d1, d2] =
      { s0 with ts_diff := d2, state := STATE_DATA, pilot_count := 2,
                pulse_len := (d1 + d2) / 2 + (d1 + d2) / 2 / 2,
                data := 0, data_bit := 7, stop_bit := false } := by
  have e1 : vlc_irq_handler (reset_state s0) d1 =
      { s0 with ts_diff := d1, state := STATE_SYNC, pilot_count := 1, pulse_len := d1 } := by
    have hw : wrap_s64 d1 = d1 := wrap_s64_of_range d1 (by omega) (by omega)
    have hn : ¬ (d1 > 999999) := by omega
    have hm : Int.tmod 1 2 = 1 := by decide
    simp [vlc_irq_handler, reset_state, irq_sync, hn, h1, hw, hm, wrap_int, STATE_SYNC,
      SYNC_LEN]
  have hw2 : wrap_s64 (d1 + d2) = d1 + d2 := wrap_s64_of_range _ (by omega) (by omega)
  have ht1 : Int.tdiv (d1 + d2) 2 = (d1 + d2) / 2 :=
    Int.tdiv_eq_ediv (by omega) (by omega)
  have ht2 : Int.tdiv ((d1 + d2) / 2) 2 = (d1 + d2) / 2 / 2 :=
    Int.tdiv_eq_ediv (by omega) (by omega)
  have hw3 : wrap_s64 ((d1 + d2) / 2 + (d1 + d2) / 2 / 2) = (d1 + d2) / 2 + (d1 + d2) / 2 / 2 :=
    wrap_s64_of_range _ (by omega) (by omega)
  refine ⟨e1, ?_⟩
  have hn : ¬ (d2 > 999999) := by omega
  have hm : Int.tmod 2 2 = 0 := by decide
  simp only [run_irqs, List.foldl_cons, List.foldl_nil, e1]
  simp [vlc_irq_handler, irq_sync, hn, h2, hw2, ht1, ht2, hw3, hm, wrap_int, STATE_SYNC,
    STATE_DATA, SYNC_LEN]

theorem ring_room (s : VlcState) (hh : s.ring_head < RING_SIZE) (ht : s.ring_tail < RING_SIZE)
    (hc : ring_count s < 63) : (s.ring_head + 1) % RING_SIZE ≠ s.ring_tail := by
  unfold ring_count at hc
  simp only [RING_SIZE] at *
  omega

/-- A frame stored in a buffer with room: the state the decoder is left in and the
unread bytes. -/
theorem run_frame_contents (s : VlcState) (f : List Int) (hlen : f.length = 8)
    (hst : s.state = STATE_DATA) (hstop : s.stop_bit = false)
    (hdata : s.data = 0) (hbit : s.data_bit = 7)
    (hq : ∀ x ∈ f, s.delay < x ∧ x ≤ 999999)
    (hh : s.ring_head < RING_SIZE) (ht : s.ring_tail < RING_SIZE)
    (hc : ring_count s < 63) :
    (run_irqs s f).state = STATE_DATA ∧ (run_irqs s f).stop_bit = true ∧
    (run_irqs s f).data = 0 ∧ (run_irqs s f).data_bit = 7 ∧
    (run_irqs s f).pulse_len = s.pulse_len ∧ (run_irqs s f).delay = s.delay ∧
    (run_irqs s f).ring_head < RING_SIZE ∧ (run_irqs s f).ring_tail < RING_SIZE ∧
    ring_contents (run_irqs s f) = ring_contents s ++ [decode_frame s.pulse_len f] := by
  obtain ⟨f1, f2, f3, f4, f5, f6, f7, f8, _⟩ := run_frame s f hlen hst hstop hdata hbit hq
  have hroom := ring_room s hh ht hc
  obtain ⟨f8a, f8b⟩ := f8 hroom
  refine ⟨f1, f2, f3, f4, f5, f6, ?_, by rw [f7]; exact ht,
    ring_contents_push s _ _ hh ht hroom f8a f7 f8b⟩
  rw [f8a]
  exact Nat.mod_lt _ (by decide)

/-- A run of frames, one stop gap between two frames, appends the decoded bytes to
the unread bytes in frame order, as long as the buffer has room for them. -/
theorem run_frames : ∀ (frames : List (List Int)) (gaps : List Int) (s : VlcState),
    s.state = STATE_DATA → s.stop_bit = false → s.data = 0 → s.data_bit = 7 →
    s.ring_head < RING_SIZE → s.ring_tail < RING_SIZE →
    ring_count s + frames.length ≤ 63 →
    (∀ f ∈ frames, f.length = 8 ∧ ∀ x ∈ f, s.delay < x ∧ x ≤ 999999) →
    (∀ g ∈ gaps, s.delay < g ∧ g ≤ 999999) →
    frames.length ≤ gaps.length + 1 →
    ring_contents (run_irqs s (frame_deltas frames gaps))
      = ring_contents s ++ frames.map (decode_frame s.pulse_len) := by
  intro frames
  induction frames with
  | nil =>
    intro gaps s _ _ _ _ _ _ _ _ _ _
    simp [frame_deltas, run_irqs]
  | cons f fs ih =>
    intro gaps s hst hstop hdata hbit hh ht hc hf hg hlen
    have hf0 := hf f (List.mem_cons_self _ _)
    have hc1 : ring_count s < 63 := by simp at hc; omega
    obtain ⟨r1, r2, r3, r4, r5, r6, r7, r8, r9⟩ :=
      run_frame_contents s f hf0.1 hst hstop hdata hbit hf0.2 hh ht hc1
    cases fs with
    | nil =>
      simp only [frame_deltas, List.map_cons, List.map_nil]
      exact r9
    | cons f' fs' =>
      cases gaps with
      | nil => simp at hlen
      | cons g gs =>
        have hg0 := hg g (List.mem_cons_self _ _)
        have e := irq_data_stop (run_irqs s f) g r1 r2 (by rw [r6]; exact hg0.1) hg0.2
        have hrun : run_irqs s (frame_deltas (f :: f' :: fs') (g :: gs))
            = run_irqs (vlc_irq_handler (run_irqs s f) g) (frame_deltas (f' :: fs') gs) := by
          simp only [frame_deltas]
          rw [run_irqs_append, run_irqs_cons]
        have hcont : ring_contents (vlc_irq_handler (run_irqs s f) g)
            = ring_contents s ++ [decode_frame s.pulse_len f] := by
          rw [← r9, e]
          exact ring_contents_congr _ _ rfl rfl rfl
        have hcount : ring_count (vlc_irq_handler (run_irqs s f) g) = ring_count s + 1 := by
          rw [← ring_contents_length, hcont, List.length_append, ring_contents_length]
          rfl
        have h := ih gs (vlc_irq_handler (run_irqs s f) g)
          (by rw [e]; exact r1) (by rw [e]) (by rw [e]; exact r3) (by rw [e]; exact r4)
          (by rw [e]; exact r7) (by rw [e]; exact r8)
          (by rw [hcount]; simp at hc ⊢; omega)
          (fun f1 hf1 => by
            rw [e]
            show f1.length = 8 ∧ ∀ x ∈ f1, (run_irqs s f).delay < x ∧ x ≤ 999999
            rw [r6]
            exact hf f1 (List.mem_cons_of_mem _ hf1))
          (fun g1 hg1 => by
            rw [e]
            show (run_irqs s f).delay < g1 ∧ g1 ≤ 999999
            rw [r6]
            exact hg g1 (List.mem_cons_of_mem _ hg1))
          (by simp at hlen ⊢; omega)
        have hp : (vlc_irq_handler (run_irqs s f) g).pulse_len = s.pulse_len := by
          rw [e]; exact r5
        rw [hrun, h, hcont, hp]
        simp

/-! ## Sync calibration -/

/-- C1. From a freshly reset decoder, two qualifying deltas `d1`, `d2` (time
deltas, so not negative; each above the glitch threshold and at most 999999) leave
the decoder
in `STATE_DATA` with `data = 0`, `data_bit = 7`, `stop_bit = false` and
`pulse_len = floor((d1+d2)/2) + floor(floor((d1+d2)/2)/2)`; after the first delta
the decoder is still syncing with the sum `d1`.  The 64-bit wraps of the embedding
are the identity here (no overflow): the threshold is the unwrapped value and
lies in `0..1499998`. -/
theorem sync_two_pilots_threshold (s0 : VlcState) (d1 d2 : Int)
    (hn1 : 0 ≤ d1) (hn2 : 0 ≤ d2)
    (h1 : s0.delay < d1) (h1' : d1 ≤ 999999)
    (h2 : s0.delay < d2) (h2' : d2 ≤ 999999) :
    (vlc_irq_handler (reset_state s0) d1).state = STATE_SYNC ∧
    (vlc_irq_handler (reset_state s0) d1).pilot_count = 1 ∧
    (vlc_irq_handler (reset_state s0) d1).pulse_len = d1 ∧
    (run_irqs (reset_state s0) [d1, d2]).state = STATE_DATA ∧
    (run_irqs (reset_state s0) [d1, d2]).data = 0 ∧
    (run_irqs (reset_state s0) [d1, d2]).data_bit = 7 ∧
    (run_irqs (reset_state s0) [d1, d2]).stop_bit = false ∧
    (run_irqs (reset_state s0) [d1, d2]).pulse_len = (d1 + d2) / 2 + (d1 + d2) / 2 / 2 ∧
    0 ≤ (run_irqs (reset_state s0) [d1, d2]).pulse_len ∧
    (run_irqs (reset_state s0) [d1, d2]).pulse_len ≤ 1499998 := by
  obtain ⟨e1, e2⟩ := run_preamble s0 d1 d2 hn1 hn2 h1 h1' h2 h2'
  rw [e1, e2]
  refine ⟨rfl, rfl, rfl, rfl, rfl, rfl, rfl, rfl, ?_, ?_⟩
  · show 0 ≤ (d1 + d2) / 2 + (d1 + d2) / 2 / 2
    omega
  · show (d1 + d2) / 2 + (d1 + d2) / 2 / 2 ≤ 1499998
    omega

theorem sync_two_pilots_threshold_witness :
    boot_state.delay < 1000 ∧
    (run_irqs (reset_state boot_state) [1000, 2001]).state = STATE_DATA ∧
    (run_irqs (reset_state boot_state) [1000, 2001]).pulse_len = 1500 + 750 :=
  have h := sync_two_pilots_threshold boot_state 1000 2001 (by decide) (by decide)
    (by decide) (by decide) (by decide) (by decide)
  ⟨by decide, h.2.2.2.1, h.2.2.2.2.2.2.2.1⟩

/-! ## Bit and byte framing -/

/-- C2. In `STATE_DATA` with accumulator 0, bit index 7, no stop gap awaited,
threshold `T` and a ring buffer that is not full, eight qualifying deltas push
exactly one byte: the first seven leave the ring buffer untouched, the eighth
stores `decode_frame T xs` at `ring_head` and advances `ring_head` by one modulo
64 (`ring_tail` and the other slots keep their values); bit `7 - i` of that byte
is 1 exactly when the `i`-th delta is at least `T`. -/
theorem frame_decodes_one_byte (s : VlcState) (T : Int) (xs : List Int)
    (hlen : xs.length = 8) (hq : ∀ x ∈ xs, s.delay < x ∧ x ≤ 999999)
    (hst : s.state = STATE_DATA) (hdata : s.data = 0) (hbit : s.data_bit = 7)
    (hstop : s.stop_bit = false) (hT : s.pulse_len = T)
    (hroom : (s.ring_head + 1) % RING_SIZE ≠ s.ring_tail) :
    (∀ j, j < 8 → same_ring s (run_irqs s (xs.take j))) ∧
    (run_irqs s xs).ring_head = (s.ring_head + 1) % RING_SIZE ∧
    (run_irqs s xs).ring_tail = s.ring_tail ∧
    (run_irqs s xs).ring_data =
      Function.update s.ring_data s.ring_head (decode_frame T xs) ∧
    decode_frame T xs < 256 ∧
    (∀ i, i < 8 → (decode_frame T xs).testBit (7 - i) = decide (T ≤ xs.getD i 0)) := by
  subst hT
  obtain ⟨_, _, _, _, _, _, f7, f8, _⟩ := run_frame s xs hlen hst hstop hdata hbit hq
  obtain ⟨f8a, f8b⟩ := f8 hroom
  refine ⟨?_, f8a, f7, f8b, ?_, ?_⟩
  · intro j hj
    have hl : (xs.take j).length ≤ 7 := by
      rw [List.length_take]; omega
    exact (run_bits s.pulse_len (xs.take j) s 0 7 hst hstop rfl (by simpa using hbit)
      (by omega) (by simpa using hdata) hl
      (fun x hx => hq x (List.mem_of_mem_take hx))).2.2.2.2.2.2
  · have := decode_acc_lt s.pulse_len xs 0
    rw [hlen] at this
    simpa [decode_frame] using this
  · intro i hi
    unfold decode_frame
    rw [decode_acc_testBit, hlen, if_pos (by omega)]
    have : 8 - 1 - (7 - i) = i := by omega
    rw [this]

theorem frame_decodes_one_byte_witness :
    (run_irqs receiving_1500 [2000, 500, 2000, 500, 500, 500, 500, 2000]).ring_head = 1 ∧
    (run_irqs receiving_1500 [2000, 500, 2000, 500, 500, 500, 500, 2000]).ring_data 0
      = 161 := by
  have h := frame_decodes_one_byte receiving_1500 1500
    [2000, 500, 2000, 500, 500, 500, 500, 2000] (by decide) (by decide) (by decide)
    (by decide) (by decide) (by decide) (by decide) (by decide)
  refine ⟨h.2.1, ?_⟩
  rw [h.2.2.2.1]
  decide

/-- C3. End-to-end framing: from a freshly reset decoder with glitch threshold 0
and an empty ring buffer, two preamble deltas followed by at most 63 frames (eight
bit deltas each, one qualifying gap delta between two frames) leave exactly the
decoded bytes of the frames in the ring buffer, in frame order; each byte is
decoded against the threshold `(d1+d2)/2 + (d1+d2)/2/2` of the preamble. -/
theorem end_to_end_framing (s0 : VlcState) (d1 d2 : Int) (frames : List (List Int))
    (gaps : List Int)
    (hdelay : s0.delay = 0) (hempty : s0.ring_head = s0.ring_tail)
    (hh : s0.ring_head < RING_SIZE)
    (hd1 : 0 < d1 ∧ d1 ≤ 999999) (hd2 : 0 < d2 ∧ d2 ≤ 999999)
    (hk : frames.length ≤ 63)
    (hf : ∀ f ∈ frames, f.length = 8 ∧ ∀ x ∈ f, 0 < x ∧ x ≤ 999999)
    (hg : ∀ g ∈ gaps, 0 < g ∧ g ≤ 999999)
    (hgl : frames.length ≤ gaps.length + 1) :
    ring_contents (run_irqs (reset_state s0) (d1 :: d2 :: frame_deltas frames gaps))
      = frames.map (decode_frame ((d1 + d2) / 2 + (d1 + d2) / 2 / 2)) := by
  obtain ⟨_, e2⟩ := run_preamble s0 d1 d2 (by omega) (by omega) (by omega) hd1.2 (by omega) hd2.2
  have hrun : run_irqs (reset_state s0) (d1 :: d2 :: frame_deltas frames gaps)
      = run_irqs (run_irqs (reset_state s0) [d1, d2]) (frame_deltas frames gaps) := rfl
  have hemp : ring_contents (run_irqs (reset_state s0) [d1, d2]) = [] := by
    rw [e2]
    exact ring_contents_empty _ hempty
  have hcnt : ring_count (run_irqs (reset_state s0) [d1, d2]) = 0 := by
    rw [← ring_contents_length, hemp]
    rfl
  have h := run_frames frames gaps (run_irqs (reset_state s0) [d1, d2])
    (by rw [e2]) (by rw [e2]) (by rw [e2]) (by rw [e2])
    (by rw [e2]; exact hh) (by rw [e2]; exact hempty ▸ hh)
    (by rw [hcnt]; omega)
    (fun f1 hf1 => by
      rw [e2]
      show f1.length = 8 ∧ ∀ x ∈ f1, s0.delay < x ∧ x ≤ 999999
      rw [hdelay]
      exact hf f1 hf1)
    (fun g1 hg1 => by
      rw [e2]
      show s0.delay < g1 ∧ g1 ≤ 999999
      rw [hdelay]
      exact hg g1 hg1)
    hgl
  rw [hrun, h, hemp, e2]
  rfl

theorem end_to_end_framing_witness :
    ring_contents (run_irqs (reset_state boot_state)
      (1000 :: 1000 :: frame_deltas
        [[500, 500, 500, 500, 500, 500, 500, 500], [500, 500, 500, 500, 500, 500, 500, 500]]
        [700])) = [0, 0] ∧
    ring_contents (run_irqs (reset_state boot_state)
      (1000 :: 1000 :: frame_deltas
        [[2000, 2000, 2000, 2000, 2000, 2000, 2000, 2000]] [])) = [255] :=
  ⟨(end_to_end_framing boot_state 1000 1000
      [[500, 500, 500, 500, 500, 500, 500, 500], [500, 500, 500, 500, 500, 500, 500, 500]]
      [700] (by decide) (by decide) (by decide) (by decide) (by decide) (by decide)
      (by decide) (by decide) (by decide)).trans (by decide),
   (end_to_end_framing boot_state 1000 1000
      [[2000, 2000, 2000, 2000, 2000, 2000, 2000, 2000]]
      [] (by decide) (by decide) (by decide) (by decide) (by decide) (by decide)
      (by decide) (by decide) (by decide)).trans (by decide)⟩

/-! ## Hard resync and glitch rejection -/

/-- C4. A delta above 999999 microseconds, in any decoder state and for any
glitch threshold, resets the decoder: `state = STATE_SYNC`, `pilot_count = 0`,
`pulse_len = 0`; nothing else but `ts_diff` changes, so `ring_head`, `ring_tail`
and `ring_data` are as before and no byte is pushed. -/
theorem hard_resync (s : VlcState) (d : Int) (hd : 999999 < d) :
    vlc_irq_handler s d =
      { s with ts_diff := d, state := STATE_SYNC, pilot_count := 0, pulse_len := 0 } ∧
    (vlc_irq_handler s d).state = STATE_SYNC ∧
    (vlc_irq_handler s d).pilot_count = 0 ∧
    (vlc_irq_handler s d).pulse_len = 0 ∧
    same_ring s (vlc_irq_handler s d) := by
  have e : vlc_irq_handler s d =
      { s with ts_diff := d, state := STATE_SYNC, pilot_count := 0, pulse_len := 0 } := by
    simp [vlc_irq_handler, reset_state, hd]
  rw [e]
  exact ⟨rfl, rfl, rfl, rfl, rfl, rfl, rfl⟩

theorem hard_resync_witness :
    (999999 : Int) < 1000000 ∧
    (vlc_irq_handler receiving_slow_glitch 1000000).state = STATE_SYNC ∧
    (vlc_irq_handler receiving_slow_glitch 1000000).ring_head
      = receiving_slow_glitch.ring_head :=
  have h := hard_resync receiving_slow_glitch 1000000 (by decide)
  ⟨by decide, h.2.1, h.2.2.2.2.1⟩

/-- C5, as the claim states it, fails: with the accepted glitch threshold
2000000, the delta 1500000 is not above the threshold, yet the receiving decoder
goes back to `STATE_SYNC` and loses its threshold, because the test
`ts_diff > 999999` comes first. -/
theorem glitch_delta_resyncs :
    (0 ≤ receiving_slow_glitch.delay ∧ receiving_slow_glitch.delay < 500000000) ∧
    (1500000 : Int) ≤ receiving_slow_glitch.delay ∧
    receiving_slow_glitch.state = STATE_DATA ∧
    receiving_slow_glitch.pulse_len = 1500 ∧
    (vlc_irq_handler receiving_slow_glitch 1500000).state = STATE_SYNC ∧
    (vlc_irq_handler receiving_slow_glitch 1500000).pulse_len = 0 := by
  decide

/-- C5, amended. A delta that is at most the glitch threshold and at most 999999
changes nothing but the variable `ts_diff`: the decoder state (`state`,
`pilot_count`, `pulse_len`, `data`, `data_bit`, `stop_bit`) and the ring buffer
are as before. -/
theorem glitch_ignored (s : VlcState) (d : Int) (hg : d ≤ s.delay) (hd : d ≤ 999999) :
    vlc_irq_handler s d = { s with ts_diff := d } ∧
    same_decoder s (vlc_irq_handler s d) ∧
    same_ring s (vlc_irq_handler s d) := by
  have e : vlc_irq_handler s d = { s with ts_diff := d } := by
    have h1 : ¬ (d > 999999) := by omega
    have h2 : ¬ (d > s.delay) := by omega
    simp [vlc_irq_handler, h1, h2]
  rw [e]
  exact ⟨rfl, ⟨rfl, rfl, rfl, rfl, rfl, rfl⟩, ⟨rfl, rfl, rfl⟩⟩

theorem glitch_ignored_witness :
    (300 : Int) ≤ receiving_slow_glitch.delay ∧ (300 : Int) ≤ 999999 ∧
    (vlc_irq_handler receiving_slow_glitch 300).state = STATE_DATA ∧
    (vlc_irq_handler receiving_slow_glitch 300).data = 160 :=
  have h := glitch_ignored receiving_slow_glitch 300 (by decide) (by decide)
  ⟨by decide, by decide, h.2.1.1, h.2.1.2.2.2.1⟩

/-! ## Reattaching the pin -/

theorem dev_read_wait_nonblock_empty (s : VlcState) (events : List WaitEvent)
    (f_flags : Nat) (hnb : f_flags &&& O_NONBLOCK ≠ 0) (he : s.ring_head = s.ring_tail) :
    dev_read_wait f_flags events s = some (-EAGAIN, s, events) := by
  cases events with
  | nil => simp [dev_read_wait, he, hnb]
  | cons ev rest => simp [dev_read_wait, he, hnb]

theorem dev_read_nonblock_empty (s : VlcState) (f_flags len : Nat) (copy : Nat → Nat)
    (events : List WaitEvent) (hnb : f_flags &&& O_NONBLOCK ≠ 0)
    (he : s.ring_head = s.ring_tail) :
    dev_read s f_flags len copy events
      = some { result := -EAGAIN, delivered := [], st := s, pending := events } := by
  simp [dev_read, dev_read_wait_nonblock_empty s events f_flags hnb he, EAGAIN]

/-- C6, as the claim states it, fails: a state with the unread byte 65 is
detached and attached again with success; `hook_gpio_irq` sets `ring_head` and
`ring_tail` to 0, the buffer is empty and a read delivers nothing. -/
theorem reattach_loses_unread_byte :
    ring_contents one_unread = [65] ∧
    (reattach gpio_ok one_unread 23).1 = 0 ∧
    (reattach gpio_ok one_unread 23).2.state = STATE_SYNC ∧
    ring_contents (reattach gpio_ok one_unread 23).2 = [] ∧
    Option.map ReadOutcome.delivered
      (dev_read (reattach gpio_ok one_unread 23).2 O_NONBLOCK 64 copy_ok []) = some [] ∧
    Option.map ReadOutcome.result
      (dev_read (reattach gpio_ok one_unread 23).2 O_NONBLOCK 64 copy_ok []) = some (-EAGAIN) := by
  decide

/-- C6, amended. After detaching and attaching a pin with success
(`hook_gpio_irq` returns 0) the decoder is in `STATE_SYNC` with `pilot_count = 0`
and `pulse_len = 0`, and `ring_head = ring_tail = 0`: the ring buffer is empty,
the bytes unread before are not readable any more (a non-blocking read returns
`-EAGAIN` and delivers nothing), while the slots of `ring_data` keep their
values.  Detaching alone leaves the ring buffer and its unread bytes as they are. -/
theorem reattach_empties_buffer (env : GpioEnv) (s : VlcState) (pin : Nat)
    (hok : (reattach env s pin).1 = 0) :
    (reattach env s pin).2.state = STATE_SYNC ∧
    (reattach env s pin).2.pilot_count = 0 ∧
    (reattach env s pin).2.pulse_len = 0 ∧
    (reattach env s pin).2.configured = true ∧
    (reattach env s pin).2.ring_head = 0 ∧
    (reattach env s pin).2.ring_tail = 0 ∧
    (reattach env s pin).2.ring_data = s.ring_data ∧
    ring_contents (reattach env s pin).2 = [] ∧
    (∀ (len : Nat) (copy : Nat → Nat) (events : List WaitEvent),
      dev_read (reattach env s pin).2 O_NONBLOCK len copy events
        = some { result := -EAGAIN, delivered := [], st := (reattach env s pin).2,
                 pending := events }) ∧
    same_ring s (unhook_gpio_irq s).1 ∧
    ring_contents (unhook_gpio_irq s).1 = ring_contents s := by
  have hu' : ∀ s1 : VlcState, same_ring s1 (unhook_gpio_irq s1).1 := by
    intro s1
    unfold unhook_gpio_irq
    split <;> exact ⟨rfl, rfl, rfl⟩
  have hu := hu' s
  have hreq : env.gpio_request pin = 0 := by
    by_contra hne
    simp [reattach, hook_gpio_irq, hne] at hok
  have hfields : (reattach env s pin).2.state = STATE_SYNC ∧
      (reattach env s pin).2.pilot_count = 0 ∧
      (reattach env s pin).2.pulse_len = 0 ∧
      (reattach env s pin).2.configured = true ∧
      (reattach env s pin).2.ring_head = 0 ∧
      (reattach env s pin).2.ring_tail = 0 ∧
      (reattach env s pin).2.ring_data = s.ring_data := by
    simp [reattach, hook_gpio_irq, hreq, reset_state, (hu' (unhook_gpio_irq s).1).2.2, hu.2.2]
  obtain ⟨h1, h2, h3, h4, h5, h6, h7⟩ := hfields
  have hemp : (reattach env s pin).2.ring_head = (reattach env s pin).2.ring_tail := by
    rw [h5, h6]
  refine ⟨h1, h2, h3, h4, h5, h6, h7, ring_contents_empty _ hemp, ?_, hu,
    ring_contents_congr _ _ hu.1 hu.2.1 hu.2.2⟩
  intro len copy events
  exact dev_read_nonblock_empty _ O_NONBLOCK len copy events (by decide) hemp

theorem reattach_empties_buffer_witness :
    (reattach gpio_ok one_unread 17).1 = 0 ∧
    (reattach gpio_ok one_unread 17).2.ring_head = 0 ∧
    ring_contents (reattach gpio_ok one_unread 17).2 = [] :=
  have h := reattach_empties_buffer gpio_ok one_unread 17 (by decide)
  ⟨by decide, h.2.2.2.2.1, h.2.2.2.2.2.2.2.1⟩

/-! ## The read endpoint -/

theorem ring_count_zero_iff (s : VlcState) (hh : s.ring_head < RING_SIZE)
    (ht : s.ring_tail < RING_SIZE) : ring_count s = 0 ↔ s.ring_head = s.ring_tail := by
  unfold ring_count
  simp only [RING_SIZE] at *
  omega

/-- The drain loop with every copy succeeding: it returns the number of bytes
taken, delivers the first `len` unread bytes, changes `ring_tail` only and leaves
the other unread bytes. -/
theorem dev_read_drain_ok : ∀ (len : Nat) (s : VlcState) (pos : Nat) (result : Int)
    (out : List Nat), s.ring_head < RING_SIZE → s.ring_tail < RING_SIZE →
    (dev_read_drain copy_ok len s pos result out).1
      = result + ((min len (ring_count s) : Nat) : Int) ∧
    (dev_read_drain copy_ok len s pos result out).2.1
      = out ++ (ring_contents s).take len ∧
    (dev_read_drain copy_ok len s pos result out).2.2
      = { s with ring_tail := (dev_read_drain copy_ok len s pos result out).2.2.ring_tail } ∧
    (dev_read_drain copy_ok len s pos result out).2.2.ring_tail
      = (s.ring_tail + min len (ring_count s)) % RING_SIZE ∧
    ring_contents (dev_read_drain copy_ok len s pos result out).2.2
      = (ring_contents s).drop len := by
  intro len
  induction len with
  | zero =>
    intro s pos result out _ ht
    simp [dev_read_drain, Nat.mod_eq_of_lt ht]
  | succ n ih =>
    intro s pos result out hh ht
    by_cases he : s.ring_head = s.ring_tail
    · have hc : ring_count s = 0 := (ring_count_zero_iff s hh ht).2 he
      have hcont : ring_contents s = [] := ring_contents_empty s he
      have hd : dev_read_drain copy_ok (n + 1) s pos result out = (result, out, s) := by
        simp [dev_read_drain, he]
      rw [hd]
      simp [hc, hcont, Nat.mod_eq_of_lt ht]
    · have hpop := ring_contents_pop s { s with ring_tail := (s.ring_tail + 1) % RING_SIZE }
        hh ht he rfl rfl rfl
      have hc : ring_count s
          = ring_count { s with ring_tail := (s.ring_tail + 1) % RING_SIZE } + 1 := by
        rw [← ring_contents_length, hpop, List.length_cons, ring_contents_length]
      have ht' : (s.ring_tail + 1) % RING_SIZE < RING_SIZE := Nat.mod_lt _ (by decide)
      obtain ⟨i1, i2, i3, i4, i5⟩ :=
        ih { s with ring_tail := (s.ring_tail + 1) % RING_SIZE } (pos + 1) (result + 1)
          (out ++ [s.ring_data s.ring_tail]) hh ht'
      have hd : dev_read_drain copy_ok (n + 1) s pos result out
          = dev_read_drain copy_ok n { s with ring_tail := (s.ring_tail + 1) % RING_SIZE }
              (pos + 1) (result + 1) (out ++ [s.ring_data s.ring_tail]) := by
        simp [dev_read_drain, he, copy_ok]
      rw [hd, hpop, hc]
      refine ⟨?_, ?_, ?_, ?_, ?_⟩
      · rw [i1, Nat.add_min_add_right]
        push_cast
        ring
      · rw [i2]
        simp
      · rw [i3]
      · rw [i4, Nat.add_min_add_right]
        simp only [RING_SIZE]
        omega
      · rw [i5]
        simp

theorem dev_read_wait_nonempty (s : VlcState) (f_flags : Nat) (events : List WaitEvent)
    (hne : s.ring_head ≠ s.ring_tail) :
    dev_read_wait f_flags events s = some (0, s, events) := by
  cases events with
  | nil => simp [dev_read_wait, hne]
  | cons ev rest => simp [dev_read_wait, hne]

/-- A read of a buffer that is not empty, every copy succeeding. -/
theorem dev_read_nonempty (s : VlcState) (f_flags len : Nat) (events : List WaitEvent)
    (hh : s.ring_head < RING_SIZE) (ht : s.ring_tail < RING_SIZE)
    (hne : s.ring_head ≠ s.ring_tail) :
    dev_read s f_flags len copy_ok events
      = some { result := ((min len (ring_count s) : Nat) : Int),
               delivered := (ring_contents s).take len,
               st := { s with ring_tail := (s.ring_tail + min len (ring_count s)) % RING_SIZE },
               pending := events } ∧
    ring_contents { s with ring_tail := (s.ring_tail + min len (ring_count s)) % RING_SIZE }
      = (ring_contents s).drop len := by
  obtain ⟨d1, d2, d3, d4, d5⟩ := dev_read_drain_ok len s 0 0 [] hh ht
  rw [d4] at d3
  rw [d3] at d5
  refine ⟨?_, d5⟩
  simp only [dev_read, dev_read_wait_nonempty s f_flags events hne]
  simp only [ne_eq, not_true_eq_false, if_false]
  rw [d1, d2, d3]
  simp

/-! ## The producer's effect on the ring buffer -/

/-- What a call of the handler does to the ring buffer: `ring_tail` is never
written; without a completed byte the buffer is untouched; a completed byte is
dropped when the buffer is full and is stored at `ring_head`, which advances by
one modulo 64, otherwise. -/
theorem irq_ring (s : VlcState) (d : Int) :
    (vlc_irq_handler s d).ring_tail = s.ring_tail ∧
    (completed_byte s d = none → same_ring s (vlc_irq_handler s d)) ∧
    (∀ b, completed_byte s d = some b →
      ((s.ring_head + 1) % RING_SIZE = s.ring_tail → same_ring s (vlc_irq_handler s d)) ∧
      ((s.ring_head + 1) % RING_SIZE ≠ s.ring_tail →
        (vlc_irq_handler s d).ring_head = (s.ring_head + 1) % RING_SIZE ∧
        (vlc_irq_handler s d).ring_data = Function.update s.ring_data s.ring_head b)) := by
  by_cases hc : d ≤ 999999 ∧ s.delay < d ∧ s.state = STATE_DATA ∧ s.stop_bit = false ∧
      s.data_bit = 0
  · obtain ⟨c1, c2, c3, c4, c5⟩ := hc
    have e := irq_data_last s d c3 c4 c2 c1 c5
    have hb : completed_byte s d = some (to_char (Int.lor s.data
        (wrap_int ((if d < s.pulse_len then (0 : Int) else 1) <<< (0 : Int))))) := by
      simp [completed_byte, c1, c2, c3, c4, c5]
    by_cases hf : (s.ring_head + 1) % RING_SIZE = s.ring_tail
    · rw [e, hb]
      simp [hf, same_ring]
    · rw [e, hb]
      simp [hf, same_ring]
  · have hb : completed_byte s d = none := by
      simp only [completed_byte, hc, if_false]
    have hs : same_ring s (vlc_irq_handler s d) := by
      simp only [vlc_irq_handler, irq_sync, irq_data, reset_state, same_ring]
      split_ifs <;> simp_all
    rw [hb]
    exact ⟨hs.2.1, fun _ => hs, fun b hb' => by simp at hb'⟩

theorem ring_full_iff (s : VlcState) (hh : s.ring_head < RING_SIZE)
    (ht : s.ring_tail < RING_SIZE) :
    (s.ring_head + 1) % RING_SIZE = s.ring_tail ↔ ring_count s = 63 := by
  unfold ring_count
  simp only [RING_SIZE] at *
  omega

/-- The unread bytes after a call of the handler: the completed byte, if any, is
appended when fewer than 63 bytes are unread. -/
theorem irq_contents (s : VlcState) (d : Int) (hh : s.ring_head < RING_SIZE)
    (ht : s.ring_tail < RING_SIZE) :
    (vlc_irq_handler s d).ring_head < RING_SIZE ∧
    (vlc_irq_handler s d).ring_tail < RING_SIZE ∧
    ring_contents (vlc_irq_handler s d) =
      (match completed_byte s d with
       | some b => if (ring_contents s).length < 63 then ring_contents s ++ [b]
                   else ring_contents s
       | none => ring_contents s) := by
  obtain ⟨t1, t2, t3⟩ := irq_ring s d
  have hfull := ring_full_iff s hh ht
  have hlt := ring_count_lt s
  cases hb : completed_byte s d with
  | none =>
    have hs := t2 hb
    exact ⟨by rw [hs.1]; exact hh, by rw [t1]; exact ht,
      ring_contents_congr _ _ hs.1 hs.2.1 hs.2.2⟩
  | some b =>
    obtain ⟨u1, u2⟩ := t3 b hb
    by_cases hf : (s.ring_head + 1) % RING_SIZE = s.ring_tail
    · have hs := u1 hf
      have h63 : ¬ (ring_contents s).length < 63 := by
        rw [ring_contents_length, hfull.1 hf]; omega
      simp only [h63, if_false]
      exact ⟨by rw [hs.1]; exact hh, by rw [t1]; exact ht,
        ring_contents_congr _ _ hs.1 hs.2.1 hs.2.2⟩
    · obtain ⟨v1, v2⟩ := u2 hf
      have h63 : (ring_contents s).length < 63 := by
        rw [ring_contents_length]
        have : ring_count s ≠ 63 := fun h => hf (hfull.2 h)
        omega
      simp only [h63, if_true]
      exact ⟨by rw [v1]; exact Nat.mod_lt _ (by decide), by rw [t1]; exact ht,
        ring_contents_push s _ b hh ht hf v1 t1 v2⟩

/-- A read that returns, with no wait event: it delivers the front of the unread
bytes and leaves the rest. -/
theorem dev_read_contents (s : VlcState) (f_flags len : Nat) (r : ReadOutcome)
    (hh : s.ring_head < RING_SIZE) (ht : s.ring_tail < RING_SIZE)
    (hr : dev_read s f_flags len copy_ok [] = some r) :
    r.st.ring_head < RING_SIZE ∧ r.st.ring_tail < RING_SIZE ∧
    r.delivered = (ring_contents s).take len ∧
    ring_contents r.st = (ring_contents s).drop len := by
  by_cases he : s.ring_head = s.ring_tail
  · have hcont : ring_contents s = [] := ring_contents_empty s he
    by_cases hnb : f_flags &&& O_NONBLOCK ≠ 0
    · rw [dev_read_nonblock_empty s f_flags len copy_ok [] hnb he] at hr
      cases hr
      simp [hcont, hh, ht]
    · simp [dev_read, dev_read_wait, he, hnb] at hr
  · obtain ⟨e1, e2⟩ := dev_read_nonempty s f_flags len [] hh ht he
    rw [e1] at hr
    cases hr
    exact ⟨hh, Nat.mod_lt _ (by decide), rfl, e2⟩

/-- Simulation: from any state with valid indices, the queue run on the
operations the interleaving stands for, started on the unread bytes, ends with
the unread bytes of the final state and has taken the bytes delivered. -/
theorem run_ops_simulation : ∀ (ops : List RingOp) (s s' : VlcState) (out : List Nat),
    s.ring_head < RING_SIZE → s.ring_tail < RING_SIZE →
    run_ops ops s = some (s', out) →
    fifo_run (fifo_ops ops s) (ring_contents s) = (ring_contents s', out) := by
  intro ops
  induction ops with
  | nil =>
    intro s s' out _ _ h
    simp only [run_ops, Option.some.injEq, Prod.mk.injEq] at h
    obtain ⟨h1, h2⟩ := h
    subst h1 h2
    rfl
  | cons op ops ih =>
    intro s s' out hh ht h
    cases op with
    | irq d =>
      obtain ⟨c1, c2, c3⟩ := irq_contents s d hh ht
      have h' : run_ops ops (vlc_irq_handler s d) = some (s', out) := h
      have hi := ih (vlc_irq_handler s d) s' out c1 c2 h'
      rw [c3] at hi
      cases hb : completed_byte s d with
      | none =>
        rw [hb] at hi
        simp only [fifo_ops, hb]
        exact hi
      | some b =>
        rw [hb] at hi
        simp only [fifo_ops, hb, fifo_run]
        exact hi
    | read f_flags len =>
      cases hr : dev_read s f_flags len copy_ok [] with
      | none => simp [run_ops, hr] at h
      | some r =>
        obtain ⟨c1, c2, c3, c4⟩ := dev_read_contents s f_flags len r hh ht hr
        cases hrest : run_ops ops r.st with
        | none => simp [run_ops, hr, hrest] at h
        | some p =>
          obtain ⟨s1, out1⟩ := p
          simp only [run_ops, hr, hrest, Option.some.injEq, Prod.mk.injEq] at h
          obtain ⟨h1, h2⟩ := h
          subst h1 h2
          have hi := ih r.st s1 out1 c1 c2 hrest
          rw [c4] at hi
          simp only [fifo_ops, hr, fifo_run, hi, c3]

/-- An interleaving whose reads are all non-blocking runs to its end. -/
theorem run_ops_nonblocking : ∀ (ops : List RingOp) (s : VlcState),
    (∀ f_flags len, RingOp.read f_flags len ∈ ops → f_flags &&& O_NONBLOCK ≠ 0) →
    s.ring_head < RING_SIZE → s.ring_tail < RING_SIZE →
    (run_ops ops s).isSome = true := by
  intro ops
  induction ops with
  | nil => intro s _ _ _; rfl
  | cons op ops ih =>
    intro s hnb hh ht
    have hnb' : ∀ f_flags len, RingOp.read f_flags len ∈ ops → f_flags &&& O_NONBLOCK ≠ 0 :=
      fun f l hm => hnb f l (List.mem_cons_of_mem _ hm)
    cases op with
    | irq d =>
      obtain ⟨c1, c2, _⟩ := irq_contents s d hh ht
      exact ih (vlc_irq_handler s d) hnb' c1 c2
    | read f_flags len =>
      have hf := hnb f_flags len (List.mem_cons_self _ _)
      have hsome : ∃ r, dev_read s f_flags len copy_ok [] = some r := by
        by_cases he : s.ring_head = s.ring_tail
        · exact ⟨_, dev_read_nonblock_empty s f_flags len copy_ok [] hf he⟩
        · exact ⟨_, (dev_read_nonempty s f_flags len [] hh ht he).1⟩
      obtain ⟨r, hr⟩ := hsome
      obtain ⟨c1, c2, _, _⟩ := dev_read_contents s f_flags len r hh ht hr
      have hi := ih r.st hnb' c1 c2
      cases hrest : run_ops ops r.st with
      | none => rw [hrest] at hi; simp at hi
      | some p => simp [run_ops, hr, hrest]

/-! ## Reads of an empty buffer -/

/-- The drain loop returns `-EFAULT` or a count that is not negative. -/
theorem dev_read_drain_result (copy : Nat → Nat) : ∀ (len : Nat) (s : VlcState) (pos : Nat)
    (result : Int) (out : List Nat), 0 ≤ result →
    (dev_read_drain copy len s pos result out).1 = -EFAULT ∨
    0 ≤ (dev_read_drain copy len s pos result out).1 := by
  intro len
  induction len with
  | zero => intro s pos result out h; exact Or.inr (by simpa [dev_read_drain] using h)
  | succ n ih =>
    intro s pos result out h
    by_cases he : s.ring_head = s.ring_tail
    · exact Or.inr (by simpa [dev_read_drain, he] using h)
    · by_cases hc : copy pos = 0
      · have := ih { s with ring_tail := (s.ring_tail + 1) % RING_SIZE } (pos + 1)
          (result + 1) (out ++ [s.ring_data s.ring_tail]) (by omega)
        simpa [dev_read_drain, he, hc] using this
      · exact Or.inl (by simp [dev_read_drain, he, hc])

/-- A wait that ends with a result other than 0 has left the ring buffer alone:
an interrupt that stores a byte ends the wait with 0. -/
theorem dev_read_wait_interrupted (f_flags : Nat) : ∀ (events : List WaitEvent)
    (s s' : VlcState) (r : Int) (rest : List WaitEvent),
    dev_read_wait f_flags events s = some (r, s', rest) → r ≠ 0 → same_ring s s' := by
  intro events
  induction events with
  | nil =>
    intro s s' r rest h hr
    by_cases he : s.ring_head = s.ring_tail
    · by_cases hnb : f_flags &&& O_NONBLOCK ≠ 0
      · simp only [dev_read_wait, he, hnb, if_true, ne_eq, not_false_eq_true,
          Option.some.injEq, Prod.mk.injEq] at h
        obtain ⟨_, h2, _⟩ := h
        subst h2
        exact ⟨rfl, rfl, rfl⟩
      · simp [dev_read_wait, he, hnb] at h
    · simp only [dev_read_wait, he, if_false, Option.some.injEq, Prod.mk.injEq] at h
      exact absurd h.1.symm hr
  | cons ev evs ih =>
    intro s s' r rest h hr
    by_cases he : s.ring_head = s.ring_tail
    · by_cases hnb : f_flags &&& O_NONBLOCK ≠ 0
      · simp only [dev_read_wait, he, hnb, if_true, ne_eq, not_false_eq_true,
          Option.some.injEq, Prod.mk.injEq] at h
        obtain ⟨_, h2, _⟩ := h
        subst h2
        exact ⟨rfl, rfl, rfl⟩
      · cases ev with
        | signal =>
          simp only [dev_read_wait, he, hnb, if_true, if_false, Option.some.injEq,
            Prod.mk.injEq] at h
          obtain ⟨_, h2, _⟩ := h
          subst h2
          exact ⟨rfl, rfl, rfl⟩
        | irq d =>
          have h' : dev_read_wait f_flags evs (vlc_irq_handler s d) = some (r, s', rest) := by
            simpa [dev_read_wait, he, hnb] using h
          obtain ⟨t1, t2, t3⟩ := irq_ring s d
          have hsame : same_ring s (vlc_irq_handler s d) := by
            cases hb : completed_byte s d with
            | none => exact t2 hb
            | some b =>
              have hroom : (s.ring_head + 1) % RING_SIZE ≠ s.ring_tail := by
                rw [← he]; simp only [RING_SIZE]; omega
              obtain ⟨v1, _⟩ := (t3 b hb).2 hroom
              have hne : (vlc_irq_handler s d).ring_head ≠ (vlc_irq_handler s d).ring_tail := by
                rw [v1, t1]; exact hroom
              rw [dev_read_wait_nonempty _ f_flags evs hne] at h'
              simp only [Option.some.injEq, Prod.mk.injEq] at h'
              exact absurd h'.1.symm hr
          have hi := ih (vlc_irq_handler s d) s' r rest h' hr
          exact ⟨hi.1.trans hsame.1, hi.2.1.trans hsame.2.1, hi.2.2.trans hsame.2.2⟩
    · simp only [dev_read_wait, he, if_false, Option.some.injEq, Prod.mk.injEq] at h
      exact absurd h.1.symm hr

/-- A read that returns `-ERESTARTSYS` has delivered nothing and has left the ring
buffer alone. -/
theorem dev_read_interrupted (s : VlcState) (f_flags len : Nat) (copy : Nat → Nat)
    (events : List WaitEvent) (r : ReadOutcome)
    (h : dev_read s f_flags len copy events = some r) (hr : r.result = -ERESTARTSYS) :
    r.delivered = [] ∧ same_ring s r.st := by
  unfold dev_read at h
  cases hw : dev_read_wait f_flags events s with
  | none => simp [hw] at h
  | some p =>
    obtain ⟨rv, s1, rest⟩ := p
    rw [hw] at h
    by_cases h0 : rv = 0
    · subst h0
      simp only [ne_eq, not_true_eq_false, if_false, Option.some.injEq] at h
      subst h
      have := dev_read_drain_result copy len s1 0 0 [] (le_refl 0)
      simp only [EFAULT, ERESTARTSYS] at this hr
      omega
    · simp only [ne_eq, h0, not_false_eq_true, if_true, Option.some.injEq] at h
      subst h
      exact ⟨rfl, dev_read_wait_interrupted f_flags events s s1 rv rest hw h0⟩

theorem fifo_run_sublist : ∀ (ops : List FifoOp) (q : List Nat),
    List.Sublist ((fifo_run ops q).2 ++ (fifo_run ops q).1) (q ++ fifo_pushed ops) := by
  intro ops
  induction ops with
  | nil => intro q; simp [fifo_run, fifo_pushed]
  | cons op ops ih =>
    intro q
    cases op with
    | push b =>
      simp only [fifo_run, fifo_pushed]
      by_cases hl : q.length < 63
      · simp only [hl, if_true]
        have := ih (q ++ [b])
        simpa using this
      · simp only [hl, if_false]
        exact (ih q).trans (List.Sublist.append_left (List.sublist_cons_self _ _) _)
    | take n =>
      simp only [fifo_run, fifo_pushed]
      have := ih (q.drop n)
      have h2 := List.Sublist.append_left this (q.take n)
      have e : q ++ fifo_pushed ops = q.take n ++ (q.drop n ++ fifo_pushed ops) := by
        rw [← List.append_assoc, List.take_append_drop]
      rw [e]
      simpa [List.append_assoc] using h2

/-! ## The ring buffer refines the bounded queue -/

/-- C7. The ring buffer refines a bounded FIFO queue of capacity 63 under the
abstraction `ring_contents` (slots `tail .. head-1` modulo 64).  Starting from an
empty buffer, for every interleaving of interrupts and reads (every copy
succeeding) that runs to its end, the final unread bytes and the bytes delivered
are those of the queue run on `fifo_ops`: append-if-fewer-than-63 for every byte
the handler completes, take-from-front for every read.  The bytes delivered,
followed by the bytes still unread, are a subsequence, in order, of the bytes
completed.  An interleaving whose reads are all non-blocking runs to its end. -/
theorem ring_refines_fifo (ops : List RingOp) (s : VlcState)
    (hempty : s.ring_head = s.ring_tail) (hh : s.ring_head < RING_SIZE) :
    (∀ p, run_ops ops s = some p →
      fifo_run (fifo_ops ops s) [] = (ring_contents p.1, p.2) ∧
      List.Sublist (p.2 ++ ring_contents p.1) (fifo_pushed (fifo_ops ops s))) ∧
    ((∀ f_flags len, RingOp.read f_flags len ∈ ops → f_flags &&& O_NONBLOCK ≠ 0) →
      (run_ops ops s).isSome = true) := by
  have ht : s.ring_tail < RING_SIZE := hempty ▸ hh
  have hcont : ring_contents s = [] := ring_contents_empty s hempty
  refine ⟨?_, fun hnb => run_ops_nonblocking ops s hnb hh ht⟩
  intro p hp
  obtain ⟨s', out⟩ := p
  have h := run_ops_simulation ops s s' out hh ht hp
  rw [hcont] at h
  refine ⟨h, ?_⟩
  have hs := fifo_run_sublist (fifo_ops ops s) []
  rw [h] at hs
  simpa using hs

theorem ring_refines_fifo_witness :
    boot_state.ring_head = boot_state.ring_tail ∧ boot_state.ring_head < RING_SIZE ∧
    fifo_run (fifo_ops demo_ops boot_state) [] = ([], [255]) ∧
    (run_ops demo_ops boot_state).isSome = true :=
  ⟨by decide, by decide, by decide,
    (ring_refines_fifo demo_ops boot_state (by decide) (by decide)).2
      (fun f_flags len hm => by
        simp only [demo_ops, List.mem_cons, List.mem_singleton, RingOp.read.injEq,
          reduceCtorEq, false_or, List.mem_nil_iff, or_false] at hm
        rw [hm.1]
        decide)⟩

/-! ## Capacity of the ring buffer -/

/-- C8. For every state with `ring_head, ring_tail < 64` and every call of the
handler: the buffer holds at most 63 unread bytes afterwards and `ring_tail` is
not written; the buffer is full, `(ring_head + 1) % 64 = ring_tail`, exactly when
63 bytes are unread; a byte completed while the buffer is full is dropped with
`ring_head`, `ring_tail` and every slot unchanged; a byte completed otherwise is
stored at `ring_head`, which alone advances by one modulo 64; a call that
completes no byte leaves the buffer alone.  A drain of an empty buffer
(`ring_head = ring_tail`) returns at once: no byte, no index changed. -/
theorem ring_never_overfull (s : VlcState) (d : Int)
    (hh : s.ring_head < RING_SIZE) (ht : s.ring_tail < RING_SIZE) :
    ring_count (vlc_irq_handler s d) ≤ 63 ∧
    (vlc_irq_handler s d).ring_head < RING_SIZE ∧
    (vlc_irq_handler s d).ring_tail = s.ring_tail ∧
    ((s.ring_head + 1) % RING_SIZE = s.ring_tail ↔ ring_count s = 63) ∧
    (∀ b, completed_byte s d = some b → (s.ring_head + 1) % RING_SIZE = s.ring_tail →
      same_ring s (vlc_irq_handler s d)) ∧
    (∀ b, completed_byte s d = some b → (s.ring_head + 1) % RING_SIZE ≠ s.ring_tail →
      (vlc_irq_handler s d).ring_head = (s.ring_head + 1) % RING_SIZE ∧
      (vlc_irq_handler s d).ring_data = Function.update s.ring_data s.ring_head b ∧
      ring_count (vlc_irq_handler s d) = ring_count s + 1) ∧
    (completed_byte s d = none → same_ring s (vlc_irq_handler s d)) ∧
    (s.ring_head = s.ring_tail → ∀ (copy : Nat → Nat) (len pos : Nat) (result : Int)
      (out : List Nat), dev_read_drain copy len s pos result out = (result, out, s)) := by
  obtain ⟨t1, t2, t3⟩ := irq_ring s d
  obtain ⟨c1, _, _⟩ := irq_contents s d hh ht
  have hlt := ring_count_lt (vlc_irq_handler s d)
  refine ⟨by omega, c1, t1, ring_full_iff s hh ht, fun b hb hf => (t3 b hb).1 hf, ?_, t2, ?_⟩
  · intro b hb hf
    obtain ⟨v1, v2⟩ := (t3 b hb).2 hf
    refine ⟨v1, v2, ?_⟩
    have := ring_contents_push s (vlc_irq_handler s d) b hh ht hf v1 t1 v2
    rw [← ring_contents_length, this, List.length_append, ring_contents_length]
    rfl
  · intro he copy len pos result out
    cases len with
    | zero => rfl
    | succ n => simp [dev_read_drain, he]

theorem ring_never_overfull_witness :
    full_ring.ring_head < RING_SIZE ∧ full_ring.ring_tail < RING_SIZE ∧
    ring_count full_ring = 63 ∧ completed_byte full_ring 2000 = some 161 ∧
    same_ring full_ring (vlc_irq_handler full_ring 2000) ∧
    (vlc_irq_handler full_ring 2000).stop_bit = true :=
  ⟨by decide, by decide, by decide, by decide,
    (ring_never_overfull full_ring 2000 (by decide) (by decide)).2.2.2.2.1 161
      (by decide) (by decide),
    by decide⟩

/-! ## Reading -/

/-- C9. For every ring buffer with `n >= 1` unread bytes and every `max_len`,
`dev_read` (every copy succeeding, whatever the flags) returns `min max_len n`,
delivers the first `min max_len n` unread bytes in order and changes `ring_tail`
only (`ring_head` and the slots are unchanged); afterwards the buffer holds the
unread bytes after the first `max_len`, in the same order.  For `max_len < n` the
result is `max_len`; for `max_len >= n` the result is `n`, all unread bytes are
delivered and the buffer is empty. -/
theorem dev_read_takes_front (s : VlcState) (f_flags max_len : Nat)
    (events : List WaitEvent)
    (hh : s.ring_head < RING_SIZE) (ht : s.ring_tail < RING_SIZE)
    (hn : 1 ≤ ring_count s) :
    dev_read s f_flags max_len copy_ok events
      = some { result := ((min max_len (ring_count s) : Nat) : Int),
               delivered := (ring_contents s).take max_len,
               st := { s with ring_tail :=
                         (s.ring_tail + min max_len (ring_count s)) % RING_SIZE },
               pending := events } ∧
    ring_contents
        { s with ring_tail := (s.ring_tail + min max_len (ring_count s)) % RING_SIZE }
      = (ring_contents s).drop max_len ∧
    (max_len < ring_count s →
      min max_len (ring_count s) = max_len ∧
      ((ring_contents s).take max_len).length = max_len) ∧
    (ring_count s ≤ max_len →
      min max_len (ring_count s) = ring_count s ∧
      (ring_contents s).take max_len = ring_contents s ∧
      (ring_contents s).drop max_len = [] ∧
      (s.ring_tail + min max_len (ring_count s)) % RING_SIZE = s.ring_head) := by
  have hne : s.ring_head ≠ s.ring_tail := by
    intro he
    have := (ring_count_zero_iff s hh ht).2 he
    omega
  obtain ⟨e1, e2⟩ := dev_read_nonempty s f_flags max_len events hh ht hne
  refine ⟨e1, e2, ?_, ?_⟩
  · intro hlt
    refine ⟨by omega, ?_⟩
    rw [List.length_take, ring_contents_length]
    omega
  · intro hle
    have hlen : (ring_contents s).length ≤ max_len := by
      rw [ring_contents_length]; exact hle
    refine ⟨by omega, List.take_of_length_le hlen, List.drop_of_length_le hlen, ?_⟩
    rw [Nat.min_eq_right hle]
    unfold ring_count
    simp only [RING_SIZE] at *
    omega

theorem dev_read_takes_front_witness :
    three_unread.ring_head < RING_SIZE ∧ three_unread.ring_tail < RING_SIZE ∧
    1 ≤ ring_count three_unread ∧
    Option.map ReadOutcome.delivered (dev_read three_unread 0 2 copy_ok []) = some [10, 20] ∧
    Option.map ReadOutcome.result (dev_read three_unread 0 2 copy_ok []) = some 2 ∧
    ring_contents { three_unread with ring_tail := 0 } = [30] := by
  have h := dev_read_takes_front three_unread 0 2 [] (by decide) (by decide) (by decide)
  refine ⟨by decide, by decide, by decide, ?_, ?_, by decide⟩
  · rw [h.1]; decide
  · rw [h.1]; decide

/-- C10. For every state with an empty ring buffer (`ring_head = ring_tail`):
a non-blocking `dev_read` returns `-EAGAIN` at once; a blocking `dev_read` whose
wait is interrupted by a signal returns `-ERESTARTSYS`; in both cases no byte is
delivered and the state, `ring_head`, `ring_tail` and `ring_data` included, is
unchanged.  Whatever happens during the wait, a read that returns `-ERESTARTSYS`
has delivered no byte and has left `ring_head`, `ring_tail` and `ring_data`
unchanged. -/
theorem dev_read_empty (s : VlcState) (he : s.ring_head = s.ring_tail) :
    (∀ (f_flags len : Nat) (copy : Nat → Nat) (events : List WaitEvent),
      f_flags &&& O_NONBLOCK ≠ 0 →
      dev_read s f_flags len copy events
        = some { result := -EAGAIN, delivered := [], st := s, pending := events }) ∧
    (∀ (f_flags len : Nat) (copy : Nat → Nat) (rest : List WaitEvent),
      f_flags &&& O_NONBLOCK = 0 →
      dev_read s f_flags len copy (WaitEvent.signal :: rest)
        = some { result := -ERESTARTSYS, delivered := [], st := s, pending := rest }) ∧
    (∀ (f_flags len : Nat) (copy : Nat → Nat) (events : List WaitEvent) (r : ReadOutcome),
      dev_read s f_flags len copy events = some r → r.result = -ERESTARTSYS →
      r.delivered = [] ∧ same_ring s r.st) := by
  refine ⟨fun f_flags len copy events hnb =>
    dev_read_nonblock_empty s f_flags len copy events hnb he, ?_,
    fun f_flags len copy events r h hr => dev_read_interrupted s f_flags len copy events r h hr⟩
  intro f_flags len copy rest hb
  simp [dev_read, dev_read_wait, he, hb, ERESTARTSYS]

theorem dev_read_empty_witness :
    boot_state.ring_head = boot_state.ring_tail ∧
    Option.map ReadOutcome.result (dev_read boot_state O_NONBLOCK 8 copy_ok []) = some (-11) ∧
    Option.map ReadOutcome.result
      (dev_read boot_state 0 8 copy_ok [WaitEvent.irq 1000, WaitEvent.signal]) = some (-512) := by
  have h := dev_read_empty boot_state (by decide)
  refine ⟨by decide, ?_, by decide⟩
  rw [h.1 O_NONBLOCK 8 copy_ok [] (by decide)]
  decide

/-! ## Configuration -/

theorem unhook_same_ring (s : VlcState) : same_ring s (unhook_gpio_irq s).1 := by
  unfold unhook_gpio_irq
  split <;> exact ⟨rfl, rfl, rfl⟩

theorem unhook_same_decoder (s : VlcState) : same_decoder s (unhook_gpio_irq s).1 := by
  unfold unhook_gpio_irq
  split <;> exact ⟨rfl, rfl, rfl, rfl, rfl, rfl⟩

/-- C11, as the claim states it, fails: an attached state (pin 23) asks for pin 5,
`gpio_request` fails, `hook_gpio_irq` returns non-zero and `gpio_vlc_store`
reports `-EINVAL`; yet the attached flag has gone from true to false and the pin
variable from 23 to 5, because `hook_gpio_irq` detaches and stores the new pin
before it asks for it. -/
theorem failed_attach_changes_config :
    one_unread.configured = true ∧ one_unread.gpio_vlc = 23 ∧
    (hook_gpio_irq gpio_busy one_unread 5).1 ≠ 0 ∧
    (gpio_vlc_store gpio_busy one_unread [53] 5).1 = -EINVAL ∧
    (hook_gpio_irq gpio_busy one_unread 5).2.1.configured = false ∧
    (hook_gpio_irq gpio_busy one_unread 5).2.1.gpio_vlc = 5 ∧
    (gpio_vlc_store gpio_busy one_unread [53] 5).2.1.configured = false ∧
    (gpio_vlc_store gpio_busy one_unread [53] 5).2.1.gpio_vlc = 5 := by
  decide

/-- C11, amended. When attaching fails because the pin cannot be acquired
(`gpio_request` returns non-zero), `hook_gpio_irq` returns that value,
`gpio_vlc_store` reports `-EINVAL`, and the decoder state and the ring buffer are
the same as before the call; the previous pin has been detached first (the
attached flag is false afterwards, the handler uninstalled and the pin released
when it was attached) and the pin variable holds the requested pin. -/
theorem failed_pin_request_keeps_decoder (env : GpioEnv) (s : VlcState) (pin : Nat)
    (hfail : env.gpio_request pin ≠ 0) :
    (hook_gpio_irq env s pin).1 = env.gpio_request pin ∧
    (hook_gpio_irq env s pin).2.1 = { (unhook_gpio_irq s).1 with gpio_vlc := pin } ∧
    (hook_gpio_irq env s pin).2.2
      = (unhook_gpio_irq s).2 ++ [GpioCall.gpio_request pin] ∧
    same_decoder s (hook_gpio_irq env s pin).2.1 ∧
    same_ring s (hook_gpio_irq env s pin).2.1 ∧
    (hook_gpio_irq env s pin).2.1.delay = s.delay ∧
    (hook_gpio_irq env s pin).2.1.configured = false ∧
    (hook_gpio_irq env s pin).2.1.gpio_vlc = pin ∧
    (∀ (buf : List Nat), is_off buf = false →
      (gpio_vlc_store env s buf (pin : Int)).1 = -EINVAL ∧
      (gpio_vlc_store env s buf (pin : Int)).2.1 = (hook_gpio_irq env s pin).2.1) := by
  have e : hook_gpio_irq env s pin
      = (env.gpio_request pin, { (unhook_gpio_irq s).1 with gpio_vlc := pin },
         (unhook_gpio_irq s).2 ++ [GpioCall.gpio_request pin]) := by
    simp [hook_gpio_irq, hfail]
  have hr := unhook_same_ring s
  have hd := unhook_same_decoder s
  have hc : (unhook_gpio_irq s).1.configured = false := by
    unfold unhook_gpio_irq
    split
    · rfl
    · simp_all
  have hdl : (unhook_gpio_irq s).1.delay = s.delay := by
    unfold unhook_gpio_irq
    split <;> rfl
  refine ⟨by rw [e], by rw [e], by rw [e], by rw [e]; exact hd, by rw [e]; exact hr,
    by rw [e]; exact hdl, by rw [e]; exact hc, by rw [e], ?_⟩
  intro buf hoff
  have hnn : ¬ ((pin : Int) < 0) := by omega
  simp [gpio_vlc_store, hoff, hnn, e, hfail]

theorem failed_pin_request_keeps_decoder_witness :
    gpio_busy.gpio_request 5 ≠ 0 ∧
    ring_contents (hook_gpio_irq gpio_busy one_unread 5).2.1 = [65] ∧
    (hook_gpio_irq gpio_busy one_unread 5).2.1.state = one_unread.state := by
  have h := failed_pin_request_keeps_decoder gpio_busy one_unread 5 (by decide)
  exact ⟨by decide,
    (ring_contents_congr _ _ h.2.2.2.2.1.1 h.2.2.2.2.1.2.1 h.2.2.2.2.1.2.2).trans (by decide),
    h.2.2.2.1.1⟩

/-- C12. A write of the value `v` to the glitch-threshold endpoint is accepted
(it returns the count and `delay` becomes `v`, nothing else changes) exactly when
`0 <= v < 500000000`; otherwise it returns `-EINVAL` and the state, `delay`
included, is unchanged. -/
theorem delay_store_range (s : VlcState) (v : Int) (count : Nat) :
    ((0 ≤ v ∧ v < 500000000) ↔ (delay_store s v count).1 = (count : Int)) ∧
    ((0 ≤ v ∧ v < 500000000) →
      delay_store s v count = ((count : Int), { s with delay := v })) ∧
    (¬ (0 ≤ v ∧ v < 500000000) → delay_store s v count = (-EINVAL, s)) := by
  by_cases h : v ≥ 0 ∧ v < 500000000
  · have e : delay_store s v count = ((count : Int), { s with delay := v }) := by
      simp [delay_store, h]
    refine ⟨⟨fun _ => by rw [e], fun _ => h⟩, fun _ => e, fun hn => absurd h hn⟩
  · have e : delay_store s v count = (-EINVAL, s) := by
      simp only [delay_store, h, if_false]
    refine ⟨⟨fun hh => absurd hh h, fun hc => ?_⟩, fun hh => absurd hh h, fun _ => e⟩
    rw [e] at hc
    simp only [EINVAL] at hc
    omega

theorem delay_store_range_witness :
    (delay_store boot_state 250 4).1 = 4 ∧ (delay_store boot_state 250 4).2.delay = 250 ∧
    (delay_store boot_state 500000000 10).1 = -EINVAL ∧
    (delay_store boot_state 500000000 10).2.delay = 0 := by
  have h := delay_store_range boot_state 250 4
  have h' := delay_store_range boot_state 500000000 10
  refine ⟨?_, ?_, ?_, ?_⟩
  · rw [h.2.1 (by decide)]; rfl
  · rw [h.2.1 (by decide)]
  · rw [h'.2.2 (by decide)]
  · rw [h'.2.2 (by decide)]; rfl

/-- C13. Detaching is idempotent: a second `unhook_gpio_irq` leaves the state of
the first and makes no call, so the handler is uninstalled and the pin released
at most once (exactly once when the state was attached); on a detached state
`unhook_gpio_irq` changes nothing and makes no call. -/
theorem unhook_idempotent (s : VlcState) :
    unhook_gpio_irq (unhook_gpio_irq s).1 = ((unhook_gpio_irq s).1, []) ∧
    (unhook_gpio_irq s).2 ++ (unhook_gpio_irq (unhook_gpio_irq s).1).2
      = (unhook_gpio_irq s).2 ∧
    (s.configured = true →
      (unhook_gpio_irq s).2 = [GpioCall.free_irq s.irq_nr, GpioCall.gpio_free s.gpio_vlc] ∧
      (unhook_gpio_irq s).1 = { s with configured := false }) ∧
    (s.configured = false → unhook_gpio_irq s = (s, [])) := by
  cases hc : s.configured with
  | false => simp [unhook_gpio_irq, hc]
  | true => simp [unhook_gpio_irq, hc]

theorem unhook_idempotent_witness :
    one_unread.configured = true ∧
    (unhook_gpio_irq one_unread).2 = [GpioCall.free_irq 0, GpioCall.gpio_free 23] ∧
    (unhook_gpio_irq (unhook_gpio_irq one_unread).1).2 = [] := by
  have h := unhook_idempotent one_unread
  refine ⟨by decide, (h.2.2.1 (by decide)).1, ?_⟩
  rw [h.1]

/-! ## Exclusive open -/

theorem run_file_ops_inv : ∀ (ops : List FileOp) (m : Bool) (n : Nat) (st : Bool × Nat),
    n ≤ 1 → (m = true ↔ n = 1) → run_file_ops ops (m, n) = some st →
    st.2 ≤ 1 ∧ (st.1 = true ↔ st.2 = 1) := by
  intro ops
  induction ops with
  | nil =>
    intro m n st h1 h2 h
    simp only [run_file_ops, Option.some.injEq] at h
    subst h
    exact ⟨h1, h2⟩
  | cons op ops ih =>
    intro m n st h1 h2 h
    cases op with
    | fopen =>
      cases m with
      | false =>
        have hn : n = 0 := by
          rcases Nat.lt_or_ge n 1 with h | h
          · omega
          · have : n = 1 := by omega
            exact absurd (h2.2 this) (by simp)
        subst hn
        exact ih true 1 st (by omega) (by simp) (by simpa [run_file_ops, dev_open, mutex_trylock] using h)
      | true =>
        have hn : n = 1 := h2.1 rfl
        subst hn
        exact ih true 1 st (by omega) (by simp)
          (by simpa [run_file_ops, dev_open, mutex_trylock, EBUSY] using h)
    | frelease =>
      cases n with
      | zero => simp [run_file_ops] at h
      | succ k =>
        have hk : k = 0 := by omega
        subst hk
        exact ih false 0 st (by omega) (by simp) (by simpa [run_file_ops, dev_release] using h)

/-- C14. The read endpoint is exclusive.  With `dev_mutex` as a boolean:
`dev_open` on a free guard returns 0 and takes it; on a held guard it returns
`-EBUSY` at once and the guard stays held; `dev_release` frees it.  In every
sequence of open and release calls from the free guard (a release only for an
open file), at most one successful open is outstanding, and the guard is held
exactly when one is. -/
theorem open_is_exclusive (ops : List FileOp) (st : Bool × Nat)
    (hrun : run_file_ops ops (false, 0) = some st) :
    dev_open false = (0, true) ∧
    dev_open true = (-EBUSY, true) ∧
    (∀ m, dev_release m = (0, false)) ∧
    st.2 ≤ 1 ∧ (st.1 = true ↔ st.2 = 1) := by
  refine ⟨by decide, by decide, fun m => rfl, ?_⟩
  exact run_file_ops_inv ops false 0 st (by omega) (by simp) hrun

theorem open_is_exclusive_witness :
    run_file_ops [FileOp.fopen, FileOp.fopen, FileOp.frelease, FileOp.fopen, FileOp.fopen]
      (false, 0) = some (true, 1) ∧
    (1 : Nat) ≤ 1 :=
  ⟨by decide,
   (open_is_exclusive
      [FileOp.fopen, FileOp.fopen, FileOp.frelease, FileOp.fopen, FileOp.fopen]
      (true, 1) (by decide)).2.2.2.1⟩

/-! ## Steps of the decoder -/

/-- The first pilot edge. -/
theorem irq_sync_first (s : VlcState) (d : Int)
    (hst : s.state = STATE_SYNC) (hp : s.pilot_count = 0) (hl : s.pulse_len = 0)
    (hq : s.delay < d) (hq' : d ≤ 999999) (hn : 0 ≤ d) :
    vlc_irq_handler s d = { s with ts_diff := d, pilot_count := 1, pulse_len := d } := by
  have hw : wrap_s64 d = d := wrap_s64_of_range d (by omega) (by omega)
  have hn' : ¬ (d > 999999) := by omega
  have hm : Int.tmod 1 2 = 1 := by decide
  simp [vlc_irq_handler, irq_sync, hn', hq, hw, hm, wrap_int, hst, hp, hl, SYNC_LEN]

/-- The second pilot edge. -/
theorem irq_sync_second (s : VlcState) (d : Int)
    (hst : s.state = STATE_SYNC) (hp : s.pilot_count = 1)
    (hl : 0 ≤ s.pulse_len) (hl' : s.pulse_len ≤ 999999)
    (hq : s.delay < d) (hq' : d ≤ 999999) (hn : 0 ≤ d) :
    vlc_irq_handler s d =
      { s with ts_diff := d, state := STATE_DATA, pilot_count := 2,
               pulse_len := (s.pulse_len + d) / 2 + (s.pulse_len + d) / 2 / 2,
               data := 0, data_bit := 7, stop_bit := false } := by
  have hw2 : wrap_s64 (s.pulse_len + d) = s.pulse_len + d :=
    wrap_s64_of_range _ (by omega) (by omega)
  have ht1 : Int.tdiv (s.pulse_len + d) 2 = (s.pulse_len + d) / 2 :=
    Int.tdiv_eq_ediv (by omega) (by omega)
  have ht2 : Int.tdiv ((s.pulse_len + d) / 2) 2 = (s.pulse_len + d) / 2 / 2 :=
    Int.tdiv_eq_ediv (by omega) (by omega)
  have hw3 : wrap_s64 ((s.pulse_len + d) / 2 + (s.pulse_len + d) / 2 / 2)
      = (s.pulse_len + d) / 2 + (s.pulse_len + d) / 2 / 2 :=
    wrap_s64_of_range _ (by omega) (by omega)
  have hn' : ¬ (d > 999999) := by omega
  have hm : Int.tmod 2 2 = 0 := by decide
  simp [vlc_irq_handler, irq_sync, hn', hq, hw2, ht1, ht2, hw3, hm, wrap_int, hst, hp,
    STATE_DATA, SYNC_LEN]

/-- A delta at most 999999 keeps a receiving decoder receiving, with its
threshold and its glitch threshold. -/
theorem irq_keeps_receiving (s : VlcState) (d : Int)
    (hst : s.state = STATE_DATA) (hd : d ≤ 999999) :
    (vlc_irq_handler s d).state = STATE_DATA ∧
    (vlc_irq_handler s d).pulse_len = s.pulse_len ∧
    (vlc_irq_handler s d).delay = s.delay := by
  have hn : ¬ (d > 999999) := by omega
  have hne : ¬ (STATE_DATA = STATE_SYNC) := by decide
  simp only [vlc_irq_handler, irq_data, hn, hst, hne, if_false, if_true]
  split_ifs <;> simp_all

theorem irq_delay (s : VlcState) (d : Int) : (vlc_irq_handler s d).delay = s.delay := by
  simp only [vlc_irq_handler, irq_sync, irq_data, reset_state]
  split_ifs <;> rfl

theorem decoder_inv_boot (g : Int) (hg : 0 ≤ g) : decoder_inv { boot_state with delay := g } := by
  unfold decoder_inv
  simp [boot_state, reset_state, STATE_SYNC, STATE_DATA, RING_SIZE, hg]

/-- The accumulator with clear low bits, as a multiple of a power of two. -/
theorem data_as_multiple (x : Int) (k : Nat) (h0 : 0 ≤ x)
    (hm : x % 2 ^ (k + 1) = 0) :
    x = (((x.toNat / 2 ^ (k + 1)) * 2 ^ (k + 1) : Nat) : Int) := by
  obtain ⟨n, rfl⟩ : ∃ n : Nat, x = (n : Int) := ⟨x.toNat, (Int.toNat_of_nonneg h0).symm⟩
  have hm' : n % 2 ^ (k + 1) = 0 := by exact_mod_cast hm
  have : n / 2 ^ (k + 1) * 2 ^ (k + 1) = n := Nat.div_mul_cancel (Nat.dvd_of_mod_eq_zero hm')
  simp only [Int.toNat_ofNat]
  exact_mod_cast this.symm

/-- The invariant of the decoder is kept by every call of the handler. -/
theorem decoder_inv_irq (s : VlcState) (d : Int) (h : decoder_inv s) :
    decoder_inv (vlc_irq_handler s d) := by
  obtain ⟨i1, i2, i3, i4, i5, i6, i7, i8, i9, i10⟩ := h
  have hsd : STATE_SYNC ≠ STATE_DATA := by decide
  by_cases hbig : 999999 < d
  · have e : vlc_irq_handler s d =
        { s with ts_diff := d, state := STATE_SYNC, pilot_count := 0, pulse_len := 0 } := by
      simp [vlc_irq_handler, reset_state, hbig]
    rw [e]
    exact ⟨Or.inl rfl, fun _ => Or.inl ⟨rfl, rfl⟩, fun hh => absurd hh hsd,
      i4, i5, i6, i7, i8, i9, i10⟩
  · by_cases hq : s.delay < d
    · have hd : d ≤ 999999 := by omega
      have hn : 0 ≤ d := by omega
      rcases i1 with hs | hs
      · rcases i2 hs with ⟨hp, hl⟩ | ⟨hp, hl, hl'⟩
        · rw [irq_sync_first s d hs hp hl hq hd hn]
          refine ⟨Or.inl hs, fun _ => Or.inr ⟨rfl, hn, hd⟩, fun hh => ?_,
            i4, i5, i6, i7, i8, i9, i10⟩
          exact absurd (hs.symm.trans hh) hsd
        · rw [irq_sync_second s d hs hp hl hl' hq hd hn]
          have b1 : 0 ≤ (s.pulse_len + d) / 2 + (s.pulse_len + d) / 2 / 2 := by omega
          have b2 : (s.pulse_len + d) / 2 + (s.pulse_len + d) / 2 / 2 ≤ 1499998 := by omega
          unfold decoder_inv
          simp [STATE_SYNC, STATE_DATA, b1, b2]
          exact ⟨i8, i9, i10⟩
      · obtain ⟨j1, j2, j3, j4⟩ := i3 hs
        cases hstop : s.stop_bit with
        | true =>
          rw [irq_data_stop s d hs hstop hq hd]
          refine ⟨Or.inr hs, fun hh => absurd (hh.symm.trans hs) hsd, fun _ => ?_,
            i4, i5, i6, i7, i8, i9, i10⟩
          exact ⟨j1, j2, j3, fun hh => Bool.noConfusion hh⟩
        | false =>
          by_cases hz : s.data_bit = 0
          · rw [irq_data_last s d hs hstop hq hd hz]
            have hmod : (s.ring_head + 1) % RING_SIZE < RING_SIZE := Nat.mod_lt _ (by decide)
            have z1 : (0 : Int) ≤ 7 := by decide
            have z2 : (7 : Int) ≤ 7 := by decide
            have z3 : (0 : Int) ≤ 255 := by decide
            have z4 : (0 : Int) % 2 ^ ((7 : Int).toNat + 1) = 0 := by decide
            by_cases hf : (s.ring_head + 1) % RING_SIZE = s.ring_tail
            · simp only [hf, ne_eq, not_true_eq_false, if_false]
              exact ⟨Or.inr hs, fun hh => absurd (hh.symm.trans hs) hsd,
                fun _ => ⟨j1, j2, z4, fun _ => rfl⟩, z1, z2, le_refl 0, z3, i8, i9, i10⟩
            · simp only [hf, ne_eq, not_false_eq_true, if_true]
              exact ⟨Or.inr hs, fun hh => absurd (hh.symm.trans hs) hsd,
                fun _ => ⟨j1, j2, z4, fun _ => rfl⟩, z1, z2, le_refl 0, z3, hmod, i9, i10⟩
          · obtain ⟨k, hk⟩ : ∃ k : Nat, s.data_bit = ((k + 1 : Nat) : Int) :=
              ⟨s.data_bit.toNat - 1, by omega⟩
            have hk7 : k + 1 ≤ 7 := by omega
            have htn : s.data_bit.toNat = k + 1 := by omega
            rw [htn] at j3
            have hdata := data_as_multiple s.data (k + 1) i6 j3
            have hb := pulse_bit_of_lt s.pulse_len d
            rw [irq_data_bit s d (s.data.toNat / 2 ^ (k + 2)) k hs hstop hq hd hk hk7 hdata]
            have hbound : (2 * (s.data.toNat / 2 ^ (k + 2)) + pulse_bit_of s.pulse_len d)
                * 2 ^ (k + 1) ≤ 255 := by
              have hx : s.data.toNat ≤ 255 := by omega
              have hdiv : 2 ^ (k + 2) ∣ s.data.toNat := by
                have : s.data.toNat % 2 ^ (k + 2) = 0 := by
                  have h0 : ((s.data.toNat : Nat) : Int) = s.data := Int.toNat_of_nonneg i6
                  have : ((s.data.toNat : Nat) : Int) % ((2 ^ (k + 2) : Nat) : Int) = 0 := by
                    rw [h0]; exact_mod_cast j3
                  exact_mod_cast this
                exact Nat.dvd_of_mod_eq_zero this
              have hmul := Nat.div_mul_cancel hdiv
              generalize s.data.toNat / 2 ^ (k + 2) = acc at hmul ⊢
              generalize pulse_bit_of s.pulse_len d = b at hb ⊢
              generalize s.data.toNat = x at hx hmul
              have hk6 : k ≤ 6 := by omega
              clear hk hk7 htn j3 hdata hdiv
              interval_cases k <;> simp at hmul ⊢ <;> omega
            refine ⟨Or.inr hs, fun hh => absurd (hh.symm.trans hs) hsd, fun _ => ?_,
              Int.ofNat_nonneg _, ?_, Int.ofNat_nonneg _, ?_, i8, i9, i10⟩
            · refine ⟨j1, j2, ?_, fun hh => Bool.noConfusion (hstop.symm.trans hh)⟩
              show (((2 * (s.data.toNat / 2 ^ (k + 2)) + pulse_bit_of s.pulse_len d)
                  * 2 ^ (k + 1) : Nat) : Int) % 2 ^ (((k : Nat) : Int).toNat + 1) = 0
              rw [Int.toNat_ofNat]
              exact_mod_cast Nat.mul_mod_left _ _
            · show ((k : Nat) : Int) ≤ 7
              omega
            · show (((2 * (s.data.toNat / 2 ^ (k + 2)) + pulse_bit_of s.pulse_len d)
                  * 2 ^ (k + 1) : Nat) : Int) ≤ 255
              exact_mod_cast hbound
    · have e : vlc_irq_handler s d = { s with ts_diff := d } := by
        have h1 : ¬ (d > 999999) := by omega
        have h2 : ¬ (d > s.delay) := by omega
        simp [vlc_irq_handler, h1, h2]
      rw [e]
      exact ⟨i1, i2, i3, i4, i5, i6, i7, i8, i9, i10⟩

theorem decoder_inv_run : ∀ (ds : List Int) (s : VlcState), decoder_inv s →
    decoder_inv (run_irqs s ds) := by
  intro ds
  induction ds with
  | nil => intro s h; exact h
  | cons d ds ih => intro s h; exact ih _ (decoder_inv_irq s d h)

/-- The handler reads the variables of `decoder_view` only. -/
theorem decoder_view_irq (s : VlcState) (d : Int) :
    decoder_view (vlc_irq_handler s d) = decoder_view (vlc_irq_handler (decoder_view s) d) := by
  simp only [decoder_view, vlc_irq_handler, irq_sync, irq_data, reset_state]
  split_ifs <;> rfl

/-- States that agree on what the decoder reads stay so under the handler, and
complete the same byte. -/
theorem resync_equiv_irq (s t : VlcState) (d : Int) (h : resync_equiv s t) :
    resync_equiv (vlc_irq_handler s d) (vlc_irq_handler t d) ∧
    completed_byte s d = completed_byte t d := by
  obtain ⟨hdl, ⟨r1, r2, r3⟩, hs, hp, hl, hdata⟩ := h
  by_cases hst : s.state = STATE_DATA
  · obtain ⟨d1, d2, d3⟩ := hdata hst
    have hst' : t.state = STATE_DATA := hs ▸ hst
    constructor
    · have hv : decoder_view s = decoder_view t := by
        cases s
        cases t
        simp only [decoder_view]
        simp_all
      have hE : decoder_view (vlc_irq_handler s d) = decoder_view (vlc_irq_handler t d) := by
        rw [decoder_view_irq s d, decoder_view_irq t d, hv]
      have e1 := congrArg VlcState.delay hE
      have e2 := congrArg VlcState.ring_head hE
      have e3 := congrArg VlcState.ring_tail hE
      have e4 := congrArg VlcState.ring_data hE
      have e5 := congrArg VlcState.state hE
      have e6 := congrArg VlcState.pilot_count hE
      have e7 := congrArg VlcState.pulse_len hE
      have e8 := congrArg VlcState.data hE
      have e9 := congrArg VlcState.data_bit hE
      have e10 := congrArg VlcState.stop_bit hE
      exact ⟨e1, ⟨e2.symm, e3.symm, e4.symm⟩, e5, e6, e7, fun _ => ⟨e8, e9, e10⟩⟩
    · simp only [completed_byte, ← hdl, ← hl, ← d1, ← d2, ← d3, hst, hst']
  · have hst' : ¬ t.state = STATE_DATA := hs ▸ hst
    constructor
    · simp only [resync_equiv, same_ring, vlc_irq_handler, irq_sync, reset_state,
        ← hdl, ← hl, ← hp, ← hs, r1, r2, r3, hst, if_false]
      split_ifs <;> simp_all [STATE_SYNC, STATE_DATA]
    · simp only [completed_byte, hst, hst', and_false, false_and, if_false]

theorem resync_equiv_run : ∀ (ds : List Int) (s t : VlcState), resync_equiv s t →
    resync_equiv (run_irqs s ds) (run_irqs t ds) ∧
    completed_bytes s ds = completed_bytes t ds := by
  intro ds
  induction ds with
  | nil => intro s t h; exact ⟨h, rfl⟩
  | cons d ds ih =>
    intro s t h
    obtain ⟨h1, h2⟩ := resync_equiv_irq s t d h
    obtain ⟨h3, h4⟩ := ih _ _ h1
    refine ⟨h3, ?_⟩
    simp only [completed_bytes, h2, h4]

theorem clear_low_bits (x : Int) (k : Nat) (h0 : 0 ≤ x) (hm : x % 2 ^ (k + 1) = 0)
    (i : Nat) (hi : i ≤ k) : x.toNat.testBit i = false := by
  obtain ⟨n, rfl⟩ : ∃ n : Nat, x = (n : Int) := ⟨x.toNat, (Int.toNat_of_nonneg h0).symm⟩
  have hm' : n % 2 ^ (k + 1) = 0 := by exact_mod_cast hm
  have h := Nat.testBit_mod_two_pow n (k + 1) i
  rw [hm'] at h
  simp only [Nat.zero_testBit] at h
  have hlt : i < k + 1 := by omega
  simp only [hlt, decide_True, Bool.true_and] at h
  simpa using h.symm

/-! ## The stop gap -/

/-- C15. In `STATE_DATA` with `stop_bit` set, a qualifying delta, whatever its
length against the threshold, only clears `stop_bit`: `data`, `data_bit`,
`pulse_len` and the ring buffer are unchanged and no byte is completed.  With
the accumulator cleared and `data_bit = 7`, as every state reached from
`gpiovlc_init` has them when `stop_bit` is set while receiving, the next
qualifying delta is decoded as bit 7 of the next byte: `data` becomes that bit
times 128 and `data_bit` 6. -/
theorem stop_gap_consumed (s : VlcState) (d d' : Int)
    (hst : s.state = STATE_DATA) (hstop : s.stop_bit = true)
    (hq : s.delay < d) (hd : d ≤ 999999) (hq' : s.delay < d') (hd' : d' ≤ 999999) :
    vlc_irq_handler s d = { s with ts_diff := d, stop_bit := false } ∧
    same_ring s (vlc_irq_handler s d) ∧
    completed_byte s d = none ∧
    (s.data = 0 → s.data_bit = 7 →
      (vlc_irq_handler (vlc_irq_handler s d) d').data
        = ((pulse_bit_of s.pulse_len d' * 128 : Nat) : Int) ∧
      (vlc_irq_handler (vlc_irq_handler s d) d').data_bit = 6 ∧
      (vlc_irq_handler (vlc_irq_handler s d) d').stop_bit = false ∧
      same_ring s (vlc_irq_handler (vlc_irq_handler s d) d')) ∧
    (∀ (g : Int) (ds : List Int), 0 ≤ g →
      (run_irqs (boot_with g) ds).state = STATE_DATA →
      (run_irqs (boot_with g) ds).stop_bit = true →
      (run_irqs (boot_with g) ds).data = 0 ∧ (run_irqs (boot_with g) ds).data_bit = 7) := by
  have e := irq_data_stop s d hst hstop hq hd
  refine ⟨e, by rw [e]; exact ⟨rfl, rfl, rfl⟩, ?_, ?_, ?_⟩
  · simp [completed_byte, hstop]
  · intro h0 h7
    have e2 := irq_data_bit (vlc_irq_handler s d) d' 0 6 (by rw [e]; exact hst) (by rw [e])
      (by rw [e]; exact hq') hd' (by rw [e]; simpa using h7) (by omega)
      (by rw [e]; simpa using h0)
    rw [e2, e]
    exact ⟨by simp, rfl, rfl, rfl, rfl, rfl⟩
  · intro g ds hg hs1 hs2
    obtain ⟨_, _, i3, i4, _, i6, i7, _⟩ :=
      decoder_inv_run ds (boot_with g) (decoder_inv_boot g hg)
    obtain ⟨_, _, j3, j4⟩ := i3 hs1
    have h7 := j4 hs2
    refine ⟨?_, h7⟩
    rw [h7] at j3
    have : (7 : Int).toNat + 1 = 8 := by decide
    rw [this] at j3
    omega

theorem stop_gap_consumed_witness :
    awaiting_gap.state = STATE_DATA ∧ awaiting_gap.stop_bit = true ∧
    (vlc_irq_handler awaiting_gap 40).stop_bit = false ∧
    (vlc_irq_handler (vlc_irq_handler awaiting_gap 40) 2000).data = 128 ∧
    (vlc_irq_handler (vlc_irq_handler awaiting_gap 40) 2000).data_bit = 6 := by
  have h := stop_gap_consumed awaiting_gap 40 2000 (by decide) (by decide) (by decide)
    (by decide) (by decide) (by decide)
  obtain ⟨h1, _, _, h4, _⟩ := h
  obtain ⟨k1, k2, _, _⟩ := h4 (by decide) (by decide)
  refine ⟨by decide, by decide, by rw [h1], ?_, k2⟩
  rw [k1]
  decide

/-! ## Byte completion -/

/-- C16. In `STATE_DATA` with `data_bit = 0` and no stop gap awaited, a qualifying
delta ends with `data = 0`, `data_bit = 7` and `stop_bit` set, in `STATE_DATA`
with the same threshold, whether the ring buffer is full or not.  When it is full
the completed byte is dropped and the ring buffer is left as it was; otherwise
the byte is stored at `ring_head`.  The decoder variables after the call do not
depend on the ring buffer: with any other `ring_head`, `ring_tail` and
`ring_data` the call leaves the same decoder variables. -/
theorem byte_completion_resets_framing (s : VlcState) (d : Int)
    (hst : s.state = STATE_DATA) (hstop : s.stop_bit = false) (hbit : s.data_bit = 0)
    (hq : s.delay < d) (hd : d ≤ 999999) :
    (vlc_irq_handler s d).state = STATE_DATA ∧
    (vlc_irq_handler s d).data = 0 ∧
    (vlc_irq_handler s d).data_bit = 7 ∧
    (vlc_irq_handler s d).stop_bit = true ∧
    (vlc_irq_handler s d).pulse_len = s.pulse_len ∧
    (vlc_irq_handler s d).pilot_count = s.pilot_count ∧
    (vlc_irq_handler s d).ring_tail = s.ring_tail ∧
    ((s.ring_head + 1) % RING_SIZE = s.ring_tail → same_ring s (vlc_irq_handler s d)) ∧
    ((s.ring_head + 1) % RING_SIZE ≠ s.ring_tail →
      (vlc_irq_handler s d).ring_head = (s.ring_head + 1) % RING_SIZE ∧
      ∃ b, completed_byte s d = some b ∧
        (vlc_irq_handler s d).ring_data = Function.update s.ring_data s.ring_head b) ∧
    (∀ (h t : Nat) (rd : Nat → Nat),
      same_decoder (vlc_irq_handler s d)
        (vlc_irq_handler { s with ring_head := h, ring_tail := t, ring_data := rd } d)) := by
  have e := irq_data_last s d hst hstop hq hd hbit
  have hb : completed_byte s d = some (to_char (Int.lor s.data
      (wrap_int ((if d < s.pulse_len then (0 : Int) else 1) <<< (0 : Int))))) := by
    simp [completed_byte, hd, hq, hst, hstop, hbit]
  have hfields : (vlc_irq_handler s d).state = STATE_DATA ∧
      (vlc_irq_handler s d).data = 0 ∧
      (vlc_irq_handler s d).data_bit = 7 ∧
      (vlc_irq_handler s d).stop_bit = true ∧
      (vlc_irq_handler s d).pulse_len = s.pulse_len ∧
      (vlc_irq_handler s d).pilot_count = s.pilot_count ∧
      (vlc_irq_handler s d).ring_tail = s.ring_tail := by
    rw [e]
    split_ifs <;> exact ⟨hst, rfl, rfl, rfl, rfl, rfl, rfl⟩
  obtain ⟨f1, f2, f3, f4, f5, f6, f7⟩ := hfields
  refine ⟨f1, f2, f3, f4, f5, f6, f7, ?_, ?_, ?_⟩
  · intro hf
    rw [e, if_neg (not_not.mpr hf)]
    exact ⟨rfl, rfl, rfl⟩
  · intro hf
    rw [e, if_pos hf]
    exact ⟨rfl, _, hb, rfl⟩
  · intro h t rd
    have e' := irq_data_last { s with ring_head := h, ring_tail := t, ring_data := rd } d
      hst hstop hq hd hbit
    have hfields' :
        (vlc_irq_handler { s with ring_head := h, ring_tail := t, ring_data := rd } d).state
          = STATE_DATA ∧
        (vlc_irq_handler { s with ring_head := h, ring_tail := t, ring_data := rd } d).data
          = 0 ∧
        (vlc_irq_handler { s with ring_head := h, ring_tail := t, ring_data := rd } d).data_bit
          = 7 ∧
        (vlc_irq_handler { s with ring_head := h, ring_tail := t, ring_data := rd } d).stop_bit
          = true ∧
        (vlc_irq_handler { s with ring_head := h, ring_tail := t, ring_data := rd } d).pulse_len
          = s.pulse_len ∧
        (vlc_irq_handler { s with ring_head := h, ring_tail := t, ring_data := rd } d).pilot_count
          = s.pilot_count := by
      rw [e']
      split_ifs <;> exact ⟨hst, rfl, rfl, rfl, rfl, rfl⟩
    obtain ⟨g1, g2, g3, g4, g5, g6⟩ := hfields'
    exact ⟨by rw [g1, f1], by rw [g6, f6], by rw [g5, f5], by rw [g2, f2], by rw [g3, f3],
      by rw [g4, f4]⟩

theorem byte_completion_resets_framing_witness :
    full_ring.state = STATE_DATA ∧ full_ring.data_bit = 0 ∧
    (vlc_irq_handler full_ring 2000).data = 0 ∧
    (vlc_irq_handler full_ring 2000).data_bit = 7 ∧
    (vlc_irq_handler full_ring 2000).stop_bit = true ∧
    same_ring full_ring (vlc_irq_handler full_ring 2000) := by
  have h := byte_completion_resets_framing full_ring 2000 (by decide) (by decide) (by decide)
    (by decide) (by decide)
  exact ⟨by decide, by decide, h.2.1, h.2.2.1, h.2.2.2.1, h.2.2.2.2.2.2.2.1 (by decide)⟩


/-! ## Persistence of the receiving state -/

theorem run_keeps_receiving : ∀ (ds : List Int) (s : VlcState),
    s.state = STATE_DATA → (∀ d ∈ ds, d ≤ 999999) →
    (run_irqs s ds).state = STATE_DATA ∧ (run_irqs s ds).pulse_len = s.pulse_len := by
  intro ds
  induction ds with
  | nil => intro s h _; exact ⟨h, rfl⟩
  | cons d ds ih =>
    intro s h hds
    obtain ⟨k1, k2, _⟩ := irq_keeps_receiving s d h (hds d (List.mem_cons_self _ _))
    obtain ⟨k3, k4⟩ := ih (vlc_irq_handler s d) k1 (fun x hx => hds x (List.mem_cons_of_mem _ hx))
    exact ⟨k3, k4.trans k2⟩

/-- C17. Once in `STATE_DATA`, the decoder stays in `STATE_DATA` with the same
`pulse_len` for every sequence of deltas that are all at most 999999, whatever
they are (glitch, bit, byte-completing or stop gap).  A delta above 999999 takes
it back to `STATE_SYNC` with `pulse_len = 0`, and so does a successful attach;
detaching and a write to the glitch-threshold endpoint leave `state` and
`pulse_len` as they are. -/
theorem receiving_persists (s : VlcState) (ds : List Int)
    (hst : s.state = STATE_DATA) (hds : ∀ d ∈ ds, d ≤ 999999) :
    (run_irqs s ds).state = STATE_DATA ∧
    (run_irqs s ds).pulse_len = s.pulse_len ∧
    (∀ d, 999999 < d →
      (vlc_irq_handler s d).state = STATE_SYNC ∧ (vlc_irq_handler s d).pulse_len = 0) ∧
    (∀ (env : GpioEnv) (pin : Nat), env.gpio_request pin = 0 →
      (hook_gpio_irq env s pin).2.1.state = STATE_SYNC ∧
      (hook_gpio_irq env s pin).2.1.pulse_len = 0) ∧
    ((unhook_gpio_irq s).1.state = STATE_DATA ∧
      (unhook_gpio_irq s).1.pulse_len = s.pulse_len) ∧
    (∀ (v : Int) (count : Nat),
      (delay_store s v count).2.state = STATE_DATA ∧
      (delay_store s v count).2.pulse_len = s.pulse_len) := by
  obtain ⟨k1, k2⟩ := run_keeps_receiving ds s hst hds
  refine ⟨k1, k2, ?_, ?_, ?_, ?_⟩
  · intro d hd
    simp [vlc_irq_handler, reset_state, hd]
  · intro env pin hreq
    simp [hook_gpio_irq, hreq, reset_state]
  · have h := unhook_same_decoder s
    exact ⟨h.1.trans hst, h.2.2.1⟩
  · intro v count
    unfold delay_store
    split_ifs
    · exact ⟨hst, rfl⟩
    · exact ⟨hst, rfl⟩

theorem receiving_persists_witness :
    mid_byte.state = STATE_DATA ∧
    (run_irqs mid_byte [0, 700, 2000, 40, 999999, 3, 1800, 500, 20, 900]).state = STATE_DATA ∧
    (run_irqs mid_byte [0, 700, 2000, 40, 999999, 3, 1800, 500, 20, 900]).pulse_len = 1500 := by
  have h := receiving_persists mid_byte [0, 700, 2000, 40, 999999, 3, 1800, 500, 20, 900]
    (by decide) (by decide)
  exact ⟨by decide, h.1, h.2.1⟩

/-! ## Hard resync discards the frame in progress -/

/-- C18. Two states with the same ring buffer and the same glitch threshold,
whatever their `state`, `pilot_count`, `pulse_len`, `data`, `data_bit` and
`stop_bit`, each process one delta above 999999.  Then, for every subsequent
sequence of deltas, both runs complete the same bytes in the same order and end
with the same `ring_head`, `ring_tail` and `ring_data` (so with the same unread
bytes): nothing of the abandoned frame shows in a later byte. -/
theorem resync_discards_frame_state (s t : VlcState) (d0 d0' : Int) (ds : List Int)
    (hring : same_ring s t) (hdelay : s.delay = t.delay)
    (h0 : 999999 < d0) (h0' : 999999 < d0') :
    completed_bytes (vlc_irq_handler s d0) ds = completed_bytes (vlc_irq_handler t d0') ds ∧
    same_ring (run_irqs (vlc_irq_handler s d0) ds) (run_irqs (vlc_irq_handler t d0') ds) ∧
    ring_contents (run_irqs (vlc_irq_handler s d0) ds)
      = ring_contents (run_irqs (vlc_irq_handler t d0') ds) := by
  have e : vlc_irq_handler s d0 =
      { s with ts_diff := d0, state := STATE_SYNC, pilot_count := 0, pulse_len := 0 } := by
    simp [vlc_irq_handler, reset_state, h0]
  have e' : vlc_irq_handler t d0' =
      { t with ts_diff := d0', state := STATE_SYNC, pilot_count := 0, pulse_len := 0 } := by
    simp [vlc_irq_handler, reset_state, h0']
  have hsd : STATE_SYNC ≠ STATE_DATA := by decide
  have heq : resync_equiv (vlc_irq_handler s d0) (vlc_irq_handler t d0') := by
    rw [e, e']
    exact ⟨hdelay, hring, rfl, rfl, rfl, fun hh => absurd hh hsd⟩
  obtain ⟨⟨_, hr, _⟩, hb⟩ := resync_equiv_run ds _ _ heq
  exact ⟨hb, hr, (ring_contents_congr _ _ hr.1 hr.2.1 hr.2.2).symm⟩

theorem resync_discards_frame_state_witness :
    same_ring mid_byte boot_state ∧ mid_byte.delay = boot_state.delay ∧
    mid_byte.data = 160 ∧ boot_state.data = 0 ∧
    completed_bytes (vlc_irq_handler mid_byte 1000000)
      [1000, 1000, 500, 500, 500, 500, 500, 500, 500, 2000] = [1] ∧
    completed_bytes (vlc_irq_handler boot_state 3000000)
      [1000, 1000, 500, 500, 500, 500, 500, 500, 500, 2000] = [1] := by
  have h := resync_discards_frame_state mid_byte boot_state 1000000 3000000
    [1000, 1000, 500, 500, 500, 500, 500, 500, 500, 2000]
    ⟨by decide, by decide, rfl⟩ (by decide) (by decide) (by decide)
  refine ⟨⟨by decide, by decide, rfl⟩, by decide, by decide, by decide, ?_, by decide⟩
  rw [h.1]
  decide

/-! ## Reachable states -/

/-- C19. From the state `gpiovlc_init` sets up, for every glitch threshold `g`
that is not negative (so for every `g` in `[0, 500000000)`) and every sequence of
deltas (so for every sequence of non-negative deltas), the state reached
satisfies: `state` is `STATE_SYNC` or `STATE_DATA`; in `STATE_SYNC` `pilot_count`
is 0 or 1; `data_bit` is in `0..7`; `data` is in `0..255` and, in `STATE_DATA`,
its bits at positions `0..data_bit` are clear; `pulse_len` is in `0..1999998`;
`ring_head` and `ring_tail` are below 64. -/
theorem reachable_invariant (g : Int) (ds : List Int) (hg : 0 ≤ g) :
    ((run_irqs (boot_with g) ds).state = STATE_SYNC ∨
      (run_irqs (boot_with g) ds).state = STATE_DATA) ∧
    ((run_irqs (boot_with g) ds).state = STATE_SYNC →
      (run_irqs (boot_with g) ds).pilot_count = 0 ∨
      (run_irqs (boot_with g) ds).pilot_count = 1) ∧
    (0 ≤ (run_irqs (boot_with g) ds).data_bit ∧ (run_irqs (boot_with g) ds).data_bit ≤ 7) ∧
    (0 ≤ (run_irqs (boot_with g) ds).data ∧ (run_irqs (boot_with g) ds).data ≤ 255) ∧
    ((run_irqs (boot_with g) ds).state = STATE_DATA →
      ∀ i, i ≤ (run_irqs (boot_with g) ds).data_bit.toNat →
        (run_irqs (boot_with g) ds).data.toNat.testBit i = false) ∧
    (0 ≤ (run_irqs (boot_with g) ds).pulse_len ∧
      (run_irqs (boot_with g) ds).pulse_len ≤ 1999998) ∧
    (run_irqs (boot_with g) ds).ring_head < 64 ∧
    (run_irqs (boot_with g) ds).ring_tail < 64 ∧
    (run_irqs (boot_with g) ds).delay = g := by
  obtain ⟨i1, i2, i3, i4, i5, i6, i7, i8, i9, _⟩ :=
    decoder_inv_run ds (boot_with g) (decoder_inv_boot g hg)
  have hdl : ∀ (l : List Int) (s : VlcState), (run_irqs s l).delay = s.delay := by
    intro l
    induction l with
    | nil => intro s; rfl
    | cons d l ih => intro s; rw [run_irqs_cons, ih, irq_delay]
  refine ⟨i1, ?_, ⟨i4, i5⟩, ⟨i6, i7⟩, ?_, ?_, i8, i9, (hdl ds _).trans rfl⟩
  · intro hs
    rcases i2 hs with ⟨h, _⟩ | ⟨h, _⟩
    · exact Or.inl h
    · exact Or.inr h
  · intro hs i hi
    obtain ⟨_, _, j3, _⟩ := i3 hs
    exact clear_low_bits _ _ i6 j3 i hi
  · rcases i1 with hs | hs
    · rcases i2 hs with ⟨_, h⟩ | ⟨_, h, h'⟩
      · rw [h]; decide
      · exact ⟨h, by omega⟩
    · obtain ⟨j1, j2, _, _⟩ := i3 hs
      exact ⟨j1, by omega⟩

theorem reachable_invariant_witness :
    (0 : Int) ≤ 100 ∧
    (run_irqs (boot_with 100) [1000, 50, 1000, 2000, 500, 2000000, 700]).data_bit ≤ 7 ∧
    (run_irqs (boot_with 100) [1000, 50, 1000, 2000, 500, 2000000, 700]).ring_head < 64 := by
  have h := reachable_invariant 100 [1000, 50, 1000, 2000, 500, 2000000, 700] (by decide)
  exact ⟨by decide, h.2.2.1.2, h.2.2.2.2.2.2.1⟩

end Gpiovlc

namespace St7066u

/-! ## Frame lemmas of the display driver -/

theorem keeps_refl (s : LcdState) : keeps s s := ⟨rfl, rfl, fun h => h⟩

theorem keeps_trans {s t u : LcdState} (h1 : keeps s t) (h2 : keeps t u) : keeps s u :=
  ⟨h2.1.trans h1.1, h2.2.1.trans h1.2.1, fun h => h2.2.2 (h1.2.2 h)⟩

theorem keeps_send_command (s : LcdState) (c : Nat) : keeps s (send_command s c) := by
  refine ⟨rfl, rfl, fun h => ?_⟩
  intro x hx
  rcases List.mem_append.1 hx with h1 | h1
  · exact h x h1
  · simp only [List.mem_singleton] at h1
    subst h1
    trivial

theorem keeps_send_character (s : LcdState) (c : Nat) : keeps s (send_character s c) := by
  refine ⟨rfl, rfl, fun h => ?_⟩
  intro x hx
  rcases List.mem_append.1 hx with h1 | h1
  · exact h x h1
  · simp only [List.mem_singleton] at h1
    subst h1
    trivial

theorem keeps_lcd_xy (s : LcdState) (x y : Int) : keeps s (lcd_xy s x y) :=
  keeps_send_command s _

theorem keeps_user_read (s : LcdState) (buf : List Nat) (i : Nat) :
    keeps s (user_read s buf i).2 := by
  refine ⟨rfl, rfl, fun h => ?_⟩
  intro x hx
  rcases List.mem_append.1 hx with h1 | h1
  · exact h x h1
  · simp only [List.mem_singleton] at h1
    subst h1
    trivial

theorem keeps_buffer_store (s : LcdState) (y x : Int) (c : Nat)
    (hy : 0 ≤ y ∧ y ≤ 3) (hx : 0 ≤ x ∧ x ≤ 19) : keeps s (buffer_store s y x c) := by
  refine ⟨rfl, rfl, fun h => ?_⟩
  intro e he
  rcases List.mem_append.1 he with h1 | h1
  · exact h e h1
  · simp only [List.mem_singleton] at h1
    subst h1
    exact ⟨hy.1, hy.2, hx.1, hx.2⟩

theorem keeps_foldl {α : Type} (f : LcdState → α → LcdState) :
    ∀ (l : List α) (s : LcdState), (∀ t a, a ∈ l → keeps t (f t a)) →
      keeps s (l.foldl f s) := by
  intro l
  induction l with
  | nil => intro s _; exact keeps_refl s
  | cons a l ih =>
    intro s h
    exact keeps_trans (h s a (List.mem_cons_self _ _))
      (ih (f s a) (fun t b hb => h t b (List.mem_cons_of_mem _ hb)))

theorem range_bounds (n : Nat) (a : Nat) (h : a ∈ List.range n) (m : Int) (hm : (n : Int) ≤ m + 1) :
    (0 : Int) ≤ (a : Int) ∧ (a : Int) ≤ m := by
  rw [List.mem_range] at h
  omega

theorem keeps_clear_buffer (s : LcdState) : keeps s (clear_buffer s) := by
  unfold clear_buffer
  apply keeps_foldl
  intro t b_y hy
  apply keeps_foldl
  intro u b_x hx
  exact keeps_buffer_store u _ _ _ (range_bounds 4 b_y hy 3 (by decide))
    (range_bounds 20 b_x hx 19 (by decide))

theorem keeps_print_buffer (s : LcdState) : keeps s (print_buffer s) := by
  unfold print_buffer
  apply keeps_foldl
  intro t b_y _
  exact keeps_trans (keeps_lcd_xy t 0 b_y)
    (keeps_foldl _ _ _ (fun u b_x _ => keeps_send_character u _))

theorem keeps_scroll_up (s : LcdState) : keeps s (scroll_up s) := by
  unfold scroll_up
  refine keeps_trans (keeps_foldl _ _ _ ?_) (keeps_foldl _ _ _ ?_)
  · intro t b_y hy
    apply keeps_foldl
    intro u b_x hx
    exact keeps_buffer_store u _ _ _ (range_bounds 3 b_y hy 3 (by decide))
      (range_bounds 20 b_x hx 19 (by decide))
  · intro u b_x hx
    exact keeps_buffer_store u _ _ _ (by decide) (range_bounds 20 b_x hx 19 (by decide))

theorem buffer_foldl {α : Type} (f : LcdState → α → LcdState) :
    ∀ (l : List α) (s : LcdState), (∀ t a, a ∈ l → (f t a).lcd_buffer = t.lcd_buffer) →
      (l.foldl f s).lcd_buffer = s.lcd_buffer := by
  intro l
  induction l with
  | nil => intro s _; rfl
  | cons a l ih =>
    intro s h
    exact (ih (f s a) (fun t b hb => h t b (List.mem_cons_of_mem _ hb))).trans
      (h s a (List.mem_cons_self _ _))

theorem print_buffer_buffer (s : LcdState) : (print_buffer s).lcd_buffer = s.lcd_buffer := by
  unfold print_buffer
  apply buffer_foldl
  intro t b_y _
  have h := buffer_foldl
    (fun s (b_x : Nat) => send_character s (s.lcd_buffer (b_y : Int) (b_x : Int)))
    (List.range 20) (lcd_xy t 0 (b_y : Int)) (fun u b_x _ => rfl)
  exact h

theorem buffer_store_buffer (s : LcdState) (y x : Int) (c : Nat) :
    (buffer_store s y x c).lcd_buffer
      = fun y' x' => if y' = y ∧ x' = x then c else s.lcd_buffer y' x' := rfl

/-- The copy of one row: the first `n` cells of row `b_y` take the cells below. -/
theorem copy_row_buffer (b_y : Nat) : ∀ (n : Nat) (s : LcdState),
    ((List.range n).foldl
      (fun s (b_x : Nat) =>
        buffer_store s (b_y : Int) (b_x : Int) (s.lcd_buffer ((b_y : Int) + 1) (b_x : Int)))
      s).lcd_buffer
    = fun y x => if y = (b_y : Int) ∧ 0 ≤ x ∧ x < (n : Int)
        then s.lcd_buffer ((b_y : Int) + 1) x else s.lcd_buffer y x := by
  intro n
  induction n with
  | zero =>
    intro s
    funext y x
    have : ¬ (y = (b_y : Int) ∧ 0 ≤ x ∧ x < ((0 : Nat) : Int)) := by omega
    simp only [List.range_zero, List.foldl_nil, this, if_false]
  | succ n ih =>
    intro s
    funext y x
    rw [show List.range (n + 1) = List.range n ++ [n] from List.range_succ n, List.foldl_append]
    simp only [List.foldl_cons, List.foldl_nil]
    rw [buffer_store_buffer, ih]
    beta_reduce
    have hne : ¬ ((b_y : Int) + 1 = (b_y : Int) ∧ (0 : Int) ≤ (n : Int) ∧ (n : Int) < (n : Int)) := by
      omega
    rw [if_neg hne]
    by_cases h1 : y = (b_y : Int) ∧ x = (n : Int)
    · have h2 : y = (b_y : Int) ∧ 0 ≤ x ∧ x < ((n + 1 : Nat) : Int) :=
        ⟨h1.1, by omega, by omega⟩
      rw [if_pos h1, if_pos h2, h1.2]
    · rw [if_neg h1]
      by_cases h3 : y = (b_y : Int) ∧ 0 ≤ x ∧ x < (n : Int)
      · have h4 : y = (b_y : Int) ∧ 0 ≤ x ∧ x < ((n + 1 : Nat) : Int) :=
          ⟨h3.1, h3.2.1, by omega⟩
        rw [if_pos h3, if_pos h4]
      · have h4 : ¬ (y = (b_y : Int) ∧ 0 ≤ x ∧ x < ((n + 1 : Nat) : Int)) := by
          intro hh
          apply h3
          refine ⟨hh.1, hh.2.1, ?_⟩
          have : x ≠ (n : Int) := fun hx => h1 ⟨hh.1, hx⟩
          omega
        rw [if_neg h3, if_neg h4]

/-- The fill of one row: its first `n` cells take the byte `c`. -/
theorem fill_row_buffer (y0 : Int) (c : Nat) : ∀ (n : Nat) (s : LcdState),
    ((List.range n).foldl (fun s (b_x : Nat) => buffer_store s y0 (b_x : Int) c) s).lcd_buffer
    = fun y x => if y = y0 ∧ 0 ≤ x ∧ x < (n : Int) then c else s.lcd_buffer y x := by
  intro n
  induction n with
  | zero =>
    intro s
    funext y x
    have : ¬ (y = y0 ∧ 0 ≤ x ∧ x < ((0 : Nat) : Int)) := by omega
    simp only [List.range_zero, List.foldl_nil, this, if_false]
  | succ n ih =>
    intro s
    funext y x
    rw [show List.range (n + 1) = List.range n ++ [n] from List.range_succ n, List.foldl_append]
    simp only [List.foldl_cons, List.foldl_nil]
    rw [buffer_store_buffer, ih]
    beta_reduce
    by_cases h1 : y = y0 ∧ x = (n : Int)
    · have h2 : y = y0 ∧ 0 ≤ x ∧ x < ((n + 1 : Nat) : Int) := ⟨h1.1, by omega, by omega⟩
      rw [if_pos h1, if_pos h2]
    · rw [if_neg h1]
      by_cases h3 : y = y0 ∧ 0 ≤ x ∧ x < (n : Int)
      · have h4 : y = y0 ∧ 0 ≤ x ∧ x < ((n + 1 : Nat) : Int) := ⟨h3.1, h3.2.1, by omega⟩
        rw [if_pos h3, if_pos h4]
      · have h4 : ¬ (y = y0 ∧ 0 ≤ x ∧ x < ((n + 1 : Nat) : Int)) := by
          intro hh
          apply h3
          refine ⟨hh.1, hh.2.1, ?_⟩
          have : x ≠ (n : Int) := fun hx => h1 ⟨hh.1, hx⟩
          omega
        rw [if_neg h3, if_neg h4]

/-- The copy of the first `m` rows: each takes the row below. -/
theorem copy_rows_buffer : ∀ (m : Nat) (s : LcdState),
    ((List.range m).foldl
      (fun s (b_y : Nat) =>
        (List.range 20).foldl
          (fun s (b_x : Nat) =>
            buffer_store s (b_y : Int) (b_x : Int) (s.lcd_buffer ((b_y : Int) + 1) (b_x : Int)))
          s) s).lcd_buffer
    = fun y x => if 0 ≤ y ∧ y < (m : Int) ∧ 0 ≤ x ∧ x < 20
        then s.lcd_buffer (y + 1) x else s.lcd_buffer y x := by
  intro m
  induction m with
  | zero =>
    intro s
    funext y x
    have : ¬ (0 ≤ y ∧ y < ((0 : Nat) : Int) ∧ 0 ≤ x ∧ x < 20) := by omega
    simp only [List.range_zero, List.foldl_nil, this, if_false]
  | succ m ih =>
    intro s
    funext y x
    rw [show List.range (m + 1) = List.range m ++ [m] from List.range_succ m, List.foldl_append]
    simp only [List.foldl_cons, List.foldl_nil]
    rw [copy_row_buffer m 20, ih]
    beta_reduce
    have hne : ¬ ((0 : Int) ≤ (m : Int) + 1 ∧ (m : Int) + 1 < (m : Int) ∧ 0 ≤ x ∧ x < 20) := by
      omega
    rw [if_neg hne]
    by_cases h1 : y = (m : Int) ∧ 0 ≤ x ∧ x < ((20 : Nat) : Int)
    · have h2 : 0 ≤ y ∧ y < ((m + 1 : Nat) : Int) ∧ 0 ≤ x ∧ x < 20 :=
        ⟨by omega, by omega, h1.2.1, by omega⟩
      rw [if_pos h1, if_pos h2, h1.1]
    · rw [if_neg h1]
      by_cases h3 : 0 ≤ y ∧ y < (m : Int) ∧ 0 ≤ x ∧ x < 20
      · have h4 : 0 ≤ y ∧ y < ((m + 1 : Nat) : Int) ∧ 0 ≤ x ∧ x < 20 :=
          ⟨h3.1, by omega, h3.2.2.1, h3.2.2.2⟩
        rw [if_pos h3, if_pos h4]
      · have h4 : ¬ (0 ≤ y ∧ y < ((m + 1 : Nat) : Int) ∧ 0 ≤ x ∧ x < 20) := by
          intro hh
          apply h3
          refine ⟨hh.1, ?_, hh.2.2.1, hh.2.2.2⟩
          have : y ≠ (m : Int) := fun hy => h1 ⟨hy, hh.2.2.1, by omega⟩
          omega
        rw [if_neg h3, if_neg h4]

/-- The buffer after the scrolling: rows 0..2 hold the former rows 1..3, row 3
holds spaces, anything else is untouched. -/
theorem scroll_up_buffer (s : LcdState) :
    (scroll_up s).lcd_buffer
    = fun y x => if y = 3 ∧ 0 ≤ x ∧ x < 20 then 32
        else if 0 ≤ y ∧ y < 3 ∧ 0 ≤ x ∧ x < 20 then s.lcd_buffer (y + 1) x
        else s.lcd_buffer y x := by
  unfold scroll_up
  simp only []
  rw [fill_row_buffer, copy_rows_buffer]
  rfl

/-! ## The cursor invariant -/

theorem keeps_inv {s s' : LcdState} (h : keeps s s') (hc : cursor_ok s) (hs : stores_ok s) :
    cursor_ok s' ∧ stores_ok s' := by
  obtain ⟨h1, h2, h3⟩ := h
  unfold cursor_ok at *
  rw [h1, h2]
  exact ⟨hc, h3 hs⟩

theorem keeps_log (s : LcdState) (e : LcdEvent) (he : event_ok e) :
    keeps s { s with log := s.log ++ [e] } := by
  refine ⟨rfl, rfl, fun h => ?_⟩
  intro x hx
  rcases List.mem_append.1 hx with h1 | h1
  · exact h x h1
  · simp only [List.mem_singleton] at h1
    subst h1
    exact he

theorem lcd_xy_buffer (s : LcdState) (x y : Int) : (lcd_xy s x y).lcd_buffer = s.lcd_buffer :=
  rfl

theorem keeps_dsp_cmd_draw_mode (s : LcdState) (buf : List Nat) (arg : Nat) :
    keeps s (dsp_cmd_draw_mode s buf arg) := by
  have k := keeps_user_read s buf arg
  exact ⟨k.1, k.2.1, fun h => k.2.2 h⟩

/-- The cursor and the buffer after `new_line`, for a cursor row in `0..3`. -/
theorem new_line_spec (s : LcdState) (hy0 : 0 ≤ s.cursor_y) (hy3 : s.cursor_y ≤ 3) :
    (new_line s).cursor_x = 0 ∧
    0 ≤ (new_line s).cursor_y ∧ (new_line s).cursor_y ≤ 3 ∧
    (stores_ok s → stores_ok (new_line s)) ∧
    (s.cursor_y = 3 →
      (new_line s).cursor_y = 3 ∧
      (new_line s).lcd_buffer = (scroll_up s).lcd_buffer) := by
  have hw : Gpiovlc.wrap_int (s.cursor_y + 1) = s.cursor_y + 1 :=
    Gpiovlc.wrap_int_of_range _ (by omega) (by omega)
  by_cases h3 : s.cursor_y = 3
  · have e : new_line s
        = lcd_xy (print_buffer (scroll_up { s with cursor_x := 0, cursor_y := LCD_HEIGHT - 1 }))
            (print_buffer (scroll_up { s with cursor_x := 0, cursor_y := LCD_HEIGHT - 1 })).cursor_x
            (print_buffer (scroll_up { s with cursor_x := 0, cursor_y := LCD_HEIGHT - 1 })).cursor_y := by
      have hw4 : Gpiovlc.wrap_int 4 = 4 := Gpiovlc.wrap_int_of_range 4 (by decide) (by decide)
      simp [new_line, h3, hw4, LCD_HEIGHT]
    have k : keeps { s with cursor_x := 0, cursor_y := LCD_HEIGHT - 1 } (new_line s) := by
      rw [e]
      exact keeps_trans (keeps_trans (keeps_scroll_up _) (keeps_print_buffer _))
        (keeps_lcd_xy _ _ _)
    have hb : (new_line s).lcd_buffer = (scroll_up s).lcd_buffer := by
      have h1 := print_buffer_buffer (scroll_up { s with cursor_x := 0, cursor_y := LCD_HEIGHT - 1 })
      have h2 := scroll_up_buffer { s with cursor_x := 0, cursor_y := LCD_HEIGHT - 1 }
      have h3' := scroll_up_buffer s
      rw [e, lcd_xy_buffer]
      exact (h1.trans h2).trans h3'.symm
    obtain ⟨k1, k2, k3⟩ := k
    have k2' : (new_line s).cursor_y = 3 := k2
    refine ⟨k1, by omega, by omega, fun h => k3 h, fun _ => ⟨k2', hb⟩⟩
  · have e : new_line s
        = lcd_xy { s with cursor_x := 0, cursor_y := s.cursor_y + 1 } 0 (s.cursor_y + 1) := by
      have hlt : ¬ (s.cursor_y + 1 > LCD_HEIGHT - 1) := by
        simp only [LCD_HEIGHT]; omega
      simp [new_line, hw, hlt]
    have k : keeps { s with cursor_x := 0, cursor_y := s.cursor_y + 1 } (new_line s) := by
      rw [e]
      exact keeps_lcd_xy _ _ _
    obtain ⟨k1, k2, k3⟩ := k
    have k2' : (new_line s).cursor_y = s.cursor_y + 1 := k2
    refine ⟨k1, by omega, by omega, fun h => k3 h, fun h => absurd h h3⟩

theorem clear_screen_inv (s : LcdState) (hs : stores_ok s) :
    cursor_ok (clear_screen s) ∧ stores_ok (clear_screen s) := by
  have k := keeps_trans (keeps_clear_buffer s) (keeps_send_command (clear_buffer s) CMD_CLEAR_DISPLAY)
  have z1 : (0 : Int) ≤ 20 := by decide
  have z2 : (0 : Int) ≤ 3 := by decide
  exact ⟨⟨le_refl 0, z1, le_refl 0, z2⟩, k.2.2 hs⟩

theorem keeps_dsp_cmd_define_char (s : LcdState) (buf : List Nat) (arg : Nat) :
    keeps s (dsp_cmd_define_char s buf arg) := by
  unfold dsp_cmd_define_char
  refine keeps_trans (keeps_trans (keeps_trans (keeps_user_read s buf arg)
    (keeps_send_command _ _)) (keeps_foldl _ _ _ ?_)) (keeps_send_command _ _)
  intro t i _
  exact keeps_trans (keeps_user_read t buf _) (keeps_send_character _ _)

/-- Every command handler keeps the cursor in its range and the stores inside the
buffer. -/
theorem run_handler_inv (entry : Nat) (s : LcdState) (buf : List Nat) (arg : Nat)
    (hc : cursor_ok s) (hs : stores_ok s) :
    cursor_ok (run_handler entry s buf arg) ∧ stores_ok (run_handler entry s buf arg) := by
  have k0 : keeps s { s with log := s.log ++ [LcdEvent.invoke entry arg] } :=
    keeps_log s _ trivial
  obtain ⟨hc0, hs0⟩ := keeps_inv k0 hc hs
  unfold run_handler
  simp only []
  split
  · exact clear_screen_inv _ hs0
  · exact keeps_inv (keeps_trans (keeps_trans (keeps_user_read _ buf arg)
      (keeps_user_read _ buf (arg + 1))) (keeps_send_command _ _)) hc0 hs0
  · exact keeps_inv (keeps_trans (keeps_trans (keeps_user_read _ buf arg)
      (keeps_user_read _ buf (arg + 1))) (keeps_lcd_xy _ _ _)) hc0 hs0
  · exact keeps_inv (keeps_dsp_cmd_draw_mode _ buf arg) hc0 hs0
  · exact keeps_inv (keeps_dsp_cmd_define_char _ buf arg) hc0 hs0
  · obtain ⟨n1, n2, n3, n4, _⟩ := new_line_spec _ hc0.2.2.1 hc0.2.2.2
    exact ⟨⟨by rw [n1], by rw [n1]; decide, n2, n3⟩, n4 hs0⟩
  · exact ⟨hc0, hs0⟩

/-- The loop of `lcd_write` ends when it may run `len` times; it keeps the cursor
in its range and the stores inside the buffer. -/
theorem lcd_write_loop_inv : ∀ (fuel : Nat) (buf : List Nat) (pos len : Nat) (s : LcdState),
    len ≤ fuel → cursor_ok s → stores_ok s →
    ∃ f s', lcd_write_loop fuel buf pos len s = some (f, s') ∧ cursor_ok s' ∧ stores_ok s' := by
  intro fuel
  induction fuel with
  | zero =>
    intro buf pos len s hl hc hs
    have : len = 0 := by omega
    subst this
    exact ⟨false, s, by simp [lcd_write_loop], hc, hs⟩
  | succ fuel ih =>
    intro buf pos len s hl hc hs
    by_cases h0 : len = 0
    · subst h0
      exact ⟨false, s, by simp [lcd_write_loop], hc, hs⟩
    · obtain ⟨hc1, hs1⟩ := keeps_inv (keeps_user_read s buf pos) hc hs
      have hstep : ∃ s2, s2 = (if (user_read s buf pos).2.cursor_x > LCD_WIDTH - 1
            then new_line (user_read s buf pos).2 else (user_read s buf pos).2) ∧
          cursor_ok s2 ∧ stores_ok s2 ∧ s2.cursor_x ≤ 19 := by
        refine ⟨_, rfl, ?_⟩
        split_ifs with hgt
        · obtain ⟨n1, n2, n3, n4, _⟩ := new_line_spec _ hc1.2.2.1 hc1.2.2.2
          exact ⟨⟨by rw [n1], by rw [n1]; decide, n2, n3⟩, n4 hs1, by rw [n1]; decide⟩
        · refine ⟨hc1, hs1, ?_⟩
          simp only [LCD_WIDTH] at hgt
          omega
      obtain ⟨s2, hs2, hc2, hst2, hx2⟩ := hstep
      by_cases hp : (user_read s buf pos).1 > 31 ∨ (user_read s buf pos).1 < 8
      · have hw : Gpiovlc.wrap_int (s2.cursor_x + 1) = s2.cursor_x + 1 :=
          Gpiovlc.wrap_int_of_range _ (by have := hc2.1; omega) (by omega)
        have k := keeps_trans
          (keeps_buffer_store s2 s2.cursor_y s2.cursor_x (user_read s buf pos).1
            ⟨hc2.2.2.1, hc2.2.2.2⟩ ⟨hc2.1, hx2⟩)
          (keeps_send_character _ (user_read s buf pos).1)
        obtain ⟨k1, k2, k3⟩ := k
        have hc3 : cursor_ok
            { send_character (buffer_store s2 s2.cursor_y s2.cursor_x (user_read s buf pos).1)
                (user_read s buf pos).1 with
              cursor_x := Gpiovlc.wrap_int (s2.cursor_x + 1) } := by
          refine ⟨?_, ?_, ?_, ?_⟩
          · show 0 ≤ Gpiovlc.wrap_int (s2.cursor_x + 1)
            rw [hw]; have := hc2.1; omega
          · show Gpiovlc.wrap_int (s2.cursor_x + 1) ≤ 20
            rw [hw]; omega
          · exact hc2.2.2.1
          · exact hc2.2.2.2
        obtain ⟨f, s', e, r1, r2⟩ := ih buf (pos + 1) (len - 1) _ (by omega) hc3 (k3 hst2)
        refine ⟨f, s', ?_, r1, r2⟩
        rw [← e]
        simp only [lcd_write_loop, h0, if_false, hp, if_true, ← hs2]
        rfl
      · cases hf : find_command (user_read s buf pos).1 dsp_commands 0 with
        | none =>
          obtain ⟨f, s', e, r1, r2⟩ := ih buf (pos + 1) (len - 1) s2 (by omega) hc2 hst2
          refine ⟨f, s', ?_, r1, r2⟩
          rw [← e]
          simp only [lcd_write_loop, h0, if_false, hp, hf, ← hs2]
        | some p =>
          obtain ⟨i, params⟩ := p
          by_cases hpar : params > len - 1
          · refine ⟨true, s2, ?_, hc2, hst2⟩
            simp only [lcd_write_loop, h0, if_false, hp, hf, ← hs2, hpar, if_true]
          · obtain ⟨hc3, hs3⟩ := run_handler_inv i s2 buf (pos + 1) hc2 hst2
            obtain ⟨f, s', e, r1, r2⟩ :=
              ih buf (pos + params + 1) (len - 1 - params) _ (by omega) hc3 hs3
            refine ⟨f, s', ?_, r1, r2⟩
            rw [← e]
            simp only [lcd_write_loop, h0, if_false, hp, hf, ← hs2, hpar]

/-- C20. Cursor invariant of the display driver.  From a state with
`0 <= cursor_x <= 20` and `0 <= cursor_y <= 3` (nothing recorded yet), for every
byte sequence, `lcd_write` returns, every store into `lcd_buffer` it makes, the
store `lcd_buffer[cursor_y][cursor_x]` of the loop and the stores of
`clear_buffer` and `new_line` alike, has its row in `0..3` and its column in
`0..19`, and the state after the call again has `0 <= cursor_x <= 20` and
`0 <= cursor_y <= 3`.  When `new_line` is taken on the bottom row
(`cursor_y = 3`), the cursor becomes `(0, 3)`, rows 0..2 hold the former rows
1..3 and row 3 holds spaces. -/
theorem lcd_write_cursor_invariant (s : LcdState) (buf : List Nat) (interrupted : Bool)
    (hx0 : 0 ≤ s.cursor_x) (hx1 : s.cursor_x ≤ 20)
    (hy0 : 0 ≤ s.cursor_y) (hy1 : s.cursor_y ≤ 3) (hlog : s.log = []) :
    (∃ r s', lcd_write s buf interrupted = some (r, s') ∧
      0 ≤ s'.cursor_x ∧ s'.cursor_x ≤ 20 ∧ 0 ≤ s'.cursor_y ∧ s'.cursor_y ≤ 3 ∧
      ∀ y x c, LcdEvent.store y x c ∈ s'.log → 0 ≤ y ∧ y ≤ 3 ∧ 0 ≤ x ∧ x ≤ 19) ∧
    (s.cursor_y = 3 →
      (new_line s).cursor_x = 0 ∧ (new_line s).cursor_y = 3 ∧
      ∀ x, 0 ≤ x → x ≤ 19 →
        (new_line s).lcd_buffer 3 x = 32 ∧
        ∀ y, 0 ≤ y → y ≤ 2 → (new_line s).lcd_buffer y x = s.lcd_buffer (y + 1) x) := by
  have hc : cursor_ok s := ⟨hx0, hx1, hy0, hy1⟩
  have hs : stores_ok s := by
    intro e he
    rw [hlog] at he
    simp at he
  constructor
  · cases interrupted with
    | true =>
      refine ⟨-ERESTARTSYS, s, by simp [lcd_write], hx0, hx1, hy0, hy1, ?_⟩
      intro y x c hm
      exact hs _ hm
    | false =>
      have h1 : cursor_ok (if s.draw_mode_reset then clear_screen s else s) ∧
          stores_ok (if s.draw_mode_reset then clear_screen s else s) := by
        split_ifs
        · exact clear_screen_inv s hs
        · exact ⟨hc, hs⟩
      obtain ⟨f, s', e, r1, r2⟩ :=
        lcd_write_loop_inv buf.length buf 0 buf.length _ (le_refl _) h1.1 h1.2
      refine ⟨if f then -EFAULT else (buf.length : Int), s', ?_, r1.1, r1.2.1, r1.2.2.1,
        r1.2.2.2, ?_⟩
      · simp [lcd_write, e]
      · intro y x c hm
        exact r2 _ hm
  · intro h3
    obtain ⟨n1, _, _, _, n5⟩ := new_line_spec s hy0 hy1
    obtain ⟨n6, n7⟩ := n5 h3
    refine ⟨n1, n6, ?_⟩
    intro x hx0' hx1'
    rw [n7, scroll_up_buffer]
    constructor
    · have : (3 : Int) = 3 ∧ 0 ≤ x ∧ x < 20 := ⟨rfl, hx0', by omega⟩
      beta_reduce
      rw [if_pos this]
    · intro y hy0' hy1'
      have ha : ¬ (y = 3 ∧ 0 ≤ x ∧ x < 20) := by omega
      have hb : 0 ≤ y ∧ y < 3 ∧ 0 ≤ x ∧ x < 20 := ⟨hy0', by omega, hx0', by omega⟩
      beta_reduce
      rw [if_neg ha, if_pos hb]

theorem lcd_write_cursor_invariant_witness :
    bottom_right.cursor_x ≤ 20 ∧ bottom_right.cursor_y = 3 ∧ bottom_right.lcd_buffer 1 5 = 66 ∧
    (new_line bottom_right).cursor_x = 0 ∧
    (new_line bottom_right).lcd_buffer 0 5 = 66 ∧
    (new_line bottom_right).lcd_buffer 3 5 = 32 ∧
    (∃ r s', lcd_write bottom_right [72, 105, 10, 33] false = some (r, s') ∧
      s'.cursor_x ≤ 20 ∧ s'.cursor_y ≤ 3) := by
  have h := lcd_write_cursor_invariant bottom_right [72, 105, 10, 33] false
    (by decide) (by decide) (by decide) (by decide) rfl
  obtain ⟨⟨r, s', e, _, c2, _, c4, _⟩, h2⟩ := h
  obtain ⟨k1, _, k3⟩ := h2 (by decide)
  obtain ⟨k4, k5⟩ := k3 5 (by decide) (by decide)
  refine ⟨by decide, by decide, by decide, k1, ?_, k4, r, s', e, c2, c4⟩
  rw [k5 0 (by decide) (by decide)]
  decide

/-! ## Command framing of `lcd_write` -/

theorem frame_tokens_skip : ∀ (p : Nat) (rest : List Nat) (pos : Nat), p ≤ rest.length →
    frame_tokens rest pos p = frame_tokens (rest.drop p) (pos + p) 0 := by
  intro p
  induction p with
  | zero => intro rest pos _; simp
  | succ p ih =>
    intro rest pos h
    cases rest with
    | nil => simp at h
    | cons c r =>
      have h' : p ≤ r.length := by simpa using h
      simp only [frame_tokens, List.drop_succ_cons]
      rw [ih r (pos + 1) h']
      congr 1
      omega

theorem find_command_get : ∀ (l : List (Nat × Nat)) (c k i p : Nat),
    find_command c l k = some (i, p) → ∃ j, i = k + j ∧ l.get? j = some (c, p) := by
  intro l
  induction l with
  | nil => intro c k i p h; simp [find_command] at h
  | cons a l ih =>
    intro c k i p h
    obtain ⟨cmd, params⟩ := a
    simp only [find_command] at h
    by_cases hc : cmd = c
    · rw [if_pos hc] at h
      simp only [Option.some.injEq, Prod.mk.injEq] at h
      exact ⟨0, by omega, by simp [hc, h.2]⟩
    · rw [if_neg hc] at h
      obtain ⟨j, hj, hg⟩ := ih c (k + 1) i p h
      exact ⟨j + 1, by omega, by simpa using hg⟩

theorem find_command_table (c i p : Nat) (h : find_command c dsp_commands 0 = some (i, p)) :
    dsp_commands.get? i = some (c, p) := by
  obtain ⟨j, hj, hg⟩ := find_command_get dsp_commands c 0 i p h
  have : i = j := by omega
  rw [this]
  exact hg

theorem table_cases (c i p : Nat) (h : dsp_commands.get? i = some (c, p)) :
    (i = 0 ∧ p = 0) ∨ (i = 1 ∧ p = 2) ∨ (i = 2 ∧ p = 2) ∨ (i = 3 ∧ p = 1) ∨
      (i = 4 ∧ p = 9) ∨ (i = 5 ∧ p = 0) := by
  have hi : i < 6 := by
    by_contra hn
    have : dsp_commands.get? i = none := List.get?_eq_none.mpr (by simp [dsp_commands]; omega)
    rw [this] at h
    exact Option.noConfusion h
  interval_cases i <;> simp [dsp_commands] at h <;> omega

theorem param_getD (buf : List Nat) (arg p j : Nat) (hj : j < p) :
    (List.replicate arg 0 ++ (buf.drop arg).take p).getD (arg + j) 0 = buf.getD (arg + j) 0 := by
  rw [List.getD_append_right _ _ _ _ (by simp)]
  simp only [List.length_replicate, Nat.add_sub_cancel_left]
  simp only [List.getD_eq_getElem?_getD, List.getElem?_take, if_pos hj, List.getElem?_drop]

theorem run_handler_congr (c i p : Nat) (ht : dsp_commands.get? i = some (c, p))
    (s : LcdState) (buf buf' : List Nat) (arg : Nat)
    (hb : ∀ j, j < p → buf.getD (arg + j) 0 = buf'.getD (arg + j) 0) :
    run_handler i s buf arg = run_handler i s buf' arg := by
  rcases table_cases c i p ht with h | h | h | h | h | h <;> obtain ⟨hi, hp⟩ := h <;> subst hi <;>
    subst hp
  · rfl
  · have h0 := hb 0 (by decide)
    have h1 := hb 1 (by decide)
    simp only [Nat.add_zero] at h0
    simp only [run_handler, dsp_cmd_cursor, user_read, h0, h1]
  · have h0 := hb 0 (by decide)
    have h1 := hb 1 (by decide)
    simp only [Nat.add_zero] at h0
    simp only [run_handler, dsp_cmd_setxy, user_read, h0, h1]
  · have h0 := hb 0 (by decide)
    simp only [Nat.add_zero] at h0
    simp only [run_handler, dsp_cmd_draw_mode, user_read, h0]
  · have h0 := hb 0 (by decide)
    simp only [Nat.add_zero] at h0
    have hf : ∀ (l : List Nat) (t : LcdState), (∀ k ∈ l, k < 8) →
        l.foldl (fun s i => send_character (user_read s buf (arg + (i + 1))).2
          (user_read s buf (arg + (i + 1))).1) t =
        l.foldl (fun s i => send_character (user_read s buf' (arg + (i + 1))).2
          (user_read s buf' (arg + (i + 1))).1) t := by
      intro l
      induction l with
      | nil => intro t _; rfl
      | cons a l ih =>
        intro t hl
        have ha : a < 8 := hl a (List.mem_cons_self a l)
        simp only [List.foldl_cons]
        rw [ih _ (fun k hk => hl k (List.mem_cons_of_mem a hk))]
        simp only [user_read, hb (a + 1) (by omega)]
    simp only [run_handler, dsp_cmd_define_char]
    rw [hf (List.range 8) _ (fun k hk => List.mem_range.mp hk)]
    simp only [user_read, h0]
  · rfl

theorem lcd_write_loop_tokens : ∀ (fuel : Nat) (buf : List Nat) (pos len : Nat) (s : LcdState),
    pos + len = buf.length → len ≤ fuel →
    lcd_write_loop fuel buf pos len s =
      some ((frame_tokens (buf.drop pos) pos 0).any is_truncated,
        (frame_tokens (buf.drop pos) pos 0).foldl exec_token s) := by
  intro fuel
  induction fuel with
  | zero =>
    intro buf pos len s h1 h2
    have hl : len = 0 := by omega
    subst hl
    rw [List.drop_eq_nil_of_le (by omega)]
    simp [lcd_write_loop, frame_tokens]
  | succ fuel ih =>
    intro buf pos len s h1 h2
    by_cases hl : len = 0
    · subst hl
      rw [List.drop_eq_nil_of_le (by omega)]
      simp [lcd_write_loop, frame_tokens]
    · have hpos : pos < buf.length := by omega
      have hd : buf.drop pos = buf.getD pos 0 :: buf.drop (pos + 1) := by
        rw [List.getD_eq_getElem _ _ hpos]
        exact List.drop_eq_getElem_cons hpos
      have hrest : (buf.drop (pos + 1)).length = len - 1 := by
        rw [List.length_drop]
        omega
      rw [hd]
      unfold lcd_write_loop
      rw [if_neg hl]
      have hfetch : (if (user_read s buf pos).2.cursor_x > LCD_WIDTH - 1
          then new_line (user_read s buf pos).2 else (user_read s buf pos).2) = fetch s pos := rfl
      have hc1 : (user_read s buf pos).1 = buf.getD pos 0 := rfl
      simp only [hfetch, hc1]
      generalize buf.getD pos 0 = c
      by_cases hc : c > 31 ∨ c < 8
      · rw [if_pos hc]
        simp only [frame_tokens, if_pos hc, List.any_cons, List.foldl_cons, is_truncated,
          Bool.false_or]
        rw [ih buf (pos + 1) (len - 1) _ (by omega) (by omega)]
        rfl
      · rw [if_neg hc]
        cases hf : find_command c dsp_commands 0 with
        | none =>
          simp only [frame_tokens, if_neg hc, hf, List.any_cons, List.foldl_cons, is_truncated,
            Bool.false_or]
          rw [ih buf (pos + 1) (len - 1) _ (by omega) (by omega)]
          rfl
        | some ip =>
          obtain ⟨i, p⟩ := ip
          have ht := find_command_table c i p hf
          by_cases hp : p > len - 1
          · have hp' : (buf.drop (pos + 1)).length < p := by omega
            simp only [frame_tokens, if_neg hc, hf, if_pos hp, if_pos hp', List.any_cons,
              List.foldl_cons, is_truncated, Bool.true_or, List.foldl_nil, exec_token]
          · have hp' : ¬ (buf.drop (pos + 1)).length < p := by omega
            simp only [frame_tokens, if_neg hc, hf, if_neg hp, if_neg hp', List.any_cons,
              List.foldl_cons, is_truncated, Bool.false_or]
            rw [ih buf (pos + p + 1) (len - 1 - p) _ (by omega) (by omega)]
            rw [frame_tokens_skip p (buf.drop (pos + 1)) (pos + 1) (by omega)]
            rw [List.drop_drop]
            have e2 : pos + 1 + p = pos + p + 1 := by omega
            rw [e2]
            have hh : run_handler i (fetch s pos) buf (pos + 1) =
                exec_token s (Token.call pos i ((buf.drop (pos + 1)).take p)) := by
              simp only [exec_token]
              exact run_handler_congr c i p ht _ _ _ _
                (fun j hj => (param_getD buf (pos + 1) p j hj).symm)
            rw [hh]

theorem framing_append_other (l : List LcdEvent) (e : LcdEvent) (h : is_framing e = false) :
    framing_of (l ++ [e]) = framing_of l := by
  simp [framing_of, List.filter_append, h]

theorem framing_append_framing (l : List LcdEvent) (e : LcdEvent) (h : is_framing e = true) :
    framing_of (l ++ [e]) = framing_of l ++ [e] := by
  simp [framing_of, List.filter_append, h]

theorem framing_send_command (s : LcdState) (c : Nat) :
    framing_of (send_command s c).log = framing_of s.log :=
  framing_append_other _ _ rfl

theorem framing_send_character (s : LcdState) (c : Nat) :
    framing_of (send_character s c).log = framing_of s.log :=
  framing_append_other _ _ rfl

theorem framing_lcd_xy (s : LcdState) (x y : Int) :
    framing_of (lcd_xy s x y).log = framing_of s.log :=
  framing_send_command _ _

theorem framing_buffer_store (s : LcdState) (y x : Int) (c : Nat) :
    framing_of (buffer_store s y x c).log = framing_of s.log :=
  framing_append_other _ _ rfl

theorem framing_user_read (s : LcdState) (buf : List Nat) (i : Nat) :
    framing_of (user_read s buf i).2.log = framing_of s.log ++ [LcdEvent.read i] :=
  framing_append_framing _ _ rfl

theorem framing_foldl {α : Type} (f : LcdState → α → LcdState)
    (hf : ∀ s a, framing_of (f s a).log = framing_of s.log) :
    ∀ (l : List α) (s : LcdState), framing_of (l.foldl f s).log = framing_of s.log := by
  intro l
  induction l with
  | nil => intro s; rfl
  | cons a l ih => intro s; rw [List.foldl_cons, ih, hf]

theorem framing_clear_buffer (s : LcdState) :
    framing_of (clear_buffer s).log = framing_of s.log := by
  unfold clear_buffer
  exact framing_foldl _ (fun s _ => framing_foldl _ (fun s _ => framing_buffer_store _ _ _ _) _ s) _ s

theorem framing_print_buffer (s : LcdState) :
    framing_of (print_buffer s).log = framing_of s.log := by
  unfold print_buffer
  exact framing_foldl _
    (fun s _ => (framing_foldl _ (fun s _ => framing_send_character _ _) _ _).trans
      (framing_lcd_xy _ _ _)) _ s

theorem framing_scroll_up (s : LcdState) :
    framing_of (scroll_up s).log = framing_of s.log := by
  unfold scroll_up
  exact (framing_foldl _ (fun s _ => framing_buffer_store _ _ _ _) _ _).trans
    (framing_foldl _ (fun s _ => framing_foldl _ (fun s _ => framing_buffer_store _ _ _ _) _ s)
      _ s)

theorem framing_new_line (s : LcdState) :
    framing_of (new_line s).log = framing_of s.log := by
  unfold new_line
  simp only []
  rw [framing_lcd_xy]
  split_ifs
  · rw [framing_print_buffer, framing_scroll_up]
  · rfl

theorem framing_clear_screen (s : LcdState) :
    framing_of (clear_screen s).log = framing_of s.log := by
  unfold clear_screen
  exact (framing_send_command _ _).trans (framing_clear_buffer s)

theorem framing_fetch (s : LcdState) (pos : Nat) :
    framing_of (fetch s pos).log = framing_of s.log ++ [LcdEvent.read pos] := by
  unfold fetch
  simp only []
  split_ifs
  · rw [framing_new_line]
    exact framing_append_framing _ _ rfl
  · exact framing_append_framing _ _ rfl

theorem framing_run_handler (c i p : Nat) (ht : dsp_commands.get? i = some (c, p))
    (s : LcdState) (buf : List Nat) (arg : Nat) :
    framing_of (run_handler i s buf arg).log =
      framing_of s.log ++ LcdEvent.invoke i arg ::
        (List.range p).map (fun j => LcdEvent.read (arg + j)) := by
  have hinv : framing_of (s.log ++ [LcdEvent.invoke i arg]) =
      framing_of s.log ++ [LcdEvent.invoke i arg] := framing_append_framing _ _ rfl
  rcases table_cases c i p ht with h | h | h | h | h | h <;> obtain ⟨hi, hp⟩ := h <;> subst hi <;>
    subst hp
  · simp only [run_handler]
    rw [framing_clear_screen]
    simpa using hinv
  · simp only [run_handler, dsp_cmd_cursor]
    rw [framing_send_command, framing_user_read, framing_user_read]
    simp [hinv, List.range_succ]
  · simp only [run_handler, dsp_cmd_setxy]
    rw [framing_lcd_xy, framing_user_read, framing_user_read]
    simp [hinv, List.range_succ]
  · simp only [run_handler, dsp_cmd_draw_mode]
    have := framing_user_read { s with log := s.log ++ [LcdEvent.invoke 3 arg] } buf arg
    simp only [user_read] at this ⊢
    rw [this]
    simp [hinv, List.range_succ]
  · simp only [run_handler, dsp_cmd_define_char]
    rw [framing_send_command]
    have hf : ∀ (n : Nat) (t : LcdState),
        framing_of ((List.range n).foldl (fun s i => send_character
          (user_read s buf (arg + (i + 1))).2 (user_read s buf (arg + (i + 1))).1) t).log =
        framing_of t.log ++ (List.range n).map (fun j => LcdEvent.read (arg + (j + 1))) := by
      intro n
      induction n with
      | zero => intro t; simp
      | succ n ih =>
        intro t
        rw [show List.range (n + 1) = List.range n ++ [n] from List.range_succ n,
          List.foldl_append, List.map_append]
        simp only [List.foldl_cons, List.foldl_nil, List.map_cons, List.map_nil]
        rw [framing_send_character, framing_user_read, ih, List.append_assoc]
    rw [hf 8, framing_send_command, framing_user_read]
    simp [hinv, List.range_succ]
  · simp only [run_handler]
    rw [framing_new_line]
    simpa using hinv

theorem find_command_none : ∀ (l : List (Nat × Nat)) (c k : Nat),
    find_command c l k = none → ∀ p, (c, p) ∉ l := by
  intro l
  induction l with
  | nil => intro c k _ p; simp
  | cons a l ih =>
    intro c k h p
    obtain ⟨cmd, params⟩ := a
    simp only [find_command] at h
    by_cases hc : cmd = c
    · rw [if_pos hc] at h
      exact Option.noConfusion h
    · rw [if_neg hc] at h
      intro hm
      rcases List.mem_cons.mp hm with e | e
      · exact hc (congrArg Prod.fst e).symm
      · exact ih c (k + 1) h p e

theorem drop_cons_facts (buf : List Nat) (pos c : Nat) (r : List Nat)
    (hd : buf.drop pos = c :: r) :
    buf.drop (pos + 1) = r ∧ buf.get? pos = some c ∧ buf.length = pos + 1 + r.length := by
  have h1 : buf.drop (pos + 1) = r := by
    have := congrArg (List.drop 1) hd
    rw [List.drop_drop] at this
    simpa [Nat.add_comm] using this
  have h2 : buf.get? pos = some c := by
    have := congrArg List.head? hd
    simpa [List.head?_drop] using this
  have h3 : buf.length = pos + 1 + r.length := by
    have := congrArg List.length hd
    simp only [List.length_drop, List.length_cons] at this
    omega
  exact ⟨h1, h2, h3⟩

theorem frame_tokens_sound (buf : List Nat) : ∀ (rest : List Nat) (pos skip : Nat),
    buf.drop pos = rest → ∀ tok ∈ frame_tokens rest pos skip,
      token_sound buf tok ∧ pos ≤ token_pos tok := by
  intro rest
  induction rest with
  | nil => intro pos skip _ tok h; simp [frame_tokens] at h
  | cons c r ih =>
    intro pos skip hd tok h
    obtain ⟨h1, h2, h3⟩ := drop_cons_facts buf pos c r hd
    have step : ∀ k, tok ∈ frame_tokens r (pos + 1) k → token_sound buf tok ∧ pos ≤ token_pos tok :=
      fun k hk => ⟨(ih (pos + 1) k h1 tok hk).1, by have := (ih (pos + 1) k h1 tok hk).2; omega⟩
    cases skip with
    | succ k => exact step k (by simpa only [frame_tokens] using h)
    | zero =>
      by_cases hc : c > 31 ∨ c < 8
      · simp only [frame_tokens, if_pos hc, List.mem_cons] at h
        rcases h with e | e
        · subst e
          exact ⟨⟨h2, hc⟩, le_refl _⟩
        · exact step 0 e
      · cases hf : find_command c dsp_commands 0 with
        | none =>
          simp only [frame_tokens, if_neg hc, hf, List.mem_cons] at h
          rcases h with e | e
          · subst e
            exact ⟨⟨h2, hc, find_command_none dsp_commands c 0 hf⟩, le_refl _⟩
          · exact step 0 e
        | some ip =>
          obtain ⟨i, p⟩ := ip
          have ht := find_command_table c i p hf
          by_cases hp : r.length < p
          · simp only [frame_tokens, if_neg hc, hf, if_pos hp, List.mem_singleton] at h
            subst h
            exact ⟨⟨c, p, h2, ht, by omega⟩, le_refl _⟩
          · simp only [frame_tokens, if_neg hc, hf, if_neg hp, List.mem_cons] at h
            rcases h with e | e
            · subst e
              have hl : (List.take p r).length = p := by
                rw [List.length_take]
                omega
              refine ⟨⟨c, h2, by rw [hl]; exact ht, by rw [hl, h1], by rw [hl]; omega⟩, le_refl _⟩
            · exact step p e

theorem frame_tokens_increasing : ∀ (rest : List Nat) (pos skip : Nat),
    (frame_tokens rest pos skip).Pairwise (fun a b => token_pos a < token_pos b) := by
  intro rest
  induction rest with
  | nil => intro pos skip; simp [frame_tokens]
  | cons c r ih =>
    intro pos skip
    have low : ∀ k, ∀ tok ∈ frame_tokens r (pos + 1) k, pos < token_pos tok := by
      intro k tok hk
      have := (frame_tokens_sound (List.replicate (pos + 1) 0 ++ r) r (pos + 1) k
        (by simp) tok hk).2
      omega
    cases skip with
    | succ k => simpa only [frame_tokens] using ih (pos + 1) k
    | zero =>
      by_cases hc : c > 31 ∨ c < 8
      · simp only [frame_tokens, if_pos hc]
        exact List.Pairwise.cons (low 0) (ih (pos + 1) 0)
      · cases hf : find_command c dsp_commands 0 with
        | none =>
          simp only [frame_tokens, if_neg hc, hf]
          exact List.Pairwise.cons (low 0) (ih (pos + 1) 0)
        | some ip =>
          obtain ⟨i, p⟩ := ip
          by_cases hp : r.length < p
          · simp only [frame_tokens, if_neg hc, hf, if_pos hp]
            exact List.pairwise_singleton _ _
          · simp only [frame_tokens, if_neg hc, hf, if_neg hp]
            exact List.Pairwise.cons (low p) (ih (pos + 1) p)

theorem framing_tokens : ∀ (rest : List Nat) (pos skip : Nat) (s : LcdState),
    framing_of ((frame_tokens rest pos skip).foldl exec_token s).log =
      framing_of s.log ++ (frame_tokens rest pos skip).flatMap token_framing := by
  intro rest
  induction rest with
  | nil => intro pos skip s; simp [frame_tokens]
  | cons c r ih =>
    intro pos skip s
    cases skip with
    | succ k => simpa only [frame_tokens] using ih (pos + 1) k s
    | zero =>
      by_cases hc : c > 31 ∨ c < 8
      · simp only [frame_tokens, if_pos hc, List.foldl_cons, List.flatMap_cons]
        rw [ih]
        have : framing_of (exec_token s (Token.print pos c)).log =
            framing_of s.log ++ token_framing (Token.print pos c) := by
          simp only [exec_token, token_framing]
          exact (framing_send_character _ _).trans
            ((framing_buffer_store _ _ _ _).trans (framing_fetch s pos))
        rw [this, List.append_assoc]
      · cases hf : find_command c dsp_commands 0 with
        | none =>
          simp only [frame_tokens, if_neg hc, hf, List.foldl_cons, List.flatMap_cons]
          rw [ih]
          have : framing_of (exec_token s (Token.ignored pos c)).log =
              framing_of s.log ++ token_framing (Token.ignored pos c) := framing_fetch s pos
          rw [this, List.append_assoc]
        | some ip =>
          obtain ⟨i, p⟩ := ip
          have ht := find_command_table c i p hf
          by_cases hp : r.length < p
          · simp only [frame_tokens, if_neg hc, hf, if_pos hp, List.foldl_cons, List.foldl_nil,
              List.flatMap_cons, List.flatMap_nil, List.append_nil]
            exact framing_fetch s pos
          · simp only [frame_tokens, if_neg hc, hf, if_neg hp, List.foldl_cons,
              List.flatMap_cons]
            rw [ih]
            have hl : (List.take p r).length = p := by
              rw [List.length_take]
              omega
            have : framing_of (exec_token s (Token.call pos i (List.take p r))).log =
                framing_of s.log ++ token_framing (Token.call pos i (List.take p r)) := by
              simp only [exec_token, token_framing]
              rw [framing_run_handler c i p ht, framing_fetch, hl, List.append_assoc]
              rfl
            rw [this, List.append_assoc]

/-- C21, as the claim states it, fails: `[72, 105]` holds no command, and `[17, 1]`
is the command `0x11` (two parameter bytes) followed by one byte; when the wait
for the device mutex is interrupted `lcd_write` returns `-ERESTARTSYS` for both
(lines 226-228), not the length 2 for the first and not `-EFAULT` for the
second, and nothing is read. -/
theorem interrupted_write_returns_restart :
    frame_tokens [72, 105] 0 0 = [Token.print 0 72, Token.print 1 105] ∧
    Option.map Prod.fst (lcd_write lcd_boot [72, 105] true) = some (-ERESTARTSYS) ∧
    -ERESTARTSYS ≠ (([72, 105] : List Nat).length : Int) ∧
    frame_tokens [17, 1] 0 0 = [Token.truncated 0 1] ∧
    dsp_commands.get? 1 = some (17, 2) ∧
    Option.map Prod.fst (lcd_write lcd_boot [17, 1] true) = some (-ERESTARTSYS) ∧
    -ERESTARTSYS ≠ -EFAULT ∧
    Option.map (fun r => r.2.log) (lcd_write lcd_boot [17, 1] true) = some [] := by
  decide

theorem read_of_token_sound (buf : List Nat) (tok : Token) (h : token_sound buf tok) (i : Nat)
    (hi : LcdEvent.read i ∈ token_framing tok) : i < buf.length := by
  have hlt : ∀ (pos c : Nat), buf.get? pos = some c → pos < buf.length := by
    intro pos c hg
    by_contra hn
    rw [List.get?_eq_none.mpr (by omega)] at hg
    exact Option.noConfusion hg
  cases tok with
  | print pos c =>
    simp only [token_framing, List.mem_singleton, LcdEvent.read.injEq] at hi
    subst hi
    exact hlt _ c h.1
  | call pos entry params =>
    obtain ⟨c, hg, _, _, hb⟩ := h
    simp only [token_framing, List.mem_cons, LcdEvent.read.injEq, reduceCtorEq, false_or,
      List.mem_map, List.mem_range] at hi
    rcases hi with e | ⟨j, hj, e⟩
    · subst e
      exact hlt _ c hg
    · omega
  | ignored pos c =>
    simp only [token_framing, List.mem_singleton, LcdEvent.read.injEq] at hi
    subst hi
    exact hlt _ c h.1
  | truncated pos entry =>
    obtain ⟨c, p, hg, _, _⟩ := h
    simp only [token_framing, List.mem_singleton, LcdEvent.read.injEq] at hi
    subst hi
    exact hlt _ c hg

theorem invoke_of_token (tok : Token) (e a : Nat)
    (hi : LcdEvent.invoke e a ∈ token_framing tok) :
    ∃ params, tok = Token.call (a - 1) e params ∧ a = token_pos tok + 1 := by
  cases tok with
  | print pos c => simp [token_framing] at hi
  | call pos entry params =>
    simp only [token_framing, List.mem_cons, reduceCtorEq, LcdEvent.invoke.injEq, false_or,
      List.mem_map, and_false, exists_false, or_false] at hi
    obtain ⟨h1, h2⟩ := hi
    subst h1
    subst h2
    exact ⟨params, by simp, rfl⟩
  | ignored pos c => simp [token_framing] at hi
  | truncated pos entry => simp [token_framing] at hi

/-- C21 (amended). Command framing of `lcd_write`.  When the wait for the device
mutex is interrupted, `lcd_write` returns `-ERESTARTSYS` and leaves the state as
it was.  Otherwise, for every state (nothing recorded yet) and every buffer,
`lcd_write` returns, and what it does is what the framing of the buffer into
tokens says: printed bytes, commands of the table with the parameter bytes that
follow them, ignored control bytes, and at most a final command cut short.  The
handler of a command sees its parameter bytes only, these bytes are passed over
and are no tokens of their own, every index read is below the length of the
buffer, a command followed by fewer bytes than its parameter count gives
`-EFAULT` and its handler is not called, and without such a command the result
is the length of the buffer. -/
theorem lcd_write_command_framing (s : LcdState) (buf : List Nat) (hlog : s.log = []) :
    lcd_write s buf true = some (-ERESTARTSYS, s) ∧
    ∃ s', lcd_write s buf false = some (framed_result buf, s') ∧
      s' = (frame_tokens buf 0 0).foldl exec_token
        (if s.draw_mode_reset then clear_screen s else s) ∧
      framing_of s'.log = (frame_tokens buf 0 0).flatMap token_framing ∧
      (∀ i, LcdEvent.read i ∈ s'.log → i < buf.length) ∧
      (∀ tok ∈ frame_tokens buf 0 0, token_sound buf tok) ∧
      (∀ pos entry, Token.truncated pos entry ∈ frame_tokens buf 0 0 →
        framed_result buf = -EFAULT ∧ ∀ e, LcdEvent.invoke e (pos + 1) ∉ s'.log) ∧
      ((∀ pos entry, Token.truncated pos entry ∉ frame_tokens buf 0 0) →
        framed_result buf = (buf.length : Int)) := by
  have hsound : ∀ tok ∈ frame_tokens buf 0 0, token_sound buf tok :=
    fun tok h => (frame_tokens_sound buf buf 0 0 rfl tok h).1
  have hs0 : framing_of (if s.draw_mode_reset then clear_screen s else s).log = [] := by
    split_ifs
    · rw [framing_clear_screen, hlog]
      rfl
    · rw [hlog]
      rfl
  have hfr : framing_of ((frame_tokens buf 0 0).foldl exec_token
      (if s.draw_mode_reset then clear_screen s else s)).log =
      (frame_tokens buf 0 0).flatMap token_framing := by
    rw [framing_tokens, hs0, List.nil_append]
  refine ⟨rfl, _, ?_, rfl, hfr, ?_, hsound, ?_, ?_⟩
  · unfold lcd_write
    rw [if_neg (by decide)]
    simp only []
    rw [lcd_write_loop_tokens buf.length buf 0 buf.length _ (by simp) (le_refl _)]
    rfl
  · intro i hi
    have hm : LcdEvent.read i ∈ framing_of ((frame_tokens buf 0 0).foldl exec_token
        (if s.draw_mode_reset then clear_screen s else s)).log :=
      List.mem_filter.mpr ⟨hi, rfl⟩
    rw [hfr] at hm
    obtain ⟨tok, ht, hr⟩ := List.mem_flatMap.mp hm
    exact read_of_token_sound buf tok (hsound tok ht) i hr
  · intro pos entry hmem
    constructor
    · unfold framed_result
      rw [if_pos (List.any_eq_true.mpr ⟨_, hmem, rfl⟩)]
    · intro e hi
      have hm : LcdEvent.invoke e (pos + 1) ∈ framing_of
          ((frame_tokens buf 0 0).foldl exec_token
            (if s.draw_mode_reset then clear_screen s else s)).log :=
        List.mem_filter.mpr ⟨hi, rfl⟩
      rw [hfr] at hm
      obtain ⟨tok, ht, hr⟩ := List.mem_flatMap.mp hm
      obtain ⟨params, he, hp⟩ := invoke_of_token tok e (pos + 1) hr
      have hne : tok ≠ Token.truncated pos entry := by
        rw [he]
        exact Token.noConfusion
      have hpw := (frame_tokens_increasing buf 0 0).imp (fun {a b} (h : token_pos a < token_pos b) =>
        (Nat.ne_of_lt h : token_pos a ≠ token_pos b))
      have := List.Pairwise.forall (fun a b (h : token_pos a ≠ token_pos b) => h.symm) hpw
        ht hmem hne
      apply this
      show token_pos tok = pos
      omega
  · intro hno
    unfold framed_result
    rw [if_neg]
    intro hany
    obtain ⟨tok, ht, hb⟩ := List.any_eq_true.mp hany
    cases tok with
    | truncated pos entry => exact hno pos entry ht
    | print pos c => exact Bool.noConfusion hb
    | call pos entry params => exact Bool.noConfusion hb
    | ignored pos c => exact Bool.noConfusion hb

theorem lcd_write_command_framing_witness :
    lcd_boot.log = [] ∧
    frame_tokens [72, 17, 1, 0, 105] 0 0 =
      [Token.print 0 72, Token.call 1 1 [1, 0], Token.print 4 105] ∧
    framed_result [72, 17, 1, 0, 105] = 5 ∧
    frame_tokens [72, 20, 1, 0, 105] 0 0 = [Token.print 0 72, Token.truncated 1 4] ∧
    framed_result [72, 20, 1, 0, 105] = -14 ∧
    (∃ s', lcd_write lcd_boot [72, 17, 1, 0, 105] false = some (5, s') ∧
      framing_of s'.log = [LcdEvent.read 0, LcdEvent.read 1, LcdEvent.invoke 1 2,
        LcdEvent.read 2, LcdEvent.read 3, LcdEvent.read 4] ∧
      ∀ i, LcdEvent.read i ∈ s'.log → i < 5) ∧
    (∃ s', lcd_write lcd_boot [72, 20, 1, 0, 105] false = some (-14, s') ∧
      framing_of s'.log = [LcdEvent.read 0, LcdEvent.read 1] ∧
      ∀ e, LcdEvent.invoke e 2 ∉ s'.log) := by
  have k1 : frame_tokens [72, 17, 1, 0, 105] 0 0 =
      [Token.print 0 72, Token.call 1 1 [1, 0], Token.print 4 105] := by decide
  have k2 : framed_result [72, 17, 1, 0, 105] = 5 := by decide
  have k3 : frame_tokens [72, 20, 1, 0, 105] 0 0 = [Token.print 0 72, Token.truncated 1 4] := by
    decide
  have k4 : framed_result [72, 20, 1, 0, 105] = -14 := by decide
  obtain ⟨_, s1, a1, _, a3, a4, _, _, _⟩ :=
    lcd_write_command_framing lcd_boot [72, 17, 1, 0, 105] rfl
  obtain ⟨_, s2, b1, _, b3, _, _, b6, _⟩ :=
    lcd_write_command_framing lcd_boot [72, 20, 1, 0, 105] rfl
  refine ⟨rfl, k1, k2, k3, k4, ⟨s1, ?_, ?_, a4⟩, ⟨s2, ?_, ?_, ?_⟩⟩
  · rw [a1, k2]
  · rw [a3, k1]
    decide
  · rw [b1, k4]
  · rw [b3, k3]
    decide
  · exact (b6 1 4 (by rw [k3]; decide)).2

end St7066u
